import Mathlib

/-!
# Verification of the AGG array primitives (`src/agg/agg_array.h`)

A shallow embedding of the container and sorting primitives of `agg_array.h`
and theorems about them.

Conventions of the embedding.

* An indexable container (`Array& arr` of `quick_sort` / `remove_duplicates`)
  is a `List α`; `arr[i]` is `arr[i]?` and an access outside `[0, size)` is
  undefined behaviour, modelled as the result `none`.
* C++ loops are functions with a fuel argument that decreases structurally;
  running out of fuel also gives `none`, and the theorems show that the
  fuel supplied by the entry points is always enough.
* Indices of `quick_sort` are C++ `int`s.  The embedding keeps them in `Nat`
  and makes the places where the C++ value could leave `Nat` explicit
  (`j--` at `0`, the differences `limit - base`, `j - base`, `limit - i`).
* A member of type `unsigned` that counts the elements, blocks or bytes that a
  container holds is a natural number, and the updates of these counters
  (`++m_size`, `m_size += n`, `m_max_blocks + m_block_ptr_inc`) are exact: a
  container that holds `2^32` elements or more is outside the embedding, like
  an allocation that fails.  The values that the source computes from the
  counters and the arguments have their 32-bit result explicit (`u32`,
  `u32_sub`, `int_of_unsigned`): `int limit = arr.size()`, `cap + extra_tail`,
  `size + alignment - 1`, `unsigned((size_t)ptr)`, `m_size * sizeof(T)` in
  `byte_size`, `idx + 1` and `idx + m_size - 1` in `next` and `prev`,
  `size + block_mask` in `free_tail`, `start + i` in `deserialize`, and the
  `int` that `allocate_continuous_block` returns.
* Heap storage is owned by one object, so a block is modelled by its contents
  (`pod_array`, `pod_deque`) or by its address and length (`pod_allocator`).
-/

namespace agg

variable {α : Type}

/-! ## `swap_elements`, `quick_sort` (lines 829-947) -/

/-- The constant `quick_sort_threshold`. -/
def quick_sort_threshold : Nat := 9

/-- Number of `(base, limit)` pairs that fit in `int stack[80]`. -/
def quick_sort_stack_pairs : Nat := 40

/-- The call `swap_elements(arr[i], arr[j])`: `temp = a; a = b; b = temp`
with `a = arr[i]`, `b = arr[j]`.  Both references have to be inside the array. -/
def swap_elements (arr : List α) (i j : Nat) : Option (List α) :=
  match arr[i]?, arr[j]? with
  | some a, some b => some ((arr.set i b).set j a)
  | _, _ => none

/-- The statement `e1 = &arr[p]; e2 = &arr[q]; if(less(*e1, *e2)) swap_elements(*e1, *e2);`. -/
def swap_if_less (less : α → α → Bool) (arr : List α) (p q : Nat) : Option (List α) :=
  match arr[p]?, arr[q]? with
  | some a, some b => if less a b then swap_elements arr p q else some arr
  | _, _ => none

/-- The loop `do i++; while( less(arr[i], arr[base]) );`, started with the value `i`;
returns the final `i`. -/
def scan_up (less : α → α → Bool) (arr : List α) (base : Nat) : Nat → Nat → Option Nat
  | 0, _ => none
  | fuel + 1, i =>
    match arr[i + 1]?, arr[base]? with
    | some a, some p => if less a p then scan_up less arr base fuel (i + 1) else some (i + 1)
    | _, _ => none

/-- The loop `do j--; while( less(arr[base], arr[j]) );`, started with the value `j`;
returns the final `j`.  At `j = 0` the decrement gives `-1` and `arr[-1]` is
outside the array. -/
def scan_down (less : α → α → Bool) (arr : List α) (base : Nat) : Nat → Option Nat
  | 0 => none
  | j + 1 =>
    match arr[base]?, arr[j]? with
    | some p, some a => if less p a then scan_down less arr base j else some j
    | _, _ => none

/-- The inner `for(;;)` of the partition step (lines 888-899): scan up, scan
down, leave when `i > j`, otherwise swap `arr[i]` and `arr[j]` and repeat.
Returns the array and the final `i`, `j`. -/
def partition_loop (less : α → α → Bool) (base : Nat) :
    Nat → List α → Nat → Nat → Option (List α × Nat × Nat)
  | 0, _, _, _ => none
  | fuel + 1, arr, i, j =>
    match scan_up less arr base arr.length i with
    | none => none
    | some i1 =>
      match scan_down less arr base j with
      | none => none
      | some j1 =>
        if i1 > j1 then some (arr, i1, j1)
        else
          match swap_elements arr i1 j1 with
          | none => none
          | some arr1 => partition_loop less base fuel arr1 i1 j1

/-- The inner loop of the insertion sort (lines 926-933):
`for(; less(arr[j + 1], arr[j]); j--) { swap; if(j == base) break; }`. -/
def insertion_inner (less : α → α → Bool) (base : Nat) :
    Nat → List α → Nat → Option (List α)
  | 0, _, _ => none
  | fuel + 1, arr, j =>
    match arr[j + 1]?, arr[j]? with
    | some a, some b =>
      if less a b then
        match swap_elements arr (j + 1) j with
        | none => none
        | some arr1 =>
          if j = base then some arr1
          else if j = 0 then none
          else insertion_inner less base fuel arr1 (j - 1)
      else some arr
    | _, _ => none

/-- The outer loop of the insertion sort (line 924):
`for(; i < limit; j = i, i++) { inner loop }`. -/
def insertion_outer (less : α → α → Bool) (base limit : Nat) :
    Nat → List α → Nat → Nat → Option (List α)
  | 0, _, _, _ => none
  | fuel + 1, arr, i, j =>
    if i < limit then
      match insertion_inner less base (j + 1) arr j with
      | none => none
      | some arr1 => insertion_outer less base limit fuel arr1 (i + 1) i
    else some arr

/-- The insertion sort branch (lines 920-934): `j = base; i = j + 1;` and the loops. -/
def insertion_sort (less : α → α → Bool) (arr : List α) (base limit : Nat) : Option (List α) :=
  insertion_outer less base limit (limit - base + 1) arr (base + 1) base

/-- One partition step (lines 868-901) on the range `[base, limit)`: returns
the array and the final `i`, `j`. -/
def partition_step (less : α → α → Bool) (arr : List α) (base limit : Nat) :
    Option (List α × Nat × Nat) :=
  let pivot := base + (limit - base) / 2
  match swap_elements arr base pivot with
  | none => none
  | some arr1 =>
    let i := base + 1
    let j := limit - 1
    match swap_if_less less arr1 j i with
    | none => none
    | some arr2 =>
      match swap_if_less less arr2 base i with
      | none => none
      | some arr3 =>
        match swap_if_less less arr3 j base with
        | none => none
        | some arr4 =>
          match partition_loop less base arr4.length arr4 i j with
          | none => none
          | some (arr5, i1, j1) =>
            match swap_elements arr5 base j1 with
            | none => none
            | some arr6 => some (arr6, i1, j1)

/-- The outer `for(;;)` of `quick_sort` (lines 858-946).  `cap` is the number
of pairs the explicit stack can hold; a push onto a full stack writes
outside `stack[80]` and is undefined.  `stack` lists the pushed
`(base, limit)` pairs, the top first. -/
def quick_sort_loop (less : α → α → Bool) (cap : Nat) :
    Nat → List α → Nat → Nat → List (Nat × Nat) → Option (List α)
  | 0, _, _, _, _ => none
  | fuel + 1, arr, base, limit, stack =>
    if (limit : Int) - (base : Int) > (quick_sort_threshold : Int) then
      match partition_step less arr base limit with
      | none => none
      | some (arr1, i, j) =>
        if cap ≤ stack.length then none
        else if (j : Int) - (base : Int) > (limit : Int) - (i : Int) then
          quick_sort_loop less cap fuel arr1 i limit ((base, j) :: stack)
        else
          quick_sort_loop less cap fuel arr1 base j ((i, limit) :: stack)
    else
      match insertion_sort less arr base limit with
      | none => none
      | some arr1 =>
        match stack with
        | [] => some arr1
        | (b, l) :: rest => quick_sort_loop less cap fuel arr1 b l rest

/-- The function `quick_sort(arr, less)`.  `int limit = arr.size()` turns a size
of `2^31` or more into a negative `limit`, so that the first range is
empty for the loop and the array is returned as it is. -/
def quick_sort (less : α → α → Bool) (arr : List α) : Option (List α) :=
  if arr.length < 2 then some arr
  else if 2 ^ 31 ≤ arr.length then some arr
  else quick_sort_loop less quick_sort_stack_pairs (2 * arr.length + 1) arr 0 arr.length []

/-! ## Predicates used to state and prove the properties of `quick_sort` -/

/-- A strict weak ordering given as a Boolean predicate: irreflexive,
transitive, and with a transitive incomparability relation. -/
structure StrictWeakOrder (less : α → α → Bool) : Prop where
  irrefl : ∀ a, less a a = false
  trans : ∀ a b c, less a b = true → less b c = true → less a c = true
  incomp_trans : ∀ a b c, less a b = false → less b a = false →
    less b c = false → less c b = false → less a c = false ∧ less c a = false

/-- The element at index `p` is not after the element at index `q` (`arr[q]` is not less
than `arr[p]`), for the indices that are inside the array. -/
def LeAt (less : α → α → Bool) (arr : List α) (p q : Nat) : Prop :=
  ∀ a b, arr[p]? = some a → arr[q]? = some b → less b a = false

/-- The array `out` comes from `arr` by moving elements around inside `[lo, hi)` only. -/
def Shuffle (lo hi : Nat) (arr out : List α) : Prop :=
  out.length = arr.length ∧
  (∀ k, k < lo ∨ hi ≤ k → out[k]? = arr[k]?) ∧
  (∀ k, lo ≤ k → k < hi → ∃ k1, lo ≤ k1 ∧ k1 < hi ∧ out[k]? = arr[k1]?)

/-- Every range of the list is a range `[b, l)` of an array of length `n`. -/
def RangesOK (n : Nat) (rs : List (Nat × Nat)) : Prop :=
  ∀ r ∈ rs, r.1 ≤ r.2 ∧ r.2 ≤ n

/-- The ranges of the list do not overlap. -/
def RangesDisjoint (rs : List (Nat × Nat)) : Prop :=
  rs.Pairwise (fun r s => r.2 ≤ s.1 ∨ s.2 ≤ r.1)

/-- Two indices that do not lie together in one of the ranges are in order. -/
def SortedOutside (less : α → α → Bool) (arr : List α) (rs : List (Nat × Nat)) : Prop :=
  ∀ p q, p < q → q < arr.length → (∀ r ∈ rs, ¬ (r.1 ≤ p ∧ q < r.2)) → LeAt less arr p q

/-- The range at depth `k` of the stack (counted from the bottom) has at most `n / 2^k`
elements. -/
def DepthOK (n : Nat) : List (Nat × Nat) → Prop
  | [] => True
  | r :: rest => (r.2 - r.1) * 2 ^ rest.length ≤ n ∧ DepthOK n rest

/-- An upper bound of the number of rounds of the outer loop that the ranges still need. -/
def pending_work : List (Nat × Nat) → Nat
  | [] => 0
  | r :: rest => 2 * (r.2 - r.1) + 1 + pending_work rest

end agg

namespace agg
variable {α : Type}

/-! ## `remove_duplicates` (lines 952-971) -/

/-- The loop `for(i = 1, j = 1; i < arr.size(); i++)` of `remove_duplicates`:
`e = arr[i]; if(!equal(e, arr[i - 1])) arr[j++] = e;`.  Returns the array and the final `j`. -/
def remove_duplicates_loop (equal : α → α → Bool) :
    Nat → List α → Nat → Nat → Option (List α × Nat)
  | 0, _, _, _ => none
  | fuel + 1, arr, i, j =>
    if i < arr.length then
      match arr[i]?, arr[i - 1]? with
      | some e, some prev =>
        if !equal e prev then
          if j < arr.length then remove_duplicates_loop equal fuel (arr.set j e) (i + 1) (j + 1)
          else none
        else remove_duplicates_loop equal fuel arr (i + 1) j
      | _, _ => none
    else some (arr, j)

/-- The function `remove_duplicates(arr, equal)`: the array afterwards and the returned count. -/
def remove_duplicates (equal : α → α → Bool) (arr : List α) : Option (List α × Nat) :=
  if arr.length < 2 then some (arr, arr.length)
  else remove_duplicates_loop equal arr.length arr 1 1

/-- The index `i` starts a run of the array `a`: `i = 0`, or `equal(a[i], a[i-1])` is false. -/
def starts_run (equal : α → α → Bool) (a : List α) (i : Nat) : Bool :=
  i == 0 ||
    match a[i]?, a[i - 1]? with
    | some x, some y => !equal x y
    | _, _ => false

/-- The indices below `n` that start a run of `a`, in increasing order. -/
def run_starts (equal : α → α → Bool) (a : List α) (n : Nat) : List Nat :=
  (List.range n).filter (starts_run equal a)

end agg

namespace agg
variable {α : Type}

/-! ## Bytes and trivially copyable element types -/

/-- The byte type `int8u` of `agg_basics.h` (an `unsigned char`). -/
abbrev int8u : Type := Fin 256

/-- The value of a C++ `unsigned` expression whose mathematical value is `x`. -/
def u32 (x : Nat) : Nat := x % 2 ^ 32

/-- The value of a C++ `int` that is initialised with an `unsigned` of the mathematical
value `x` (two's complement: the values from `2^31` on become negative). -/
def int_of_unsigned (x : Nat) : Int :=
  if u32 x < 2 ^ 31 then (u32 x : Int) else (u32 x : Int) - 2 ^ 32

/-- A plain-old-data element type: `sizeof(T)` and the two directions of `memcpy` between an
object of type `T` and its `sizeof(T)` bytes.  Copying the bytes of an object out and in
again gives back the object, and copying `sizeof(T)` bytes in and out again gives back the
bytes. -/
class Pod (T : Type) where
  /-- The number `sizeof(T)`. -/
  sizeof : Nat
  /-- The bytes read from an object by `memcpy(ptr, &x, sizeof(T))`. -/
  bytes : T → List int8u
  /-- The object written by `memcpy(&x, data, sizeof(T))`. -/
  object : List int8u → T
  sizeof_pos : 0 < sizeof
  bytes_length : ∀ x, (bytes x).length = sizeof
  object_bytes : ∀ x, object (bytes x) = x
  bytes_object : ∀ bs, bs.length = sizeof → bytes (object bs) = bs

/-- A one-byte element type. -/
instance : Pod int8u where
  sizeof := 1
  bytes x := [x]
  object bs := bs.headD 0
  sizeof_pos := by decide
  bytes_length _ := rfl
  object_bytes _ := rfl
  bytes_object bs h := by
    match bs, h with
    | [b], _ => rfl

/-- A two-byte element type (a struct of two bytes). -/
instance : Pod (int8u × int8u) where
  sizeof := 2
  bytes x := [x.1, x.2]
  object bs := (bs.headD 0, bs.tail.headD 0)
  sizeof_pos := by decide
  bytes_length _ := rfl
  object_bytes _ := rfl
  bytes_object bs h := by
    match bs, h with
    | [a, b], _ => rfl

/-- The elements that `memcpy(dst, data, n * sizeof(T))` writes to `dst[0..n)`. -/
def decode_elems {T : Type} [Pod T] : Nat → List int8u → List T
  | 0, _ => []
  | n + 1, data =>
    Pod.object (data.take (Pod.sizeof T)) :: decode_elems n (data.drop (Pod.sizeof T))

/-- The bytes that `memcpy(ptr, src, n * sizeof(T))` reads from the elements `src[0..n)`. -/
def encode_elems {T : Type} [Pod T] : List T → List int8u
  | [] => []
  | x :: xs => Pod.bytes x ++ encode_elems xs

/-! ## `pod_array` (lines 125-259) -/

/-- The class `pod_array<T>`.  `m_array` lists the elements of the allocation `new T[...]`
that the pointer `m_array` refers to (the null pointer is the empty list); an element of a
fresh allocation has the arbitrary value `default`. -/
structure pod_array (T : Type) where
  m_size : Nat
  m_capacity : Nat
  m_array : List T

namespace pod_array
variable {T : Type}

/-- The method `capacity(cap, extra_tail)`. -/
def capacity [Inhabited T] (a : pod_array T) (cap : Nat) (extra_tail : Nat) : pod_array T :=
  if cap > a.m_capacity then
    { m_size := 0
      m_capacity := u32 (cap + extra_tail)
      m_array := if u32 (cap + extra_tail) ≠ 0 then List.replicate (u32 (cap + extra_tail)) default
                 else [] }
  else { a with m_size := 0 }

/-- The method `allocate(size, extra_tail)`. -/
def allocate [Inhabited T] (a : pod_array T) (size : Nat) (extra_tail : Nat) : pod_array T :=
  { capacity a size extra_tail with m_size := size }

/-- The method `byte_size()`: the product `m_size * sizeof(T)` as an `unsigned`. -/
def byte_size [Pod T] (a : pod_array T) : Nat := u32 (a.m_size * Pod.sizeof T)

/-- The method `serialize(ptr)`: the bytes written to `ptr`.  The `memcpy` reads
`m_size` elements of the allocation. -/
def serialize [Pod T] (a : pod_array T) : Option (List int8u) :=
  if a.m_size ≠ 0 then
    if a.m_size ≤ a.m_array.length then some (encode_elems (a.m_array.take a.m_size))
    else none
  else some []

/-- The method `deserialize(data, byte_size)`; `data` lists the bytes readable at the
pointer `data`.  The `memcpy` reads `byte_size / sizeof(T) * sizeof(T)` bytes and writes as
many elements of the allocation. -/
def deserialize [Pod T] [Inhabited T] (a : pod_array T) (data : List int8u) (byte_size : Nat) :
    Option (pod_array T) :=
  let n := byte_size / Pod.sizeof T
  let a1 := allocate a n 0
  if n ≠ 0 then
    if n ≤ a1.m_array.length ∧ n * Pod.sizeof T ≤ data.length then
      some { a1 with m_array := decode_elems n data ++ a1.m_array.drop n }
    else none
  else some a1

/-- The constructor `pod_array()`. -/
def init : pod_array T := { m_size := 0, m_capacity := 0, m_array := [] }

/-- An array of two two-byte elements in an allocation of three. -/
def example_array : pod_array (int8u × int8u) :=
  { m_size := 2, m_capacity := 3, m_array := [(1, 2), (3, 4), (0, 0)] }

/-- The allocation of the array has at least `m_capacity` elements. -/
def Allocated (a : pod_array T) : Prop := a.m_capacity ≤ a.m_array.length

instance (a : pod_array T) : Decidable (Allocated a) :=
  inferInstanceAs (Decidable (a.m_capacity ≤ a.m_array.length))

end pod_array

/-! ## `pod_deque` (lines 265-709) -/

/-- The class `pod_deque<T, S>`; the template argument `S` is an argument of the functions.
`m_blocks` lists the entries of the pointer table (the null table is the empty list): an
entry is `some block` when it points to a block `new T[block_size]`, and `none` when it is
not initialised.  An element of a fresh block has the arbitrary value `default`. -/
structure pod_deque (T : Type) where
  m_size : Nat
  m_num_blocks : Nat
  m_max_blocks : Nat
  m_blocks : List (Option (List T))
  m_block_ptr_inc : Nat

namespace pod_deque
variable {T : Type}

/-- The enumerator `block_size = 1 << block_shift`. -/
def block_size (S : Nat) : Nat := 1 <<< S

/-- The enumerator `block_mask = block_size - 1`. -/
def block_mask (S : Nat) : Nat := block_size S - 1

/-- The constructor `pod_deque()`. -/
def init (S : Nat) : pod_deque T :=
  { m_size := 0, m_num_blocks := 0, m_max_blocks := 0, m_blocks := [],
    m_block_ptr_inc := block_size S }

/-- The constructor `pod_deque(block_ptr_inc)`. -/
def init_inc (block_ptr_inc : Nat) : pod_deque T :=
  { m_size := 0, m_num_blocks := 0, m_max_blocks := 0, m_blocks := [],
    m_block_ptr_inc := block_ptr_inc }

/-- The method `allocate_block(nb)`: grow the pointer table when `nb >= m_max_blocks`
(the first `m_num_blocks` pointers are copied), then `m_blocks[nb] = new T[block_size]`. -/
def allocate_block [Inhabited T] (S : Nat) (d : pod_deque T) (nb : Nat) : Option (pod_deque T) :=
  let d1 : pod_deque T :=
    if nb ≥ d.m_max_blocks then
      { d with
        m_blocks := (List.range (d.m_max_blocks + d.m_block_ptr_inc)).map
          (fun k => if k < d.m_num_blocks then d.m_blocks.getD k none else none)
        m_max_blocks := d.m_max_blocks + d.m_block_ptr_inc }
    else d
  if nb < d1.m_blocks.length then
    some { d1 with
      m_blocks := d1.m_blocks.set nb (some (List.replicate (block_size S) default))
      m_num_blocks := d1.m_num_blocks + 1 }
  else none

/-- The method `data_ptr()`: the state afterwards and the returned pointer, as the number
of the block and the offset in it. -/
def data_ptr [Inhabited T] (S : Nat) (d : pod_deque T) : Option (pod_deque T × Nat × Nat) :=
  let nb := d.m_size >>> S
  match (if nb ≥ d.m_num_blocks then allocate_block S d nb else some d) with
  | none => none
  | some d1 =>
    if nb < d1.m_blocks.length then some (d1, nb, d.m_size &&& block_mask S) else none

/-- A write `*ptr = v` through a pointer to the element `off` of the block `nb`. -/
def store (d : pod_deque T) (nb off : Nat) (v : T) : Option (pod_deque T) :=
  match d.m_blocks[nb]? with
  | some (some blk) =>
    if off < blk.length then some { d with m_blocks := d.m_blocks.set nb (some (blk.set off v)) }
    else none
  | _ => none

/-- The element `off` of the block that a pointer-table entry points to. -/
def block_elem (entry : Option (Option (List T))) (off : Nat) : Option T :=
  match entry with
  | some (some blk) => blk[off]?
  | _ => none

/-- The value of `m_blocks[i >> block_shift][i & block_mask]`
(`operator []`, `at`, `value_at`). -/
def value_at (S : Nat) (d : pod_deque T) (i : Nat) : Option T :=
  block_elem d.m_blocks[i >>> S]? (i &&& block_mask S)

/-- The method `add(val)`: `*data_ptr() = val; ++m_size;`. -/
def add [Inhabited T] (S : Nat) (d : pod_deque T) (val : T) : Option (pod_deque T) :=
  match data_ptr S d with
  | none => none
  | some (d1, nb, off) =>
    match store d1 nb off val with
    | none => none
    | some d2 => some { d2 with m_size := d2.m_size + 1 }

/-- The method `add_array(ptr, num_elem)`: `add` for each element in turn. -/
def add_array [Inhabited T] (S : Nat) (d : pod_deque T) : List T → Option (pod_deque T)
  | [] => some d
  | v :: vs =>
    match add S d v with
    | none => none
    | some d1 => add_array S d1 vs

/-- The method `remove_all()`. -/
def remove_all (d : pod_deque T) : pod_deque T := { d with m_size := 0 }

/-- The method `allocate_continuous_block(num_elements)`: the state afterwards and the
returned `int`, which is `-1` or the conversion of the `unsigned index`. -/
def allocate_continuous_block [Inhabited T] (S : Nat) (d : pod_deque T) (num_elements : Nat) :
    Option (pod_deque T × Int) :=
  if num_elements < block_size S then
    match data_ptr S d with
    | none => none
    | some (d1, _, _) =>
      let rest := block_size S - (d1.m_size &&& block_mask S)
      if num_elements ≤ rest then
        some ({ d1 with m_size := d1.m_size + num_elements }, int_of_unsigned d1.m_size)
      else
        let d2 : pod_deque T := { d1 with m_size := d1.m_size + rest }
        match data_ptr S d2 with
        | none => none
        | some (d3, _, _) =>
          some ({ d3 with m_size := d3.m_size + num_elements }, int_of_unsigned d3.m_size)
  else some (d, -1)

/-- The method `byte_size()`: the product `m_size * sizeof(T)` as an `unsigned`. -/
def byte_size [Pod T] (d : pod_deque T) : Nat := u32 (d.m_size * Pod.sizeof T)

/-- The loop of `serialize(ptr)` from the index `i` on, for `k` more elements: the bytes
written to `ptr`. -/
def serialize_from [Pod T] (S : Nat) (d : pod_deque T) : Nat → Nat → Option (List int8u)
  | 0, _ => some []
  | k + 1, i =>
    match value_at S d i with
    | none => none
    | some x =>
      match serialize_from S d k (i + 1) with
      | none => none
      | some rest => some (Pod.bytes x ++ rest)

/-- The method `serialize(ptr)`. -/
def serialize [Pod T] (S : Nat) (d : pod_deque T) : Option (List int8u) :=
  serialize_from S d d.m_size 0

/-- The loop of `deserialize(data, byte_size)` for `k` more elements: each round copies
`sizeof(T)` bytes of `data` to `data_ptr()`, increments `m_size` and advances `data`. -/
def deserialize_loop [Pod T] [Inhabited T] (S : Nat) :
    Nat → pod_deque T → List int8u → Option (pod_deque T)
  | 0, d, _ => some d
  | k + 1, d, data =>
    match data_ptr S d with
    | none => none
    | some (d1, nb, off) =>
      if data.length < Pod.sizeof T then none
      else
        match store d1 nb off (Pod.object (data.take (Pod.sizeof T))) with
        | none => none
        | some d2 =>
          deserialize_loop S k { d2 with m_size := d2.m_size + 1 } (data.drop (Pod.sizeof T))

/-- The method `deserialize(data, byte_size)`; `data` lists the bytes readable at the
pointer `data`. -/
def deserialize [Pod T] [Inhabited T] (S : Nat) (d : pod_deque T) (data : List int8u)
    (byte_size : Nat) : Option (pod_deque T) :=
  deserialize_loop S (byte_size / Pod.sizeof T) (remove_all d) data

/-- The representation invariant of a `pod_deque` with a pointer-table increment of at
least one: the table has `m_max_blocks` entries, the first `m_num_blocks` of them point to
blocks of `block_size` elements, and the elements below `m_size` are in these blocks. -/
structure Inv (S : Nat) (d : pod_deque T) : Prop where
  inc_pos : 1 ≤ d.m_block_ptr_inc
  num_le_max : d.m_num_blocks ≤ d.m_max_blocks
  table_len : d.m_blocks.length = d.m_max_blocks
  blocks : ∀ k, k < d.m_num_blocks →
    ∃ blk, d.m_blocks[k]? = some (some blk) ∧ blk.length = block_size S
  size_le : d.m_size ≤ d.m_num_blocks * block_size S

/-- A sequence of three bytes in two blocks of two (block shift 1). -/
def example_deque : pod_deque int8u :=
  { m_size := 3, m_num_blocks := 2, m_max_blocks := 2,
    m_blocks := [some [1, 2], some [3, 0]], m_block_ptr_inc := 2 }

end pod_deque

end agg

namespace agg

/-! ## `pod_allocator` (lines 712-819) -/

/-- The addresses that `new int8u[size]` returns: a function from the blocks `(address,
length)` that the pool owns and the requested size to the address of the new block. -/
abbrev Heap : Type := List (Nat × Nat) → Nat → Nat

/-- A heap that places a new block after all the blocks it is given, and not below `start`. -/
def heap_from (start : Nat) : Heap :=
  fun live _ => live.foldl (fun m b => max m (b.1 + b.2)) start

/-- The unsigned difference `x - y`. -/
def u32_sub (x y : Nat) : Nat := (x + 2 ^ 32 - y % 2 ^ 32) % 2 ^ 32

/-- The class `pod_allocator`.  An address is a natural number (a `size_t`).  `m_blocks`
lists the entries of the pointer table: `some (address, length)` for a pointer to a
block `new int8u[length]`, `none` for an entry that is not initialised. -/
structure pod_allocator where
  m_block_size : Nat
  m_block_ptr_inc : Nat
  m_num_blocks : Nat
  m_max_blocks : Nat
  m_blocks : List (Option (Nat × Nat))
  m_buf_ptr : Nat
  m_rest : Nat
deriving DecidableEq

namespace pod_allocator

/-- The constructor `pod_allocator(block_size, block_ptr_inc)`. -/
def init (block_size block_ptr_inc : Nat) : pod_allocator :=
  { m_block_size := block_size, m_block_ptr_inc := block_ptr_inc, m_num_blocks := 0,
    m_max_blocks := 0, m_blocks := [], m_buf_ptr := 0, m_rest := 0 }

/-- The blocks that the pool owns: the first `m_num_blocks` entries of the table. -/
def owned (a : pod_allocator) : List (Nat × Nat) :=
  (a.m_blocks.take a.m_num_blocks).filterMap id

/-- The method `allocate_block(size)`. -/
def allocate_block (heap : Heap) (a : pod_allocator) (size : Nat) : Option pod_allocator :=
  let size := if size < a.m_block_size then a.m_block_size else size
  let a1 : pod_allocator :=
    if a.m_num_blocks ≥ a.m_max_blocks then
      { a with
        m_blocks := (List.range (a.m_max_blocks + a.m_block_ptr_inc)).map
          (fun k => if k < a.m_num_blocks then a.m_blocks.getD k none else none)
        m_max_blocks := a.m_max_blocks + a.m_block_ptr_inc }
    else a
  let ptr := heap (owned a1) size
  if a1.m_num_blocks < a1.m_blocks.length then
    some { a1 with
      m_blocks := a1.m_blocks.set a1.m_num_blocks (some (ptr, size))
      m_buf_ptr := ptr
      m_num_blocks := a1.m_num_blocks + 1
      m_rest := size }
  else none

/-- The method `allocate(size, alignment)` with a bound `fuel` on the depth of its
recursion: the state afterwards and the returned address (`0` is the null pointer). -/
def allocate_fuel (heap : Heap) : Nat → pod_allocator → Nat → Nat → Option (pod_allocator × Nat)
  | 0, _, _, _ => none
  | fuel + 1, a, size, alignment =>
    if size = 0 then some (a, 0)
    else if size ≤ a.m_rest then
      if alignment > 1 then
        let align := (alignment - u32 a.m_buf_ptr % alignment) % alignment
        let size1 := u32 (size + align)
        if size1 ≤ a.m_rest then
          some ({ a with m_rest := a.m_rest - size1, m_buf_ptr := a.m_buf_ptr + size1 },
            a.m_buf_ptr + align)
        else
          match allocate_block heap a size1 with
          | none => none
          | some a1 => allocate_fuel heap fuel a1 (u32_sub size1 align) alignment
      else
        some ({ a with m_rest := a.m_rest - size, m_buf_ptr := a.m_buf_ptr + size }, a.m_buf_ptr)
    else
      match allocate_block heap a (u32 (size + alignment - 1)) with
      | none => none
      | some a1 => allocate_fuel heap fuel a1 size alignment

/-- The method `allocate(size, alignment)`.  Without unsigned overflow the recursion is at
most `alignment + 1` calls deep. -/
def allocate (heap : Heap) (a : pod_allocator) (size alignment : Nat) :
    Option (pod_allocator × Nat) :=
  allocate_fuel heap (alignment + 2) a size alignment

/-- A sequence of calls `allocate(size, alignment)`, one for each pair of the list: the
state afterwards and the returned spans `(address, size)`, the last one first. -/
def allocate_all (heap : Heap) :
    pod_allocator → List (Nat × Nat) → List (Nat × Nat) → Option (pod_allocator × List (Nat × Nat))
  | a, spans, [] => some (a, spans)
  | a, spans, r :: rs =>
    match allocate heap a r.1 r.2 with
    | none => none
    | some (a1, ptr) => allocate_all heap a1 ((ptr, r.1) :: spans) rs

end pod_allocator

/-- The heap returns a block that is not at the null address and does not overlap a block
it is given. -/
def Heap.Fresh (heap : Heap) : Prop :=
  ∀ live size, 0 < heap live size ∧
    ∀ b ∈ live, b.1 + b.2 ≤ heap live size ∨ heap live size + size ≤ b.1

/-- The span `s = (address, size)` lies inside the block `b = (address, length)`. -/
def span_inside (s b : Nat × Nat) : Prop := b.1 ≤ s.1 ∧ s.1 + s.2 ≤ b.1 + b.2

/-- The spans (or blocks) `s` and `t` have no byte in common. -/
def span_disjoint (s t : Nat × Nat) : Prop := s.1 + s.2 ≤ t.1 ∨ t.1 + t.2 ≤ s.1

end agg

namespace agg
namespace pod_allocator

/-- The invariant of a pool together with the spans it has returned: the table has
`m_max_blocks` entries and its first `m_num_blocks` entries point to blocks that do not
overlap; the bytes `[m_buf_ptr, m_buf_ptr + m_rest)` are in the last block; each returned
span is not empty, lies in a block, and meets neither these bytes nor another span. -/
structure PoolInv (a : pod_allocator) (spans : List (Nat × Nat)) : Prop where
  num_le_max : a.m_num_blocks ≤ a.m_max_blocks
  table_len : a.m_blocks.length = a.m_max_blocks
  blocks : ∀ k, k < a.m_num_blocks → ∃ b, a.m_blocks[k]? = some (some b)
  blocks_disjoint : ∀ k1 k2 b1 b2, k1 < k2 → k2 < a.m_num_blocks →
    a.m_blocks[k1]? = some (some b1) → a.m_blocks[k2]? = some (some b2) → span_disjoint b1 b2
  free : a.m_rest = 0 ∨ ∃ b, 0 < a.m_num_blocks ∧
    a.m_blocks[a.m_num_blocks - 1]? = some (some b) ∧ span_inside (a.m_buf_ptr, a.m_rest) b
  spans_inside : ∀ s ∈ spans, 0 < s.2 ∧
    ∃ k b, k < a.m_num_blocks ∧ a.m_blocks[k]? = some (some b) ∧ span_inside s b
  spans_free : ∀ s ∈ spans, span_disjoint s (a.m_buf_ptr, a.m_rest)
  spans_disjoint : spans.Pairwise span_disjoint

end pod_allocator
end agg

namespace agg

namespace pod_array
variable {T : Type}

/-- The method `resize(new_size)`.  When it reallocates, `memcpy` reads `m_size` elements
of the old allocation and writes them to the new one, `new T[new_size]`. -/
def resize [Inhabited T] (a : pod_array T) (new_size : Nat) : Option (pod_array T) :=
  if new_size > a.m_size then
    if new_size > a.m_capacity then
      if a.m_size ≤ a.m_array.length then
        some { a with
          m_array := a.m_array.take a.m_size ++ List.replicate (new_size - a.m_size) default }
      else none
    else some a
  else some { a with m_size := new_size }

/-- An array of two numbers in an allocation of two. -/
def example_full : pod_array Nat := { m_size := 2, m_capacity := 2, m_array := [1, 2] }

end pod_array

namespace pod_deque
variable {T : Type}

/-- An assignment `(*this)[i] = v` through the reference that `operator []` returns. -/
def set_at (S : Nat) (d : pod_deque T) (i : Nat) (v : T) : Option (pod_deque T) :=
  store d (i >>> S) (i &&& block_mask S) v

/-- The index `(idx + 1) % m_size` that `next(idx)` reads; the sum is an `unsigned`. -/
def next_index (d : pod_deque T) (idx : Nat) : Nat := u32 (idx + 1) % d.m_size

/-- The index `(idx + m_size - 1) % m_size` that `prev(idx)` reads; the sum is an
`unsigned`. -/
def prev_index (d : pod_deque T) (idx : Nat) : Nat := u32 (idx + d.m_size - 1) % d.m_size

/-- The method `next(idx)`; the remainder modulo an `m_size` of zero is undefined. -/
def next (S : Nat) (d : pod_deque T) (idx : Nat) : Option T :=
  if d.m_size = 0 then none else value_at S d (next_index d idx)

/-- The method `prev(idx)`; the remainder modulo an `m_size` of zero is undefined. -/
def prev (S : Nat) (d : pod_deque T) (idx : Nat) : Option T :=
  if d.m_size = 0 then none else value_at S d (prev_index d idx)

/-- The loop `while(m_num_blocks > nb) { delete [] m_blocks[--m_num_blocks]; }` of
`free_tail`.  The entry of a deleted block does not point to a block any more. -/
def free_blocks (nb : Nat) : Nat → pod_deque T → Option (pod_deque T)
  | 0, d => if d.m_num_blocks > nb then none else some d
  | fuel + 1, d =>
    if d.m_num_blocks > nb then
      match d.m_blocks[d.m_num_blocks - 1]? with
      | some (some _) =>
        free_blocks nb fuel
          { d with
            m_num_blocks := d.m_num_blocks - 1
            m_blocks := d.m_blocks.set (d.m_num_blocks - 1) none }
      | _ => none
    else some d

/-- The method `free_tail(size)`; the sum `size + block_mask` is an `unsigned`. -/
def free_tail (S : Nat) (d : pod_deque T) (size : Nat) : Option (pod_deque T) :=
  if size < d.m_size then
    match free_blocks (u32 (size + block_mask S) >>> S) d.m_num_blocks d with
    | none => none
    | some d1 => some { d1 with m_size := size }
  else some d

/-- The method `free_all()`. -/
def free_all (S : Nat) (d : pod_deque T) : Option (pod_deque T) := free_tail S d 0

/-- A sequence of `2^32 - 1` numbers in four blocks of `2^30` (block shift 30): the element
`i` is `i mod 2^30`. -/
def example_huge : pod_deque Nat :=
  { m_size := 2 ^ 32 - 1, m_num_blocks := 4, m_max_blocks := 4,
    m_blocks := [some (List.range (2 ^ 30)), some (List.range (2 ^ 30)),
      some (List.range (2 ^ 30)), some (List.range (2 ^ 30))],
    m_block_ptr_inc := 1 }

end pod_deque

namespace pod_array

/-- An array of `2^31` two-byte elements. -/
def example_huge_array : pod_array (int8u × int8u) :=
  { m_size := 2 ^ 31, m_capacity := 2 ^ 31, m_array := List.replicate (2 ^ 31) (0, 0) }

end pod_array

end agg

namespace agg

variable {α : Type}

/-! ## `quick_sort` with a record of its partition steps, and the insertion sort of the
specification -/

/-- The loop of `quick_sort` with a record of its partition steps: the computation of
`quick_sort_loop`, which also returns, for each partition step, the last one first, the
range and the final scan indices `(base, limit, i, j)`. -/
def quick_sort_loop_trace (less : α → α → Bool) (cap : Nat) :
    Nat → List α → Nat → Nat → List (Nat × Nat) → List (Nat × Nat × Nat × Nat) →
      Option (List α × List (Nat × Nat × Nat × Nat))
  | 0, _, _, _, _, _ => none
  | fuel + 1, arr, base, limit, stack, log =>
    if (limit : Int) - (base : Int) > (quick_sort_threshold : Int) then
      match partition_step less arr base limit with
      | none => none
      | some (arr1, i, j) =>
        if cap ≤ stack.length then none
        else if (j : Int) - (base : Int) > (limit : Int) - (i : Int) then
          quick_sort_loop_trace less cap fuel arr1 i limit ((base, j) :: stack)
            ((base, limit, i, j) :: log)
        else
          quick_sort_loop_trace less cap fuel arr1 base j ((i, limit) :: stack)
            ((base, limit, i, j) :: log)
    else
      match insertion_sort less arr base limit with
      | none => none
      | some arr1 =>
        match stack with
        | [] => some (arr1, log)
        | (b, l) :: rest => quick_sort_loop_trace less cap fuel arr1 b l rest log

/-- The function `quick_sort` with a stack of `cap` pairs and the record of its partition
steps. -/
def quick_sort_trace (less : α → α → Bool) (cap : Nat) (arr : List α) :
    Option (List α × List (Nat × Nat × Nat × Nat)) :=
  if arr.length < 2 then some (arr, [])
  else if 2 ^ 31 ≤ arr.length then some (arr, [])
  else quick_sort_loop_trace less cap (2 * arr.length + 1) arr 0 arr.length [] []

/-- Second definition, in the words of the specification: the element at the position
`p` is swapped with its predecessor while it is less than it ("repeatedly swapping
`arr[j+1]` with `arr[j]` while `less(arr[j+1], arr[j])`"). -/
def sink (less : α → α → Bool) : Nat → List α → List α
  | 0, arr => arr
  | p + 1, arr =>
    match arr[p + 1]?, arr[p]? with
    | some a, some b => if less a b then sink less p ((arr.set (p + 1) b).set p a) else arr
    | _, _ => arr

/-- Second definition, in the words of the specification: a single in-place insertion
sort of the whole array, which sinks the elements at the positions `0, 1, ..., n - 1` in
turn. -/
def insertion_sort_whole (less : α → α → Bool) (arr : List α) : List α :=
  (List.range arr.length).foldl (fun acc p => sink less p acc) arr

namespace pod_array
variable {T : Type}

/-- The constructor `pod_array(cap, extra_tail)`. -/
def init_cap [Inhabited T] (cap extra_tail : Nat) : pod_array T :=
  { m_size := 0, m_capacity := u32 (cap + extra_tail),
    m_array := List.replicate (u32 (cap + extra_tail)) default }

/-- The method `add(v)`: `m_array[m_size++] = v`; the write has to be inside the
allocation. -/
def add (a : pod_array T) (v : T) : Option (pod_array T) :=
  if a.m_size < a.m_array.length then
    some { a with m_array := a.m_array.set a.m_size v, m_size := a.m_size + 1 }
  else none

/-- The method `inc_size(size)`. -/
def inc_size (a : pod_array T) (size : Nat) : pod_array T :=
  { a with m_size := a.m_size + size }

/-- The method `remove_all()`. -/
def remove_all (a : pod_array T) : pod_array T := { a with m_size := 0 }

/-- The method `cut_at(num)`. -/
def cut_at (a : pod_array T) (num : Nat) : pod_array T :=
  if num < a.m_size then { a with m_size := num } else a

/-- The assignment `operator = (v)`: `allocate(v.m_size)` and a `memcpy` of `v.m_size`
elements. -/
def assign [Inhabited T] (a v : pod_array T) : Option (pod_array T) :=
  let a1 := allocate a v.m_size 0
  if v.m_size ≠ 0 then
    if v.m_size ≤ a1.m_array.length ∧ v.m_size ≤ v.m_array.length then
      some { a1 with m_array := v.m_array.take v.m_size ++ a1.m_array.drop v.m_size }
    else none
  else some a1

end pod_array

namespace pod_deque
variable {T : Type}

/-- The method `cut_at(size)`. -/
def cut_at (d : pod_deque T) (size : Nat) : pod_deque T :=
  if size < d.m_size then { d with m_size := size } else d

/-- The first loop of `operator =`:
`for(i = m_num_blocks; i < v.m_num_blocks; ++i) allocate_block(i);`. -/
def assign_alloc [Inhabited T] (S : Nat) (v_num_blocks : Nat) :
    Nat → pod_deque T → Nat → Option (pod_deque T)
  | 0, d, i => if i < v_num_blocks then none else some d
  | fuel + 1, d, i =>
    if i < v_num_blocks then
      match allocate_block S d i with
      | none => none
      | some d1 => assign_alloc S v_num_blocks fuel d1 (i + 1)
    else some d

/-- The second loop of `operator =`, for `k` more blocks from the block `i` on:
`memcpy(m_blocks[i], v.m_blocks[i], block_size * sizeof(T));`. -/
def assign_copy (S : Nat) (v : pod_deque T) : Nat → Nat → pod_deque T → Option (pod_deque T)
  | 0, _, d => some d
  | k + 1, i, d =>
    match d.m_blocks[i]?, v.m_blocks[i]? with
    | some (some b1), some (some b2) =>
      if block_size S ≤ b1.length ∧ block_size S ≤ b2.length then
        assign_copy S v k (i + 1)
          { d with
            m_blocks := d.m_blocks.set i (some (b2.take (block_size S) ++ b1.drop (block_size S))) }
      else none
    | _, _ => none

/-- The assignment `operator = (v)`. -/
def assign [Inhabited T] (S : Nat) (d v : pod_deque T) : Option (pod_deque T) :=
  match assign_alloc S v.m_num_blocks v.m_num_blocks d d.m_num_blocks with
  | none => none
  | some d1 =>
    match assign_copy S v v.m_num_blocks 0 d1 with
    | none => none
    | some d2 => some { d2 with m_size := v.m_size }

end pod_deque

namespace pod_allocator

/-- The loop `while(m_num_blocks--) { delete [] *blk; --blk; }` of `remove_all`, which
deletes the blocks `k - 1, ..., 0`; each entry has to point to a block. -/
def delete_blocks (blocks : List (Option (Nat × Nat))) : Nat → Option Unit
  | 0 => some ()
  | k + 1 =>
    match blocks[k]? with
    | some (some _) => delete_blocks blocks k
    | _ => none

/-- The method `remove_all()`. -/
def remove_all (a : pod_allocator) : Option pod_allocator :=
  match (if a.m_num_blocks ≠ 0 then delete_blocks a.m_blocks a.m_num_blocks else some ()) with
  | none => none
  | some _ =>
    some { a with m_num_blocks := 0, m_max_blocks := 0, m_blocks := [], m_buf_ptr := 0,
                  m_rest := 0 }

/-- The pool `pod_allocator(32, 2)` after `allocate(5, 1)` on a heap whose first block is
at the address 16. -/
def example_pool : pod_allocator :=
  { m_block_size := 32, m_block_ptr_inc := 2, m_num_blocks := 1, m_max_blocks := 2,
    m_blocks := [some (16, 32), none], m_buf_ptr := 21, m_rest := 27 }

end pod_allocator

end agg

namespace agg
variable {α : Type}

/-! ## `quick_sort`: termination, bounds, order and permutation -/

theorem StrictWeakOrder_asymm {less : α → α → Bool} (h : StrictWeakOrder less) (a b : α)
    (hab : less a b = true) : less b a = false := by
  cases hba : less b a with
  | false => rfl
  | true =>
    have := h.trans a b a hab hba
    rw [h.irrefl] at this
    exact absurd this (by simp)

/-- Transitivity of "not after". -/
theorem StrictWeakOrder_le_trans {less : α → α → Bool} (h : StrictWeakOrder less) (a b c : α)
    (hab : less b a = false) (hbc : less c b = false) : less c a = false := by
  cases hca : less c a with
  | false => rfl
  | true =>
    cases h1 : less a b with
    | true =>
      have := h.trans c a b hca h1
      rw [hbc] at this
      exact absurd this (by simp)
    | false =>
      cases h2 : less b c with
      | true =>
        have := h.trans b c a h2 hca
        rw [hab] at this
        exact absurd this (by simp)
      | false =>
        have := (h.incomp_trans a b c h1 hab h2 hbc).2
        rw [hca] at this
        exact absurd this (by simp)

theorem swap_elements_eq {arr : List α} {i j : Nat} (hi : i < arr.length) (hj : j < arr.length) :
    swap_elements arr i j = some ((arr.set i arr[j]).set j arr[i]) := by
  simp [swap_elements, List.getElem?_eq_getElem hi, List.getElem?_eq_getElem hj]

theorem swap_elements_some {arr out : List α} {i j : Nat} (h : swap_elements arr i j = some out) :
    i < arr.length ∧ j < arr.length ∧ out.length = arr.length ∧
    ∀ k, out[k]? = if k = j then arr[i]? else if k = i then arr[j]? else arr[k]? := by
  unfold swap_elements at h
  cases hi : arr[i]? with
  | none => simp [hi] at h
  | some a =>
    cases hj : arr[j]? with
    | none => simp [hi, hj] at h
    | some b =>
      simp only [hi, hj, Option.some.injEq] at h
      have hi1 : i < arr.length := (List.getElem?_eq_some.1 hi).1
      have hj1 : j < arr.length := (List.getElem?_eq_some.1 hj).1
      subst h
      refine ⟨hi1, hj1, by simp, ?_⟩
      intro k
      simp only [List.getElem?_set, List.length_set]
      by_cases hkj : k = j
      · subst hkj; simp [hj1]
      · by_cases hki : k = i
        · subst hki; simp [hi1, Ne.symm hkj, hj, hkj]
        · simp [hkj, hki, Ne.symm hkj, Ne.symm hki]

theorem swap_elements_isSome (arr : List α) (i j : Nat) (hi : i < arr.length)
    (hj : j < arr.length) : ∃ out, swap_elements arr i j = some out :=
  ⟨_, swap_elements_eq hi hj⟩

theorem set_set_perm {arr : List α} {i j : Nat} (hi : i < arr.length) (hj : j < arr.length) :
    ((arr.set i arr[j]).set j arr[i]).Perm arr := by
  classical
  rw [List.perm_iff_count]
  intro a
  have hj2 : j < (arr.set i arr[j]).length := by simpa using hj
  rw [List.count_set _ _ _ _ hj2, List.count_set _ _ _ _ hi]
  have hpos : ∀ k (hk : k < arr.length), arr[k] = a → 0 < List.count a arr := by
    intro k hk hka
    exact List.count_pos_iff.2 (hka ▸ List.getElem_mem hk)
  by_cases hij : i = j
  · subst hij
    simp only [List.getElem_set_self]
    by_cases h1 : arr[i] = a
    · have := hpos i hi h1
      simp [h1]; omega
    · simp [h1]
  · simp only [List.getElem_set_ne hij]
    by_cases h1 : arr[i] = a <;> by_cases h2 : arr[j] = a
    · have := hpos i hi h1
      simp [h1, h2]; omega
    · have := hpos i hi h1
      simp [h1, h2]; omega
    · have := hpos j hj h2
      simp [h1, h2]
    · simp [h1, h2]

theorem swap_elements_perm {arr out : List α} {i j : Nat} (h : swap_elements arr i j = some out) :
    out.Perm arr := by
  obtain ⟨hi, hj, -, -⟩ := swap_elements_some h
  rw [swap_elements_eq hi hj] at h
  cases h
  exact set_set_perm hi hj

theorem Shuffle_refl (lo hi : Nat) (arr : List α) : Shuffle lo hi arr arr :=
  ⟨rfl, fun _ _ => rfl, fun k h1 h2 => ⟨k, h1, h2, rfl⟩⟩

theorem Shuffle_trans {lo hi : Nat} {a b c : List α} (h1 : Shuffle lo hi a b)
    (h2 : Shuffle lo hi b c) : Shuffle lo hi a c := by
  obtain ⟨l1, o1, i1⟩ := h1
  obtain ⟨l2, o2, i2⟩ := h2
  refine ⟨l2.trans l1, fun k hk => (o2 k hk).trans (o1 k hk), ?_⟩
  intro k hlo hhi
  obtain ⟨k1, a1, b1, e1⟩ := i2 k hlo hhi
  obtain ⟨k2, a2, b2, e2⟩ := i1 k1 a1 b1
  exact ⟨k2, a2, b2, e1.trans e2⟩

theorem Shuffle_mono {lo hi lo1 hi1 : Nat} {a b : List α} (h : Shuffle lo hi a b)
    (hlo : lo1 ≤ lo) (hhi : hi ≤ hi1) : Shuffle lo1 hi1 a b := by
  obtain ⟨l1, o1, i1⟩ := h
  refine ⟨l1, fun k hk => o1 k (by omega), ?_⟩
  intro k h1 h2
  by_cases hk : lo ≤ k ∧ k < hi
  · obtain ⟨k1, a1, b1, e1⟩ := i1 k hk.1 hk.2
    exact ⟨k1, by omega, by omega, e1⟩
  · exact ⟨k, h1, h2, o1 k (by omega)⟩

theorem Shuffle_of_swap {lo hi i j : Nat} {arr out : List α}
    (h : swap_elements arr i j = some out) (hi1 : lo ≤ i) (hi2 : i < hi)
    (hj1 : lo ≤ j) (hj2 : j < hi) : Shuffle lo hi arr out := by
  obtain ⟨-, -, hl, hg⟩ := swap_elements_some h
  refine ⟨hl, ?_, ?_⟩
  · intro k hk
    rw [hg k, if_neg (by omega), if_neg (by omega)]
  · intro k h1 h2
    rw [hg k]
    by_cases hkj : k = j
    · exact ⟨i, hi1, hi2, by simp [hkj]⟩
    · by_cases hki : k = i
      · exact ⟨j, hj1, hj2, by subst hki; simp [hkj]⟩
      · exact ⟨k, h1, h2, by simp [hkj, hki]⟩

theorem scan_up_spec {less : α → α → Bool} {arr : List α} {base : Nat} {p : α}
    (hp : arr[base]? = some p) (s : Nat) (hs : s < arr.length)
    (hsent : ∀ a, arr[s]? = some a → less a p = false) :
    ∀ fuel i, i < s → s - i ≤ fuel →
      ∃ i1, scan_up less arr base fuel i = some i1 ∧ i < i1 ∧ i1 ≤ s ∧
        (∀ k, i < k → k < i1 → ∀ a, arr[k]? = some a → less a p = true) ∧
        (∀ a, arr[i1]? = some a → less a p = false) := by
  intro fuel
  induction fuel with
  | zero => intro i h1 h2; omega
  | succ fuel ih =>
    intro i h1 h2
    have hlt : i + 1 < arr.length := by omega
    unfold scan_up
    rw [List.getElem?_eq_getElem hlt, hp]
    simp only
    cases hc : less arr[i + 1] p with
    | false =>
      refine ⟨i + 1, by simp, by omega, by omega, ?_, ?_⟩
      · intro k hk1 hk2; omega
      · intro a ha
        rw [List.getElem?_eq_getElem hlt] at ha
        cases ha; exact hc
    | true =>
      have hne : i + 1 ≠ s := by
        intro he
        have := hsent arr[i + 1] (by rw [← he, List.getElem?_eq_getElem hlt])
        rw [hc] at this; exact absurd this (by simp)
      obtain ⟨i1, e1, e2, e3, e4, e5⟩ := ih (i + 1) (by omega) (by omega)
      refine ⟨i1, by simpa using e1, by omega, e3, ?_, e5⟩
      intro k hk1 hk2 a ha
      by_cases hk : k = i + 1
      · subst hk
        rw [List.getElem?_eq_getElem hlt] at ha
        cases ha; exact hc
      · exact e4 k (by omega) hk2 a ha

theorem scan_down_spec {less : α → α → Bool} {arr : List α} {base : Nat} {p : α}
    (hp : arr[base]? = some p) (s : Nat)
    (hsent : ∀ a, arr[s]? = some a → less p a = false) :
    ∀ j, s < j → j ≤ arr.length →
      ∃ j1, scan_down less arr base j = some j1 ∧ s ≤ j1 ∧ j1 < j ∧
        (∀ k, j1 < k → k < j → ∀ a, arr[k]? = some a → less p a = true) ∧
        (∀ a, arr[j1]? = some a → less p a = false) := by
  intro j
  induction j with
  | zero => intro h1 h2; omega
  | succ j ih =>
    intro h1 h2
    have hlt : j < arr.length := by omega
    unfold scan_down
    rw [List.getElem?_eq_getElem hlt, hp]
    simp only
    cases hc : less p arr[j] with
    | false =>
      refine ⟨j, by simp, by omega, by omega, ?_, ?_⟩
      · intro k hk1 hk2; omega
      · intro a ha
        rw [List.getElem?_eq_getElem hlt] at ha
        cases ha; exact hc
    | true =>
      have hne : j ≠ s := by
        intro he
        have := hsent arr[j] (by rw [← he, List.getElem?_eq_getElem hlt])
        rw [hc] at this; exact absurd this (by simp)
      obtain ⟨j1, e1, e2, e3, e4, e5⟩ := ih (by omega) (by omega)
      refine ⟨j1, by simpa using e1, e2, by omega, ?_, e5⟩
      intro k hk1 hk2 a ha
      by_cases hk : k = j
      · subst hk
        rw [List.getElem?_eq_getElem hlt] at ha
        cases ha; exact hc
      · exact e4 k hk1 (by omega) a ha

theorem partition_loop_spec {less : α → α → Bool} (hswo : StrictWeakOrder less)
    (base limit : Nat) (p : α) :
    ∀ fuel (arr : List α) (I J : Nat), J - I < fuel → limit ≤ arr.length →
      arr[base]? = some p → base < I → I ≤ J → J < limit →
      (I = J → base + 1 < I ∧ J + 1 < limit) →
      (∀ k, base < k → k ≤ I → ∀ a, arr[k]? = some a → less p a = false) →
      (∀ k, J ≤ k → k < limit → ∀ a, arr[k]? = some a → less a p = false) →
      ∃ out i j, partition_loop less base fuel arr I J = some (out, i, j) ∧
        Shuffle (base + 1) limit arr out ∧ out.Perm arr ∧ base < j ∧ j < i ∧ i < limit ∧
        (∀ k, base < k → k < i → ∀ a, out[k]? = some a → less p a = false) ∧
        (∀ k, j < k → k < limit → ∀ a, out[k]? = some a → less a p = false) := by
  intro fuel
  induction fuel with
  | zero => intro arr I J h; omega
  | succ fuel ih =>
    intro arr I J hf hlen hp hI hIJ hJ hEq hL hR
    -- the sentinels that stop the two scans
    obtain ⟨i1, ei, hi1, hi2, hi3, hi4⟩ :=
      scan_up_spec hp (if I < J then J else J + 1) (by split <;> omega)
        (by
          intro a ha
          split at ha
          · exact hR J (le_refl _) hJ a ha
          · exact hR (J + 1) (by omega) (by omega) a ha)
        arr.length I (by split <;> omega) (by split <;> omega)
    obtain ⟨j1, ej, hj1, hj2, hj3, hj4⟩ :=
      scan_down_spec hp (if I < J then I else I - 1)
        (by
          intro a ha
          split at ha
          · exact hL I hI (le_refl _) a ha
          · exact hL (I - 1) (by omega) (by omega) a ha)
        J (by split <;> omega) (by omega)
    have hleft : ∀ k, base < k → k < i1 → ∀ a, arr[k]? = some a → less p a = false := by
      intro k hk1 hk2 a ha
      by_cases hk : k ≤ I
      · exact hL k hk1 hk a ha
      · exact StrictWeakOrder_asymm hswo _ _ (hi3 k (by omega) hk2 a ha)
    have hright : ∀ k, j1 < k → k < limit → ∀ a, arr[k]? = some a → less a p = false := by
      intro k hk1 hk2 a ha
      by_cases hk : J ≤ k
      · exact hR k hk hk2 a ha
      · exact StrictWeakOrder_asymm hswo _ _ (hj3 k hk1 (by omega) a ha)
    have hi1s : i1 ≤ J + 1 := by split at hi2 <;> omega
    have hi1l : i1 < limit := by split at hi2 <;> omega
    have hj1s : I ≤ j1 + 1 := by split at hj1 <;> omega
    have hj1b : base < j1 := by split at hj1 <;> omega
    unfold partition_loop
    rw [ei, ej]
    simp only
    by_cases hc : i1 > j1
    · rw [if_pos hc]
      exact ⟨arr, i1, j1, rfl, Shuffle_refl _ _ _, List.Perm.refl _, hj1b, hc, hi1l,
        hleft, hright⟩
    · rw [if_neg hc]
      have hc1 : i1 ≤ j1 := by omega
      obtain ⟨arr1, es⟩ := swap_elements_isSome arr i1 j1
        (by omega) (by omega)
      obtain ⟨-, -, hl1, hg1⟩ := swap_elements_some es
      rw [es]
      simp only
      obtain ⟨out, i, j, e, hsh, hperm, r1, r2, r3, r4, r5⟩ :=
        ih arr1 i1 j1 (by omega) (by omega)
          (by rw [hg1 base, if_neg (by omega), if_neg (by omega)]; exact hp)
          (by omega) hc1 (by omega) (by intro _; omega)
          (by
            intro k hk1 hk2 a ha
            rw [hg1 k] at ha
            by_cases hkj : k = j1
            · rw [if_pos hkj] at ha
              have : i1 = j1 := by omega
              rw [this] at ha
              exact hj4 a ha
            · rw [if_neg hkj] at ha
              by_cases hki : k = i1
              · rw [if_pos hki] at ha
                exact hj4 a ha
              · rw [if_neg hki] at ha
                exact hleft k hk1 (by omega) a ha)
          (by
            intro k hk1 hk2 a ha
            rw [hg1 k] at ha
            by_cases hkj : k = j1
            · rw [if_pos hkj] at ha
              exact hi4 a ha
            · rw [if_neg hkj] at ha
              rw [if_neg (by omega)] at ha
              exact hright k (by omega) hk2 a ha)
      exact ⟨out, i, j, e,
        Shuffle_trans (Shuffle_of_swap es (by omega) (by omega) (by omega) (by omega)) hsh,
        hperm.trans (swap_elements_perm es), r1, r2, r3, r4, r5⟩

theorem swap_if_less_spec {less : α → α → Bool} (hswo : StrictWeakOrder less) (arr : List α)
    (p q : Nat) (hp : p < arr.length) (hq : q < arr.length) (hpq : p ≠ q) :
    ∃ out a b, swap_if_less less arr p q = some out ∧ out.Perm arr ∧
      (∀ lo hi, lo ≤ p → p < hi → lo ≤ q → q < hi → Shuffle lo hi arr out) ∧
      out[p]? = some a ∧ out[q]? = some b ∧ less a b = false ∧
      (∀ k, k ≠ p → k ≠ q → out[k]? = arr[k]?) ∧
      ((a = arr[p] ∧ b = arr[q]) ∨ (a = arr[q] ∧ b = arr[p] ∧ less arr[p] arr[q] = true)) := by
  unfold swap_if_less
  rw [List.getElem?_eq_getElem hp, List.getElem?_eq_getElem hq]
  simp only
  by_cases hc : less arr[p] arr[q] = true
  · rw [if_pos hc]
    obtain ⟨out, es⟩ := swap_elements_isSome arr p q hp hq
    obtain ⟨-, -, hl, hg⟩ := swap_elements_some es
    refine ⟨out, arr[q], arr[p], es, swap_elements_perm es,
      fun lo hi h1 h2 h3 h4 => Shuffle_of_swap es h1 h2 h3 h4, ?_, ?_, StrictWeakOrder_asymm hswo _ _ hc, ?_,
      Or.inr ⟨rfl, rfl, hc⟩⟩
    · rw [hg p, if_neg hpq, if_pos rfl, List.getElem?_eq_getElem hq]
    · rw [hg q, if_pos rfl, List.getElem?_eq_getElem hp]
    · intro k h1 h2
      rw [hg k, if_neg h2, if_neg h1]
  · rw [if_neg hc]
    have hc1 : less arr[p] arr[q] = false := by simpa using hc
    exact ⟨arr, arr[p], arr[q], rfl, List.Perm.refl _, fun _ _ _ _ _ _ => Shuffle_refl _ _ _,
      List.getElem?_eq_getElem hp, List.getElem?_eq_getElem hq, hc1, fun _ _ _ => rfl,
      Or.inl ⟨rfl, rfl⟩⟩

theorem getElem?_some_eq {arr : List α} {k : Nat} (hk : k < arr.length) {a : α}
    (h : arr[k]? = some a) : a = arr[k] := by
  rw [List.getElem?_eq_getElem hk] at h
  exact (Option.some.inj h).symm

theorem partition_step_spec {less : α → α → Bool} (hswo : StrictWeakOrder less)
    (arr : List α) (base limit : Nat) (hlen : limit ≤ arr.length) (hbig : base + 9 < limit) :
    ∃ out i j p, partition_step less arr base limit = some (out, i, j) ∧
      Shuffle base limit arr out ∧ out.Perm arr ∧ base < j ∧ j < i ∧ i < limit ∧
      (∀ k, base ≤ k → k < i → ∀ a, out[k]? = some a → less p a = false) ∧
      (∀ k, j ≤ k → k < limit → ∀ a, out[k]? = some a → less a p = false) := by
  unfold partition_step
  simp only
  -- swap_elements(arr[base], arr[pivot])
  obtain ⟨arr1, e1⟩ := swap_elements_isSome arr base
    (base + (limit - base) / 2) (by omega) (by omega)
  have sh1 : Shuffle base limit arr arr1 :=
    Shuffle_of_swap e1 (by omega) (by omega) (by omega) (by omega)
  have l1 : arr1.length = arr.length := sh1.1
  rw [e1]; simp only
  -- the three conditional swaps of the median-of-three
  obtain ⟨arr2, a1, b1, e2, p2, sh2, ga2, gb2, c2, o2, -⟩ :=
    swap_if_less_spec hswo arr1 (limit - 1) (base + 1)
      (by omega) (by omega) (by omega)
  have l2 : arr2.length = arr1.length := p2.length_eq
  rw [e2]; simp only
  obtain ⟨arr3, a2, b2, e3, p3, sh3, ga3, gb3, c3, o3, d3⟩ :=
    swap_if_less_spec hswo arr2 base (base + 1)
      (by omega) (by omega) (by omega)
  have l3 : arr3.length = arr2.length := p3.length_eq
  rw [e3]; simp only
  obtain ⟨arr4, a3, b3, e4, p4, sh4, ga4, gb4, c4, o4, d4⟩ :=
    swap_if_less_spec hswo arr3 (limit - 1) base
      (by omega) (by omega) (by omega)
  have l4 : arr4.length = arr3.length := p4.length_eq
  rw [e4]; simp only
  -- arr3[i] is not after arr3[j]
  have hj3 : arr3[limit - 1]? = some a1 := by
    rw [o3 (limit - 1) (by omega) (by omega)]; exact ga2
  have h13 : less a1 b2 = false := by
    rcases d3 with ⟨-, hb⟩ | ⟨-, hb, hlt⟩
    · have : b2 = b1 := by
        rw [hb]; exact (getElem?_some_eq (by omega) gb2).symm
      rw [this]; exact c2
    · have hb1 : b1 = arr2[base + 1] := getElem?_some_eq (by omega) gb2
      rw [← hb, ← hb1] at hlt
      exact StrictWeakOrder_le_trans hswo b2 b1 a1 (StrictWeakOrder_asymm hswo _ _ hlt) c2
  -- arr4[i] is not after the pivot arr4[base]
  have hi4 : arr4[base + 1]? = some b2 := by
    rw [o4 (base + 1) (by omega) (by omega)]; exact gb3
  have h24 : less b3 b2 = false := by
    rcases d4 with ⟨-, hb⟩ | ⟨-, hb, -⟩
    · have : b3 = a2 := by
        rw [hb]; exact (getElem?_some_eq (by omega) ga3).symm
      rw [this]; exact c3
    · have : b3 = a1 := by
        rw [hb]; exact (getElem?_some_eq (by omega) hj3).symm
      rw [this]; exact h13
  -- the partition loop
  obtain ⟨arr5, i, j, e5, sh5, p5, r1, r2, r3, r4, r5⟩ :=
    partition_loop_spec hswo base limit b3 arr4.length arr4
      (base + 1) (limit - 1) (by omega) (by omega) gb4 (by omega) (by omega) (by omega)
      (by intro h; omega)
      (by
        intro k hk1 hk2 a ha
        have : k = base + 1 := by omega
        rw [this, hi4] at ha
        cases ha; exact h24)
      (by
        intro k hk1 hk2 a ha
        have : k = limit - 1 := by omega
        rw [this, ga4] at ha
        cases ha; exact c4)
  rw [e5]; simp only
  have l5 : arr5.length = arr4.length := sh5.1
  have hb5 : arr5[base]? = some b3 := by
    rw [sh5.2.1 base (by omega)]; exact gb4
  obtain ⟨arr6, e6⟩ := swap_elements_isSome arr5 base j
    (by omega) (by omega)
  obtain ⟨-, -, l6, g6⟩ := swap_elements_some e6
  rw [e6]; simp only
  refine ⟨arr6, i, j, b3, rfl, ?_, ?_, r1, r2, r3, ?_, ?_⟩
  · exact Shuffle_trans (Shuffle_trans (Shuffle_trans (Shuffle_trans (Shuffle_trans sh1
      (sh2 base limit (by omega) (by omega) (by omega) (by omega)))
      (sh3 base limit (by omega) (by omega) (by omega) (by omega)))
      (sh4 base limit (by omega) (by omega) (by omega) (by omega)))
      (Shuffle_mono sh5 (by omega) (le_refl _)))
      (Shuffle_of_swap e6 (by omega) (by omega) (by omega) (by omega))
  · exact (swap_elements_perm e6).trans (p5.trans (p4.trans (p3.trans (p2.trans
      (swap_elements_perm e1)))))
  · intro k hk1 hk2 a ha
    rw [g6 k] at ha
    by_cases hkj : k = j
    · rw [if_pos hkj, hb5] at ha
      cases ha; exact hswo.irrefl _
    · rw [if_neg hkj] at ha
      by_cases hkb : k = base
      · rw [if_pos hkb] at ha
        exact r4 j r1 r2 a ha
      · rw [if_neg hkb] at ha
        exact r4 k (by omega) hk2 a ha
  · intro k hk1 hk2 a ha
    rw [g6 k] at ha
    by_cases hkj : k = j
    · rw [if_pos hkj, hb5] at ha
      cases ha; exact hswo.irrefl _
    · rw [if_neg hkj, if_neg (by omega)] at ha
      exact r5 k (by omega) hk2 a ha

theorem insertion_inner_spec {less : α → α → Bool} (hswo : StrictWeakOrder less)
    (base hi : Nat) :
    ∀ fuel (arr : List α) (j : Nat), j < fuel → base ≤ j → j < hi → hi < arr.length →
      (∀ p q, base ≤ p → p < q → q ≤ hi → p ≠ j + 1 → q ≠ j + 1 → LeAt less arr p q) →
      (∀ q, j + 1 < q → q ≤ hi → LeAt less arr (j + 1) q) →
      ∃ out, insertion_inner less base fuel arr j = some out ∧ Shuffle base (hi + 1) arr out ∧
        out.Perm arr ∧ (∀ p q, base ≤ p → p < q → q ≤ hi → LeAt less out p q) := by
  intro fuel
  induction fuel with
  | zero => intro arr j h; omega
  | succ fuel ih =>
    intro arr j hf hbj hjh hlen hA hB
    have h1 : j + 1 < arr.length := by omega
    have h0 : j < arr.length := by omega
    unfold insertion_inner
    rw [List.getElem?_eq_getElem h1, List.getElem?_eq_getElem h0]
    simp only
    by_cases hc : less arr[j + 1] arr[j] = true
    · rw [if_pos hc]
      obtain ⟨arr1, es⟩ := swap_elements_isSome arr (j + 1) j h1 h0
      obtain ⟨-, -, l1, g1⟩ := swap_elements_some es
      have sh1 : Shuffle base (hi + 1) arr arr1 :=
        Shuffle_of_swap es (by omega) (by omega) (by omega) (by omega)
      rw [es]; simp only
      -- the facts (A) and (B) for the array after the swap, with the moving element at `j`
      have hA1 : ∀ p q, base ≤ p → p < q → q ≤ hi → p ≠ j → q ≠ j → LeAt less arr1 p q := by
        intro p q hp hpq hq hpj hqj x y hx hy
        rw [g1 p, if_neg hpj] at hx
        rw [g1 q, if_neg hqj] at hy
        by_cases hp1 : p = j + 1
        · rw [if_pos hp1] at hx
          rw [if_neg (by omega)] at hy
          exact hA j q hbj (by omega) hq (by omega) (by omega) x y hx hy
        · rw [if_neg hp1] at hx
          by_cases hq1 : q = j + 1
          · rw [if_pos hq1] at hy
            exact hA p j hp (by omega) (by omega) hp1 (by omega) x y hx hy
          · rw [if_neg hq1] at hy
            exact hA p q hp hpq hq hp1 hq1 x y hx hy
      have hB1 : ∀ q, j < q → q ≤ hi → LeAt less arr1 j q := by
        intro q hjq hq x y hx hy
        rw [g1 j, if_pos rfl, List.getElem?_eq_getElem h1] at hx
        cases hx
        rw [g1 q, if_neg (by omega)] at hy
        by_cases hq1 : q = j + 1
        · rw [if_pos hq1, List.getElem?_eq_getElem h0] at hy
          cases hy
          exact StrictWeakOrder_asymm hswo _ _ hc
        · rw [if_neg hq1] at hy
          exact hB q (by omega) hq _ y (List.getElem?_eq_getElem h1) hy
      by_cases hjb : j = base
      · rw [if_pos hjb]
        refine ⟨arr1, rfl, sh1, swap_elements_perm es, ?_⟩
        intro p q hp hpq hq
        by_cases hpj : p = j
        · rw [hpj]; exact hB1 q (by omega) hq
        · exact hA1 p q hp hpq hq hpj (by omega)
      · rw [if_neg hjb, if_neg (by omega)]
        obtain ⟨out, e, sh, pm, srt⟩ := ih arr1 (j - 1) (by omega) (by omega) (by omega)
          (by omega)
          (by
            intro p q hp hpq hq hpj hqj
            exact hA1 p q hp hpq hq (by omega) (by omega))
          (by
            intro q hjq hq
            have : j - 1 + 1 = j := by omega
            rw [this]
            exact hB1 q (by omega) hq)
        exact ⟨out, e, Shuffle_trans sh1 sh, pm.trans (swap_elements_perm es), srt⟩
    · rw [if_neg hc]
      have hc1 : less arr[j + 1] arr[j] = false := by simpa using hc
      refine ⟨arr, rfl, Shuffle_refl _ _ _, List.Perm.refl _, ?_⟩
      intro p q hp hpq hq
      by_cases hp1 : p = j + 1
      · rw [hp1]; exact hB q (by omega) hq
      · by_cases hq1 : q = j + 1
        · intro x y hx hy
          rw [hq1, List.getElem?_eq_getElem h1] at hy
          cases hy
          by_cases hpj : p = j
          · rw [hpj, List.getElem?_eq_getElem h0] at hx
            cases hx; exact hc1
          · have := hA p j hp (by omega) (by omega) hp1 (by omega) x arr[j] hx
              (List.getElem?_eq_getElem h0)
            exact StrictWeakOrder_le_trans hswo x arr[j] arr[j + 1] this hc1
        · exact hA p q hp hpq hq hp1 hq1

theorem insertion_outer_spec {less : α → α → Bool} (hswo : StrictWeakOrder less)
    {base limit : Nat} :
    ∀ fuel (arr : List α) (i j : Nat), limit - i < fuel → j + 1 = i → base ≤ j →
      limit ≤ arr.length →
      (∀ p q, base ≤ p → p < q → q < i → LeAt less arr p q) →
      ∃ out, insertion_outer less base limit fuel arr i j = some out ∧
        Shuffle base limit arr out ∧ out.Perm arr ∧
        (∀ p q, base ≤ p → p < q → q < limit → LeAt less out p q) := by
  intro fuel
  induction fuel with
  | zero =>
    intro arr i j hf hji hbj hlen hs
    omega
  | succ fuel ih =>
    intro arr i j hf hji hbj hlen hs
    unfold insertion_outer
    by_cases hc : i < limit
    · rw [if_pos hc]
      obtain ⟨arr1, e1, sh1, pm1, s1⟩ := insertion_inner_spec hswo base i
        (j + 1) arr j (by omega) hbj (by omega) (by omega)
        (by
          intro p q hp hpq hq hp1 hq1
          exact hs p q hp hpq (by omega))
        (by intro q h1 h2; omega)
      rw [e1]; simp only
      obtain ⟨out, e, sh, pm, srt⟩ := ih arr1 (i + 1) i (by omega) rfl (by omega)
        (by rw [sh1.1]; exact hlen)
        (by
          intro p q hp hpq hq
          exact s1 p q hp hpq (by omega))
      exact ⟨out, e, Shuffle_trans (Shuffle_mono sh1 (le_refl _) (by omega)) sh, pm.trans pm1, srt⟩
    · rw [if_neg hc]
      refine ⟨arr, rfl, Shuffle_refl _ _ _, List.Perm.refl _, ?_⟩
      intro p q hp hpq hq
      exact hs p q hp hpq (by omega)

theorem insertion_sort_spec {less : α → α → Bool} (hswo : StrictWeakOrder less)
    (arr : List α) (base limit : Nat) (hlen : limit ≤ arr.length) :
    ∃ out, insertion_sort less arr base limit = some out ∧ Shuffle base limit arr out ∧
      out.Perm arr ∧ (∀ p q, base ≤ p → p < q → q < limit → LeAt less out p q) := by
  unfold insertion_sort
  exact insertion_outer_spec hswo (limit - base + 1) arr (base + 1) base (by omega) rfl
    (le_refl _) hlen (by intro p q h1 h2 h3; omega)

theorem sortedOutside_shuffle {less : α → α → Bool} {arr out : List α} {base limit : Nat}
    {stack : List (Nat × Nat)} (hbl : base ≤ limit) (hlim : limit ≤ arr.length)
    (hsh : Shuffle base limit arr out)
    (hdis : ∀ r ∈ stack, limit ≤ r.1 ∨ r.2 ≤ base)
    (hso : SortedOutside less arr ((base, limit) :: stack)) :
    ∀ p q, p < q → q < arr.length → ¬ (base ≤ p ∧ q < limit) →
      (∀ r ∈ stack, ¬ (r.1 ≤ p ∧ q < r.2)) → LeAt less out p q := by
  intro p q hpq hq hnot hst
  have key : ∀ k, ∃ k1, out[k]? = arr[k1]? ∧ (k < base → k1 = k) ∧ (limit ≤ k → k1 = k) ∧
      (base ≤ k → k < limit → base ≤ k1 ∧ k1 < limit) := by
    intro k
    by_cases hk : base ≤ k ∧ k < limit
    · obtain ⟨k1, a1, a2, a3⟩ := hsh.2.2 k hk.1 hk.2
      exact ⟨k1, a3, by omega, by omega, fun _ _ => ⟨a1, a2⟩⟩
    · exact ⟨k, hsh.2.1 k (by omega), fun _ => rfl, fun _ => rfl, by omega⟩
  obtain ⟨p1, ep, p_lo, p_hi, p_in⟩ := key p
  obtain ⟨q1, eq, q_lo, q_hi, q_in⟩ := key q
  intro x y hx hy
  rw [ep] at hx
  rw [eq] at hy
  have hp1q1 : p1 < q1 ∧ q1 < arr.length ∧ ¬ (base ≤ p1 ∧ q1 < limit) := by
    by_cases hp : base ≤ p ∧ p < limit
    · have := p_in hp.1 hp.2
      have hq2 : limit ≤ q := by omega
      have := q_hi hq2
      omega
    · by_cases hq1 : base ≤ q ∧ q < limit
      · have := q_in hq1.1 hq1.2
        have hp2 : p < base := by omega
        have := p_lo hp2
        omega
      · have h1 : p1 = p := by
          rcases Nat.lt_or_ge p base with h | h
          · exact p_lo h
          · exact p_hi (by omega)
        have h2 : q1 = q := by
          rcases Nat.lt_or_ge q base with h | h
          · exact q_lo h
          · exact q_hi (by omega)
        omega
  refine hso p1 q1 hp1q1.1 hp1q1.2.1 ?_ x y hx hy
  intro r hr
  rcases List.mem_cons.1 hr with h | h
  · subst h; exact hp1q1.2.2
  · have h1 := hst r h
    have h2 := hdis r h
    intro hc
    by_cases hp : base ≤ p ∧ p < limit
    · have := p_in hp.1 hp.2
      have hq2 : limit ≤ q := by omega
      have := q_hi hq2
      omega
    · by_cases hq1 : base ≤ q ∧ q < limit
      · have := q_in hq1.1 hq1.2
        have hp2 : p < base := by omega
        have := p_lo hp2
        omega
      · have h1 : p1 = p := by
          rcases Nat.lt_or_ge p base with h | h
          · exact p_lo h
          · exact p_hi (by omega)
        have h2 : q1 = q := by
          rcases Nat.lt_or_ge q base with h | h
          · exact q_lo h
          · exact q_hi (by omega)
        omega

theorem depth_lt_cap {n cap k len : Nat} (hcap : n < 10 * 2 ^ cap) (hlen : 10 ≤ len)
    (hd : len * 2 ^ k ≤ n) : k < cap := by
  by_contra hc
  have h1 : 2 ^ cap ≤ 2 ^ k := Nat.pow_le_pow_right (by omega) (by omega)
  have h2 : 10 * 2 ^ k ≤ len * 2 ^ k := Nat.mul_le_mul_right _ hlen
  omega

theorem depth_half {n k a len : Nat} (ha : 2 * a ≤ len) (hd : len * 2 ^ k ≤ n) :
    a * 2 ^ (k + 1) ≤ n := by
  have h1 : a * 2 ^ (k + 1) = (2 * a) * 2 ^ k := by rw [pow_succ]; ring
  rw [h1]
  exact le_trans (Nat.mul_le_mul_right _ ha) hd

theorem depth_le {n k a len : Nat} (ha : a ≤ len) (hd : len * 2 ^ k ≤ n) :
    a * 2 ^ k ≤ n :=
  le_trans (Nat.mul_le_mul_right _ ha) hd

theorem quick_sort_loop_spec {less : α → α → Bool} (hswo : StrictWeakOrder less)
    (cap n : Nat) (hcap : n < 10 * 2 ^ cap) :
    ∀ fuel (arr : List α) (base limit : Nat) (stack : List (Nat × Nat)),
      arr.length = n → RangesOK n ((base, limit) :: stack) →
      RangesDisjoint ((base, limit) :: stack) →
      SortedOutside less arr ((base, limit) :: stack) →
      DepthOK n ((base, limit) :: stack) →
      pending_work ((base, limit) :: stack) ≤ fuel →
      ∃ out, quick_sort_loop less cap fuel arr base limit stack = some out ∧ out.Perm arr ∧
        ∀ p q, p < q → q < n → LeAt less out p q := by
  intro fuel
  induction fuel with
  | zero =>
    intro arr base limit stack hn hok hdis hso hdep hw
    simp [pending_work] at hw
  | succ fuel ih =>
    intro arr base limit stack hn hok hdis hso hdep hw
    have hbl : base ≤ limit ∧ limit ≤ n := hok (base, limit) (List.mem_cons_self _ _)
    have hokS : RangesOK n stack := fun r hr => hok r (List.mem_cons_of_mem _ hr)
    have hdisC : ∀ r ∈ stack, limit ≤ r.1 ∨ r.2 ≤ base := by
      intro r hr
      exact (List.pairwise_cons.1 hdis).1 r hr
    have hdisS : RangesDisjoint stack := (List.pairwise_cons.1 hdis).2
    simp only [pending_work] at hw
    obtain ⟨hdepC, hdepS⟩ := hdep
    simp only at hdepC
    unfold quick_sort_loop
    simp only [quick_sort_threshold]
    by_cases hc : (limit : Int) - (base : Int) > ((9 : Nat) : Int)
    · rw [if_pos hc]
      have hbig : base + 9 < limit := by omega
      obtain ⟨arr1, i, j, pv, e1, sh1, pm1, hbj, hji, hil, hL, hR⟩ :=
        partition_step_spec hswo arr base limit (by omega) hbig
      rw [e1]; simp only
      have hk : stack.length < cap := depth_lt_cap hcap (by omega) hdepC
      rw [if_neg (by omega)]
      have l1 : arr1.length = n := by rw [sh1.1]; exact hn
      -- two indices not both in `[base, j)` and not both in `[i, limit)` are in order
      have hmid : ∀ p q, p < q → q < arr1.length → base ≤ p → q < limit →
          ¬ (base ≤ p ∧ q < j) → ¬ (i ≤ p ∧ q < limit) → LeAt less arr1 p q := by
        intro p q hpq hq hp hql h1 h2 x y hx hy
        have hxp := hL p hp (by omega) x hx
        have hyp := hR q (by omega) hql y hy
        exact StrictWeakOrder_le_trans hswo x pv y hxp hyp
      have hout := sortedOutside_shuffle hbl.1 (by omega) sh1 hdisC hso
      by_cases hpush : (j : Int) - (base : Int) > (limit : Int) - (i : Int)
      · rw [if_pos hpush]
        obtain ⟨out, e, pm, srt⟩ := ih arr1 i limit ((base, j) :: stack) l1
          (by
            intro r hr
            rcases List.mem_cons.1 hr with h | h
            · subst h; exact ⟨Nat.le_of_lt hil, hbl.2⟩
            · rcases List.mem_cons.1 h with h | h
              · subst h; exact ⟨by omega, by omega⟩
              · exact hokS r h)
          (by
            refine List.pairwise_cons.2 ⟨?_, List.pairwise_cons.2 ⟨?_, hdisS⟩⟩
            · intro r hr
              rcases List.mem_cons.1 hr with h | h
              · subst h; right; simp only; omega
              · have := hdisC r h
                simp only; omega
            · intro r hr
              have := hdisC r hr
              simp only; omega)
          (by
            intro p q hpq hq hr
            have h1 := hr (i, limit) (List.mem_cons_self _ _)
            have h2 := hr (base, j) (List.mem_cons_of_mem _ (List.mem_cons_self _ _))
            simp only at h1 h2
            by_cases hin : base ≤ p ∧ q < limit
            · exact hmid p q hpq hq hin.1 hin.2 h2 h1
            · exact hout p q hpq (by omega) hin
                (fun r hr1 => hr r (List.mem_cons_of_mem _ (List.mem_cons_of_mem _ hr1))))
          (by
            refine ⟨?_, ?_, hdepS⟩
            · simp only [List.length_cons]
              exact depth_half (by omega) hdepC
            · simp only
              exact depth_le (by omega) hdepC)
          (by simp only [pending_work]; omega)
        exact ⟨out, e, pm.trans pm1, srt⟩
      · rw [if_neg hpush]
        obtain ⟨out, e, pm, srt⟩ := ih arr1 base j ((i, limit) :: stack) l1
          (by
            intro r hr
            rcases List.mem_cons.1 hr with h | h
            · subst h; exact ⟨by omega, by omega⟩
            · rcases List.mem_cons.1 h with h | h
              · subst h; exact ⟨Nat.le_of_lt hil, hbl.2⟩
              · exact hokS r h)
          (by
            refine List.pairwise_cons.2 ⟨?_, List.pairwise_cons.2 ⟨?_, hdisS⟩⟩
            · intro r hr
              rcases List.mem_cons.1 hr with h | h
              · subst h; left; simp only; omega
              · have := hdisC r h
                simp only; omega
            · intro r hr
              have := hdisC r hr
              simp only; omega)
          (by
            intro p q hpq hq hr
            have h1 := hr (base, j) (List.mem_cons_self _ _)
            have h2 := hr (i, limit) (List.mem_cons_of_mem _ (List.mem_cons_self _ _))
            simp only at h1 h2
            by_cases hin : base ≤ p ∧ q < limit
            · exact hmid p q hpq hq hin.1 hin.2 h1 h2
            · exact hout p q hpq (by omega) hin
                (fun r hr1 => hr r (List.mem_cons_of_mem _ (List.mem_cons_of_mem _ hr1))))
          (by
            refine ⟨?_, ?_, hdepS⟩
            · simp only [List.length_cons]
              exact depth_half (by omega) hdepC
            · simp only
              exact depth_le (by omega) hdepC)
          (by simp only [pending_work]; omega)
        exact ⟨out, e, pm.trans pm1, srt⟩
    · rw [if_neg hc]
      obtain ⟨arr1, e1, sh1, pm1, s1⟩ := insertion_sort_spec hswo arr base limit
        (by omega)
      rw [e1]; simp only
      have l1 : arr1.length = n := by rw [sh1.1]; exact hn
      have hout := sortedOutside_shuffle hbl.1 (by omega) sh1 hdisC hso
      have hall : ∀ p q, p < q → q < n → (∀ r ∈ stack, ¬ (r.1 ≤ p ∧ q < r.2)) →
          LeAt less arr1 p q := by
        intro p q hpq hq hr
        by_cases hin : base ≤ p ∧ q < limit
        · exact s1 p q hin.1 hpq hin.2
        · exact hout p q hpq (by omega) hin hr
      cases stack with
      | nil =>
        simp only
        exact ⟨arr1, rfl, pm1, fun p q hpq hq => hall p q hpq hq (by simp)⟩
      | cons top rest =>
        obtain ⟨b, l⟩ := top
        simp only
        simp only [pending_work] at hw
        obtain ⟨out, e, pm, srt⟩ := ih arr1 b l rest l1 hokS hdisS
          (by
            intro p q hpq hq hr
            exact hall p q hpq (by omega) hr)
          hdepS (by simp only [pending_work]; omega)
        exact ⟨out, e, pm.trans pm1, srt⟩

theorem strictWeakOrder_nat_lt : StrictWeakOrder (fun a b : Nat => decide (a < b)) := by
  refine ⟨?_, ?_, ?_⟩
  · intro a; simp
  · intro a b c h1 h2
    simp only [decide_eq_true_eq] at *
    omega
  · intro a b c h1 h2 h3 h4
    simp only [decide_eq_false_iff_not, decide_eq_true_eq] at *
    omega

/-- C1: for an array of fewer than `2^31` elements and a strict weak ordering,
`quick_sort` returns (no access outside the array, no overflow of the explicit
stack, the loops end) an array of the same length in which no element is less
than its predecessor. -/
theorem quick_sort_sorted (less : α → α → Bool) (hswo : StrictWeakOrder less) (arr : List α)
    (hn : arr.length < 2 ^ 31) :
    ∃ out, quick_sort less arr = some out ∧ out.length = arr.length ∧
      ∀ i (h : i + 1 < out.length), less out[i + 1] out[i] = false := by
  unfold quick_sort
  by_cases h2 : arr.length < 2
  · rw [if_pos h2]
    refine ⟨arr, rfl, rfl, ?_⟩
    intro i h; omega
  · rw [if_neg h2, if_neg (by omega)]
    obtain ⟨out, e, pm, srt⟩ := quick_sort_loop_spec hswo quick_sort_stack_pairs
      arr.length (by simp only [quick_sort_stack_pairs]; omega)
      (2 * arr.length + 1) arr 0 arr.length [] rfl
      (by intro r hr; simp at hr; subst hr; simp)
      (by simp [RangesDisjoint])
      (by
        intro p q hpq hq hr
        exact absurd ⟨Nat.zero_le _, hq⟩ (hr (0, arr.length) (List.mem_cons_self _ _)))
      (by simp [DepthOK])
      (by simp [pending_work])
    refine ⟨out, e, pm.length_eq, ?_⟩
    intro i h
    have hl := pm.length_eq
    exact srt i (i + 1) (by omega) (by omega) out[i] out[i + 1]
      (List.getElem?_eq_getElem (by omega)) (List.getElem?_eq_getElem h)

theorem quick_sort_sorted_witness :
    (([5, 3, 3, 1, 4] : List Nat).length < 2 ^ 31) ∧
    ∃ out, quick_sort (fun a b : Nat => decide (a < b)) [5, 3, 3, 1, 4] = some out ∧
      out.length = ([5, 3, 3, 1, 4] : List Nat).length ∧
      ∀ i (h : i + 1 < out.length), (fun a b : Nat => decide (a < b)) out[i + 1] out[i] = false :=
  ⟨by decide, quick_sort_sorted _ strictWeakOrder_nat_lt [5, 3, 3, 1, 4] (by decide)⟩

end agg

namespace agg
variable {α : Type}

/-- C2: for every array and every strict weak ordering, `quick_sort` returns a
permutation of its input (same elements with the same multiplicities, same
length); duplicates are kept: `{5,3,3,1,4}` sorted ascending is `{1,3,3,4,5}`. -/
theorem quick_sort_perm (less : α → α → Bool) (hswo : StrictWeakOrder less) (arr : List α) :
    (∃ out, quick_sort less arr = some out ∧ out.Perm arr ∧ out.length = arr.length) ∧
    quick_sort (fun a b : Nat => decide (a < b)) [5, 3, 3, 1, 4] = some [1, 3, 3, 4, 5] := by
  refine ⟨?_, by decide⟩
  unfold quick_sort
  by_cases h2 : arr.length < 2
  · rw [if_pos h2]
    exact ⟨arr, rfl, List.Perm.refl _, rfl⟩
  · rw [if_neg h2]
    by_cases h31 : 2 ^ 31 ≤ arr.length
    · rw [if_pos h31]
      exact ⟨arr, rfl, List.Perm.refl _, rfl⟩
    · rw [if_neg h31]
      obtain ⟨out, e, pm, -⟩ := quick_sort_loop_spec hswo quick_sort_stack_pairs
        arr.length (by simp only [quick_sort_stack_pairs]; omega)
        (2 * arr.length + 1) arr 0 arr.length [] rfl
        (by intro r hr; simp at hr; subst hr; simp)
        (by simp [RangesDisjoint])
        (by
          intro p q hpq hq hr
          exact absurd ⟨Nat.zero_le _, hq⟩ (hr (0, arr.length) (List.mem_cons_self _ _)))
        (by simp [DepthOK])
        (by simp [pending_work])
      exact ⟨out, e, pm, pm.length_eq⟩

theorem quick_sort_perm_witness :
    StrictWeakOrder (fun a b : Nat => decide (a < b)) ∧
    ((∃ out, quick_sort (fun a b : Nat => decide (a < b)) [2, 1, 2] = some out ∧
        out.Perm [2, 1, 2] ∧ out.length = ([2, 1, 2] : List Nat).length) ∧
      quick_sort (fun a b : Nat => decide (a < b)) [5, 3, 3, 1, 4] = some [1, 3, 3, 4, 5]) :=
  ⟨strictWeakOrder_nat_lt, quick_sort_perm _ strictWeakOrder_nat_lt [2, 1, 2]⟩

end agg

namespace agg
variable {α : Type}

/-! ## `remove_duplicates` -/

theorem run_starts_succ (equal : α → α → Bool) (a : List α) (i : Nat) :
    run_starts equal a (i + 1) =
      run_starts equal a i ++ (if starts_run equal a i then [i] else []) := by
  unfold run_starts
  rw [List.range_succ, List.filter_append]
  congr 1
  by_cases h : starts_run equal a i = true
  · simp [h]
  · simp [h]

theorem run_starts_lt (equal : α → α → Bool) (a : List α) (n : Nat) :
    ∀ i ∈ run_starts equal a n, i < n := by
  intro i hi
  unfold run_starts at hi
  exact List.mem_range.1 (List.mem_filter.1 hi).1

theorem take_set_same (l : List α) (j : Nat) (x : α) : (l.set j x).take j = l.take j := by
  rw [List.set_take]
  exact List.set_eq_of_length_le (by simp)

theorem remove_duplicates_loop_spec (equal : α → α → Bool) (a : List α) :
    ∀ fuel (arr : List α) (i j : Nat), a.length - i < fuel → arr.length = a.length →
      1 ≤ j → j ≤ i → i ≤ a.length →
      (∀ k, j ≤ k → arr[k]? = a[k]?) → arr[i - 1]? = a[i - 1]? →
      j = (run_starts equal a i).length →
      arr.take j = (run_starts equal a i).filterMap (fun k => a[k]?) →
      ∃ out, remove_duplicates_loop equal fuel arr i j =
          some (out, (run_starts equal a a.length).length) ∧
        out.length = a.length ∧
        out.take (run_starts equal a a.length).length =
          (run_starts equal a a.length).filterMap (fun k => a[k]?) := by
  intro fuel
  induction fuel with
  | zero => intro arr i j h; omega
  | succ fuel ih =>
    intro arr i j hf hl hj1 hji hin hrest hprev hcount htake
    unfold remove_duplicates_loop
    by_cases hc : i < arr.length
    · rw [if_pos hc]
      have hi1 : i - 1 < arr.length := by omega
      have hia : i < a.length := by omega
      have ei : arr[i]? = some a[i] := by
        rw [hrest i hji, List.getElem?_eq_getElem hia]
      have ep : arr[i - 1]? = some (a[i - 1]) := by
        rw [hprev, List.getElem?_eq_getElem (by omega)]
      rw [ei, ep]
      simp only
      have hsr : starts_run equal a i = !equal a[i] (a[i - 1]) := by
        unfold starts_run
        rw [List.getElem?_eq_getElem hia, List.getElem?_eq_getElem (by omega : i - 1 < a.length)]
        have : (i == 0) = false := by
          simp only [beq_eq_false_iff_ne]; omega
        rw [this]; simp
      by_cases hne : (!equal a[i] (a[i - 1])) = true
      · rw [if_pos hne, if_pos (by omega)]
        have hs : starts_run equal a i = true := by rw [hsr]; exact hne
        apply ih (arr.set j a[i]) (i + 1) (j + 1) (by omega) (by simpa using hl) (by omega)
          (by omega) (by omega)
        · intro k hk
          rw [List.getElem?_set_ne (by omega)]
          exact hrest k (by omega)
        · simp only [Nat.add_sub_cancel]
          by_cases hij : j = i
          · rw [hij, List.getElem?_set_self hc, List.getElem?_eq_getElem hia]
          · rw [List.getElem?_set_ne hij, ei, List.getElem?_eq_getElem hia]
        · rw [run_starts_succ, hs]
          simp [hcount]
        · rw [run_starts_succ, hs]
          simp only [if_true, List.filterMap_append, List.filterMap_cons, List.filterMap_nil,
            List.getElem?_eq_getElem hia]
          rw [← htake, List.take_succ, take_set_same,
            List.getElem?_set_self (by omega)]
          rfl
      · rw [if_neg hne]
        have hs : starts_run equal a i = false := by
          rw [hsr]; simpa using hne
        apply ih arr (i + 1) j (by omega) hl hj1 (by omega) (by omega) hrest
        · simp only [Nat.add_sub_cancel]
          exact hrest i hji
        · rw [run_starts_succ, hs]
          simpa using hcount
        · rw [run_starts_succ, hs]
          simpa using htake
    · rw [if_neg hc]
      have hia : i = a.length := by omega
      subst hia
      exact ⟨arr, by rw [hcount], hl, by rw [← hcount]; exact htake⟩

/-- C3: `remove_duplicates(a, equal)` returns the number `r` of indices that start a run
(`i = 0`, or `equal(a[i], a[i-1])` false); the array keeps its length, and its first `r`
elements are the original elements at those indices, in their original order.  For fewer
than two elements the array is untouched and `r` is its length.  The array
`{1,1,2,3,3,3,5}` gives `4` and the prefix `{1,2,3,5}`. -/
theorem remove_duplicates_spec (equal : α → α → Bool) (a : List α) :
    (∃ out, remove_duplicates equal a = some (out, (run_starts equal a a.length).length) ∧
      out.length = a.length ∧
      out.take (run_starts equal a a.length).length =
        (run_starts equal a a.length).filterMap (fun k => a[k]?) ∧
      (a.length < 2 → out = a ∧ (run_starts equal a a.length).length = a.length)) ∧
    (remove_duplicates (fun x y : Nat => x == y) [1, 1, 2, 3, 3, 3, 5]).map
      (fun r => (r.1.take r.2, r.2)) = some ([1, 2, 3, 5], 4) := by
  refine ⟨?_, by decide⟩
  unfold remove_duplicates
  by_cases h2 : a.length < 2
  · rw [if_pos h2]
    match a, h2 with
    | [], _ => exact ⟨[], by simp [run_starts], rfl, by simp [run_starts], fun _ => ⟨rfl, by simp [run_starts]⟩⟩
    | [x], _ =>
      refine ⟨[x], by simp [run_starts, starts_run, List.range_succ], rfl,
        by simp [run_starts, starts_run, List.range_succ],
        fun _ => ⟨rfl, by simp [run_starts, starts_run, List.range_succ]⟩⟩
    | _ :: _ :: _, h => simp at h; omega
  · rw [if_neg h2]
    obtain ⟨out, e, hl, ht⟩ := remove_duplicates_loop_spec equal a a.length a 1 1 (by omega) rfl
      (le_refl _) (le_refl _) (by omega) (fun _ _ => rfl) rfl
      (by simp [run_starts, starts_run, List.range_succ])
      (by
        have h0 : 0 < a.length := by omega
        simp [run_starts, starts_run, List.range_succ, List.getElem?_eq_getElem h0,
          List.take_one]
        cases a with
        | nil => simp at h0
        | cons x xs => simp)
    exact ⟨out, e, hl, ht, fun h => absurd h h2⟩

end agg

namespace agg
namespace pod_deque
variable {T : Type}

/-! ## `pod_deque`: `add`, `allocate_continuous_block`, `serialize`, `deserialize` -/

theorem block_size_eq (S : Nat) : block_size S = 2 ^ S := by
  unfold block_size; exact Nat.one_shiftLeft S

theorem block_size_pos (S : Nat) : 0 < block_size S := by
  rw [block_size_eq]; exact Nat.two_pow_pos S

theorem and_block_mask (S i : Nat) : i &&& block_mask S = i % block_size S := by
  unfold block_mask
  rw [block_size_eq]
  exact Nat.and_pow_two_sub_one_eq_mod i S

theorem shift_eq_div (S i : Nat) : i >>> S = i / block_size S := by
  rw [block_size_eq]; exact Nat.shiftRight_eq_div_pow i S

theorem div_lt_of_lt_mul {i n B : Nat} (h : i < n * B) : i / B < n := by
  rw [Nat.div_lt_iff_lt_mul (by
    rcases Nat.eq_zero_or_pos B with h0 | h0
    · subst h0; simp at h
    · exact h0)]
  exact h

theorem lt_mul_of_div_lt {i n B : Nat} (hB : 0 < B) (h : i / B < n) : i < n * B := by
  rwa [Nat.div_lt_iff_lt_mul hB] at h

theorem Inv_init (S : Nat) : Inv S (init S : pod_deque T) :=
  ⟨by simp only [init]; exact block_size_pos S, le_refl _, rfl,
    fun k hk => absurd hk (by simp [init]), by simp [init]⟩

theorem allocate_block_spec [Inhabited T] {S : Nat} {d : pod_deque T} (hd : Inv S d) :
    ∃ d1, allocate_block S d d.m_num_blocks = some d1 ∧ d1.m_size = d.m_size ∧
      d1.m_num_blocks = d.m_num_blocks + 1 ∧ d1.m_block_ptr_inc = d.m_block_ptr_inc ∧
      d1.m_num_blocks ≤ d1.m_max_blocks ∧ d1.m_blocks.length = d1.m_max_blocks ∧
      (∀ k, k < d.m_num_blocks → d1.m_blocks[k]? = d.m_blocks[k]?) ∧
      d1.m_blocks[d.m_num_blocks]? = some (some (List.replicate (block_size S) default)) := by
  obtain ⟨h1, h2, h3, h4, -⟩ := hd
  unfold allocate_block
  by_cases hc : d.m_num_blocks ≥ d.m_max_blocks
  · have hlen : d.m_num_blocks < d.m_max_blocks + d.m_block_ptr_inc := by omega
    simp only [if_pos hc, List.length_map, List.length_range, if_pos hlen]
    refine ⟨_, rfl, rfl, rfl, rfl, by simp only; omega, by simp, ?_, ?_⟩
    · intro k hk
      simp only
      rw [List.getElem?_set_ne (by omega), List.getElem?_map,
        List.getElem?_range (by omega)]
      simp only [Option.map_some', if_pos hk]
      rw [List.getD_eq_getElem?_getD]
      obtain ⟨blk, e, -⟩ := h4 k hk
      rw [e]; rfl
    · simp only
      rw [List.getElem?_set_self (by simp; omega)]
  · have hlen : d.m_num_blocks < d.m_blocks.length := by omega
    simp only [if_neg hc, if_pos hlen]
    refine ⟨_, rfl, rfl, rfl, rfl, by simp only; omega, by simp [h3], ?_, ?_⟩
    · intro k hk
      simp only
      rw [List.getElem?_set_ne (by omega)]
    · simp only
      rw [List.getElem?_set_self hlen]

theorem data_ptr_spec [Inhabited T] {S : Nat} {d : pod_deque T} (hd : Inv S d) :
    ∃ d1, data_ptr S d = some (d1, d.m_size / block_size S, d.m_size % block_size S) ∧
      Inv S d1 ∧ d1.m_size = d.m_size ∧ d.m_size < d1.m_num_blocks * block_size S ∧
      d.m_num_blocks ≤ d1.m_num_blocks ∧ d1.m_block_ptr_inc = d.m_block_ptr_inc ∧
      (∀ k, k < d.m_num_blocks → d1.m_blocks[k]? = d.m_blocks[k]?) ∧
      (d.m_size < d.m_num_blocks * block_size S → d1 = d) := by
  have hB := block_size_pos S
  unfold data_ptr
  simp only [shift_eq_div, and_block_mask]
  by_cases hc : d.m_size / block_size S ≥ d.m_num_blocks
  · have hnb : d.m_size / block_size S = d.m_num_blocks := by
      have h2 : d.m_size / block_size S ≤ d.m_num_blocks := by
        have := Nat.div_le_div_right (c := block_size S) hd.size_le
        rwa [Nat.mul_div_cancel _ hB] at this
      omega
    obtain ⟨d1, e, a1, a2, a3, a4, a5, a6, a7⟩ := allocate_block_spec hd
    rw [if_pos hc, hnb, e]
    simp only
    rw [if_pos (by omega)]
    refine ⟨d1, rfl, ⟨by rw [a3]; exact hd.inc_pos, a4, a5, ?_, ?_⟩, a1, ?_, by omega, a3, a6, ?_⟩
    · intro k hk
      by_cases hk1 : k < d.m_num_blocks
      · rw [a6 k hk1]; exact hd.blocks k hk1
      · have : k = d.m_num_blocks := by omega
        rw [this, a7]
        exact ⟨_, rfl, by simp⟩
    · rw [a1, a2]
      exact le_trans hd.size_le (Nat.mul_le_mul_right _ (by omega))
    · rw [a2]
      apply lt_mul_of_div_lt hB
      omega
    · intro h
      have := div_lt_of_lt_mul h
      omega
  · rw [if_neg hc]
    simp only
    have hlt : d.m_size / block_size S < d.m_num_blocks := by omega
    rw [if_pos (by have := hd.num_le_max; have := hd.table_len; omega)]
    exact ⟨d, rfl, hd, rfl, lt_mul_of_div_lt hB hlt, le_refl _, rfl, fun _ _ => rfl,
      fun _ => rfl⟩

theorem value_at_eq (S : Nat) (d : pod_deque T) (i : Nat) :
    value_at S d i = block_elem d.m_blocks[i / block_size S]? (i % block_size S) := by
  unfold value_at
  rw [shift_eq_div, and_block_mask]

theorem value_at_congr {S : Nat} {d d1 : pod_deque T} {i : Nat}
    (h : d1.m_blocks[i / block_size S]? = d.m_blocks[i / block_size S]?) :
    value_at S d1 i = value_at S d i := by
  rw [value_at_eq, value_at_eq, h]

theorem value_at_isSome {S : Nat} {d : pod_deque T} (hd : Inv S d) {i : Nat}
    (hi : i < d.m_num_blocks * block_size S) : ∃ x, value_at S d i = some x := by
  obtain ⟨blk, e, hl⟩ := hd.blocks _ (div_lt_of_lt_mul hi)
  rw [value_at_eq, e]
  simp only [block_elem]
  have : i % block_size S < blk.length := by
    rw [hl]; exact Nat.mod_lt _ (block_size_pos S)
  exact ⟨_, List.getElem?_eq_getElem this⟩

end pod_deque
end agg

namespace agg

theorem encode_elems_length {T : Type} [Pod T] (xs : List T) :
    (encode_elems xs).length = xs.length * Pod.sizeof T := by
  induction xs with
  | nil => simp [encode_elems]
  | cons x xs ih =>
    simp only [encode_elems, List.length_append, List.length_cons, Pod.bytes_length, ih]
    rw [Nat.add_mul, Nat.one_mul, Nat.add_comm]

theorem decode_encode_elems {T : Type} [Pod T] (xs : List T) (rest : List int8u) :
    decode_elems xs.length (encode_elems xs ++ rest) = xs := by
  induction xs with
  | nil => simp [decode_elems]
  | cons x xs ih =>
    simp only [encode_elems, List.length_cons, decode_elems, List.append_assoc]
    rw [List.take_left' (Pod.bytes_length x), List.drop_left' (Pod.bytes_length x),
      Pod.object_bytes, ih]

namespace pod_deque
variable {T : Type}

end pod_deque
end agg

namespace agg
namespace pod_deque
variable {T : Type}

theorem div_eq_of_bounds {x B q : Nat} (h1 : q * B ≤ x) (h2 : x < (q + 1) * B) : x / B = q := by
  have hB : 0 < B := by
    rcases Nat.eq_zero_or_pos B with h0 | h0
    · subst h0; simp at h2
    · exact h0
  apply Nat.le_antisymm
  · have := (Nat.div_lt_iff_lt_mul hB).2 h2
    omega
  · exact (Nat.le_div_iff_mul_le hB).2 h1

theorem allocate_continuous_block_run [Inhabited T] {S : Nat} {d : pod_deque T} (hd : Inv S d)
    {count : Nat} (hc : count < block_size S) :
    ∃ (d1 : pod_deque T) (start : Nat),
      allocate_continuous_block S d count = some (d1, int_of_unsigned start) ∧
      start = (if count ≤ block_size S - d.m_size % block_size S then d.m_size
        else d.m_size + (block_size S - d.m_size % block_size S)) ∧
      d1.m_size = start + count ∧ Inv S d1 ∧
      (1 ≤ count → start >>> S = (start + count - 1) >>> S) ∧
      (∀ i, i < d.m_size → ∃ x, value_at S d i = some x ∧ value_at S d1 i = some x) := by
  have hB := block_size_pos S
  obtain ⟨d1, e1, inv1, s1, lt1, nb1, inc1, keep1, -⟩ := data_ptr_spec hd
  have hq := Nat.div_add_mod d.m_size (block_size S)
  have hr := Nat.mod_lt d.m_size hB
  have hq1 : d.m_size / block_size S < d1.m_num_blocks := div_lt_of_lt_mul lt1
  have hq2 : (d.m_size / block_size S + 1) * block_size S ≤ d1.m_num_blocks * block_size S :=
    Nat.mul_le_mul_right _ hq1
  rw [Nat.succ_mul] at hq2
  rw [Nat.mul_comm] at hq
  have hvals : ∀ (d3 : pod_deque T), (∀ k, k < d.m_num_blocks → d3.m_blocks[k]? = d.m_blocks[k]?) →
      ∀ i, i < d.m_size → ∃ x, value_at S d i = some x ∧ value_at S d3 i = some x := by
    intro d3 h3 i hi
    have hi2 := lt_of_lt_of_le hi hd.size_le
    obtain ⟨x, hx⟩ := value_at_isSome hd hi2
    refine ⟨x, hx, ?_⟩
    rw [← hx]
    exact value_at_congr (h3 _ (div_lt_of_lt_mul hi2))
  unfold allocate_continuous_block
  rw [if_pos hc, e1]
  simp only [and_block_mask, s1]
  by_cases hfit : count ≤ block_size S - d.m_size % block_size S
  · rw [if_pos hfit, if_pos hfit]
    refine ⟨_, d.m_size, rfl, rfl, rfl,
      ⟨inv1.inc_pos, inv1.num_le_max, inv1.table_len, inv1.blocks, ?_⟩, ?_, ?_⟩
    · simp only; omega
    · intro h1
      rw [shift_eq_div, shift_eq_div]
      have hdiv : (d.m_size + count - 1) / block_size S = d.m_size / block_size S :=
        div_eq_of_bounds (by omega) (by rw [Nat.succ_mul]; omega)
      rw [hdiv]
    · exact hvals _ keep1
  · rw [if_neg hfit, if_neg hfit]
    have inv2 : Inv S ({ d1 with m_size := d.m_size + (block_size S - d.m_size % block_size S) }) :=
      ⟨inv1.inc_pos, inv1.num_le_max, inv1.table_len, inv1.blocks, by simp only; omega⟩
    obtain ⟨d3, e3, inv3, s3, lt3, nb3, inc3, keep3, -⟩ := data_ptr_spec inv2
    simp only at s3 lt3 nb3 keep3
    have hq3 : (d.m_size + (block_size S - d.m_size % block_size S)) / block_size S
        = d.m_size / block_size S + 1 := by
      apply div_eq_of_bounds
      · rw [Nat.succ_mul]; omega
      · rw [Nat.succ_mul, Nat.succ_mul]; omega
    have hq4 : d.m_size / block_size S + 1 < d3.m_num_blocks := by
      rw [← hq3]; exact div_lt_of_lt_mul lt3
    have hq5 : (d.m_size / block_size S + 1 + 1) * block_size S
        ≤ d3.m_num_blocks * block_size S := Nat.mul_le_mul_right _ hq4
    rw [Nat.succ_mul, Nat.succ_mul] at hq5
    simp only at e3
    rw [e3]
    simp only [s3]
    refine ⟨_, _, rfl, rfl, rfl,
      ⟨inv3.inc_pos, inv3.num_le_max, inv3.table_len, inv3.blocks, ?_⟩, ?_, ?_⟩
    · simp only; omega
    · intro h1
      rw [shift_eq_div, shift_eq_div, hq3]
      have hdiv : (d.m_size + (block_size S - d.m_size % block_size S) + count - 1)
          / block_size S = d.m_size / block_size S + 1 :=
        div_eq_of_bounds (by rw [Nat.succ_mul]; omega)
          (by rw [Nat.succ_mul, Nat.succ_mul]; omega)
      rw [hdiv]
    · apply hvals
      intro k hk
      rw [keep3 k (by omega), keep1 k hk]

theorem int_of_unsigned_of_lt {x : Nat} (h : x < 2 ^ 31) : int_of_unsigned x = (x : Int) := by
  unfold int_of_unsigned u32
  rw [Nat.mod_eq_of_lt (by omega : x < 2 ^ 32), if_pos h]

theorem Inv_example_huge : Inv 30 example_huge := by
  refine ⟨by decide, by decide, by decide, ?_, by decide⟩
  intro k hk
  have hk2 : k < 4 := hk
  interval_cases k
  · exact ⟨_, rfl, by rw [List.length_range, block_size_eq]⟩
  · exact ⟨_, rfl, by rw [List.length_range, block_size_eq]⟩
  · exact ⟨_, rfl, by rw [List.length_range, block_size_eq]⟩
  · exact ⟨_, rfl, by rw [List.length_range, block_size_eq]⟩

/-- C7, amended: in a state that satisfies the representation invariant (with a
pointer-table increment of at least one), with `old_size + block_size <= 2^31`, and for
`count < block_size`, `allocate_continuous_block(count)` returns `start = old_size` when
`count` is at most `rest = block_size - old_size mod block_size`, and
`start = old_size + rest` (the next block boundary) otherwise; the new size is
`start + count`; for `count >= 1` the indices `start` and `start + count - 1` are in one
block; the elements below the old size keep their values.  With block size 8, three
requests of 3 return 0, 3 and 8. -/
theorem allocate_continuous_block_spec [Inhabited T] (S : Nat) (d : pod_deque T) (hd : Inv S d)
    (hsmall : d.m_size + block_size S ≤ 2 ^ 31) (count : Nat) (hc : count < block_size S) :
    (∃ (d1 : pod_deque T) (start : Nat), allocate_continuous_block S d count = some (d1, (start : Int)) ∧
      start = (if count ≤ block_size S - d.m_size % block_size S then d.m_size
        else d.m_size + (block_size S - d.m_size % block_size S)) ∧
      d1.m_size = start + count ∧ Inv S d1 ∧
      (1 ≤ count → start >>> S = (start + count - 1) >>> S) ∧
      (∀ i, i < d.m_size → ∃ x, value_at S d i = some x ∧ value_at S d1 i = some x)) ∧
    block_size S = 2 ^ S ∧
    ((allocate_continuous_block 3 (init 3 : pod_deque Nat) 3).bind fun r1 =>
      (allocate_continuous_block 3 r1.1 3).bind fun r2 =>
        (allocate_continuous_block 3 r2.1 3).map fun r3 => (r1.2, r2.2, r3.2))
      = some (0, 3, 8) := by
  refine ⟨?_, block_size_eq S, by decide⟩
  obtain ⟨d1, start, e, hstart, rest⟩ := allocate_continuous_block_run hd hc
  have hB := block_size_pos S
  have hlt : start < 2 ^ 31 := by
    rw [hstart]
    split
    · omega
    · omega
  rw [int_of_unsigned_of_lt hlt] at e
  exact ⟨d1, start, e, hstart, rest⟩

theorem allocate_continuous_block_spec_witness :
    Inv 3 (init 3 : pod_deque Nat) ∧ (init 3 : pod_deque Nat).m_size + block_size 3 ≤ 2 ^ 31 ∧
    3 < block_size 3 ∧
    ((∃ (d1 : pod_deque Nat) (start : Nat), allocate_continuous_block 3 (init 3 : pod_deque Nat) 3
        = some (d1, (start : Int)) ∧
      start = (if 3 ≤ block_size 3 - (init 3 : pod_deque Nat).m_size % block_size 3
        then (init 3 : pod_deque Nat).m_size
        else (init 3 : pod_deque Nat).m_size
          + (block_size 3 - (init 3 : pod_deque Nat).m_size % block_size 3)) ∧
      d1.m_size = start + 3 ∧ Inv 3 d1 ∧
      (1 ≤ 3 → start >>> 3 = (start + 3 - 1) >>> 3) ∧
      (∀ i, i < (init 3 : pod_deque Nat).m_size →
        ∃ x, value_at 3 (init 3 : pod_deque Nat) i = some x ∧ value_at 3 d1 i = some x)) ∧
    block_size 3 = 2 ^ 3 ∧
    ((allocate_continuous_block 3 (init 3 : pod_deque Nat) 3).bind fun r1 =>
      (allocate_continuous_block 3 r1.1 3).bind fun r2 =>
        (allocate_continuous_block 3 r2.1 3).map fun r3 => (r1.2, r2.2, r3.2))
      = some (0, 3, 8)) :=
  ⟨Inv_init 3, by decide, by decide,
    allocate_continuous_block_spec 3 (init 3) (Inv_init 3) (by decide) 3 (by decide)⟩

/-- C7 fails as stated.  The first `2^31` elements of the sequence of `2^32 - 1` elements
in four blocks of `2^30` are a sequence that satisfies the representation invariant;
`allocate_continuous_block(1)` on it makes the size `2^31 + 1` and returns the `unsigned`
index `2^31` as an `int`, which is `-2^31` and not the old size.  And in the state
`pod_deque(0)`, with a pointer-table increment of zero, the call
`allocate_continuous_block(3)` writes outside the pointer table. -/
theorem allocate_continuous_block_wraps :
    Inv 30 (cut_at example_huge (2 ^ 31)) ∧ (cut_at example_huge (2 ^ 31)).m_size = 2 ^ 31 ∧
    1 < block_size 30 ∧
    (1 ≤ block_size 30 - (cut_at example_huge (2 ^ 31)).m_size % block_size 30) ∧
    (allocate_continuous_block 30 (cut_at example_huge (2 ^ 31)) 1).map
      (fun r => (r.1.m_size, r.2)) = some (2 ^ 31 + 1, -2 ^ 31) ∧
    (allocate_continuous_block 3 (init_inc 0 : pod_deque Nat) 3).map Prod.snd = none := by
  refine ⟨?_, by decide, by decide, by decide, by decide, by decide⟩
  have h := Inv_example_huge
  exact ⟨h.inc_pos, h.num_le_max, h.table_len, h.blocks, by decide⟩

/-- C8, amended: in a state that satisfies the representation invariant (with a
pointer-table increment of at least one) and, when `count < block_size`, with
`old_size + block_size <= 2^31`, `allocate_continuous_block(count)` returns `-1` exactly
when `count >= block_size`, and then the sequence is unchanged; in every other case the
result is not negative. -/
theorem allocate_continuous_block_sentinel [Inhabited T] (S : Nat) (d : pod_deque T)
    (hd : Inv S d) (count : Nat)
    (hsmall : count < block_size S → d.m_size + block_size S ≤ 2 ^ 31) :
    ∃ d1 r, allocate_continuous_block S d count = some (d1, r) ∧
      (r = -1 ↔ block_size S ≤ count) ∧ (block_size S ≤ count → d1 = d) ∧
      (count < block_size S → 0 ≤ r) ∧ block_size S = 2 ^ S := by
  by_cases hc : count < block_size S
  · obtain ⟨d1, start, e, hstart, -⟩ := allocate_continuous_block_run hd hc
    have hB := block_size_pos S
    have h31 := hsmall hc
    have hlt : start < 2 ^ 31 := by
      rw [hstart]
      split
      · omega
      · omega
    rw [int_of_unsigned_of_lt hlt] at e
    refine ⟨d1, start, e, ⟨fun h => ?_, fun h => ?_⟩, fun h => ?_, fun _ => ?_, block_size_eq S⟩
    · omega
    · omega
    · omega
    · omega
  · refine ⟨d, -1, ?_, ⟨fun _ => by omega, fun _ => rfl⟩, fun _ => rfl, fun h => absurd h hc,
      block_size_eq S⟩
    unfold allocate_continuous_block
    rw [if_neg hc]

theorem allocate_continuous_block_sentinel_witness :
    Inv 3 (init 3 : pod_deque Nat) ∧
    (8 < block_size 3 → (init 3 : pod_deque Nat).m_size + block_size 3 ≤ 2 ^ 31) ∧
    (∃ d1 r, allocate_continuous_block 3 (init 3 : pod_deque Nat) 8 = some (d1, r) ∧
      (r = -1 ↔ block_size 3 ≤ 8) ∧ (block_size 3 ≤ 8 → d1 = (init 3 : pod_deque Nat)) ∧
      (8 < block_size 3 → 0 ≤ r) ∧ block_size 3 = 2 ^ 3) ∧
    ∃ d1 r, allocate_continuous_block 3 (init 3 : pod_deque Nat) 5 = some (d1, r) ∧
      (r = -1 ↔ block_size 3 ≤ 5) ∧ (block_size 3 ≤ 5 → d1 = (init 3 : pod_deque Nat)) ∧
      (5 < block_size 3 → 0 ≤ r) ∧ block_size 3 = 2 ^ 3 :=
  ⟨Inv_init 3, fun _ => by decide,
    allocate_continuous_block_sentinel 3 (init 3) (Inv_init 3) 8 (fun _ => by decide),
    allocate_continuous_block_sentinel 3 (init 3) (Inv_init 3) 5 (fun _ => by decide)⟩

/-- C8 fails as stated.  On the sequence of `2^32 - 1` elements in four blocks of `2^30`,
which satisfies the representation invariant, `allocate_continuous_block(0)` with
`0 < block_size` returns the `unsigned` index `2^32 - 1` as an `int`: the sentinel `-1`.
On the first `2^31` elements of it the call returns `-2^31`, a negative index.  And in the
state `pod_deque(0)` the call `allocate_continuous_block(0)` writes outside the pointer
table. -/
theorem allocate_continuous_block_false_sentinel :
    Inv 30 example_huge ∧ 0 < block_size 30 ∧
    (allocate_continuous_block 30 example_huge 0).map Prod.snd = some (-1) ∧
    (allocate_continuous_block 30 (cut_at example_huge (2 ^ 31)) 0).map Prod.snd
      = some (-2 ^ 31) ∧
    (allocate_continuous_block 3 (init_inc 0 : pod_deque Nat) 0).map Prod.snd = none :=
  ⟨Inv_example_huge, by decide, by decide, by decide, by decide⟩

end pod_deque

namespace pod_array
variable {T : Type}

/-- C6, amended: when `bytes` is what `a.serialize` wrote and the byte count
`size * sizeof(T)` of `a` fits in an `unsigned` (is below `2^32`),
`b.deserialize(bytes, a.byte_size())` on a target `b` of any size and capacity (whose
allocation holds `m_capacity` elements) gives an array of the size of `a` with the elements
of `a`, and serialising it writes the same `size * sizeof(T)` bytes. -/
theorem pod_array_roundtrip [Pod T] [Inhabited T] (a b : pod_array T)
    (hfit : a.m_size * Pod.sizeof T < 2 ^ 32)
    (hb : Allocated b) (bytes : List int8u) (hs : serialize a = some bytes) :
    ∃ b1, deserialize b bytes (byte_size a) = some b1 ∧ b1.m_size = a.m_size ∧
      (∀ i, i < a.m_size → ∃ x, a.m_array[i]? = some x ∧ b1.m_array[i]? = some x) ∧
      serialize b1 = some bytes ∧ bytes.length = a.m_size * Pod.sizeof T := by
  have hw := Pod.sizeof_pos (T := T)
  have ha : a.m_size < 2 ^ 32 :=
    lt_of_le_of_lt (Nat.le_mul_of_pos_right _ hw) hfit
  unfold deserialize byte_size u32
  rw [Nat.mod_eq_of_lt hfit, Nat.mul_div_cancel _ hw]
  simp only
  by_cases h0 : a.m_size = 0
  · have hbytes : bytes = [] := by
      unfold serialize at hs
      simp only [h0, ne_eq, not_true_eq_false, if_false, Option.some.injEq] at hs
      exact hs.symm
    simp only [h0, ne_eq, not_true_eq_false, if_false]
    refine ⟨_, rfl, rfl, fun i hi => absurd hi (by omega), ?_, by simp [hbytes]⟩
    simp [serialize, allocate, hbytes]
  · have hle : a.m_size ≤ a.m_array.length := by
      by_contra hcon
      unfold serialize at hs
      simp [h0, hcon] at hs
    have hbytes : bytes = encode_elems (a.m_array.take a.m_size) := by
      unfold serialize at hs
      simp only [ne_eq, h0, not_false_eq_true, if_true, hle, Option.some.injEq] at hs
      exact hs.symm
    have hxl : (a.m_array.take a.m_size).length = a.m_size := by
      simp [hle]
    have hblen : bytes.length = a.m_size * Pod.sizeof T := by
      rw [hbytes, encode_elems_length, hxl]
    have hdec : (decode_elems a.m_size bytes : List T) = a.m_array.take a.m_size := by
      have := decode_encode_elems (a.m_array.take a.m_size) []
      rw [List.append_nil, ← hbytes, hxl] at this
      exact this
    have hcap : a.m_size ≤ (allocate b a.m_size 0).m_array.length := by
      unfold allocate capacity
      by_cases hc : a.m_size > b.m_capacity
      · have hu : u32 (a.m_size + 0) = a.m_size := by
          unfold u32; simp only [Nat.add_zero]; exact Nat.mod_eq_of_lt ha
        simp only [if_pos hc, hu, ne_eq, h0, not_false_eq_true, if_true, List.length_replicate,
          le_refl]
      · simp only [if_neg hc]
        unfold Allocated at hb
        omega
    simp only [ne_eq, h0, not_false_eq_true, if_true]
    rw [if_pos ⟨hcap, by rw [hblen]⟩]
    refine ⟨_, rfl, rfl, ?_, ?_, hblen⟩
    · intro i hi
      have hia : i < a.m_array.length := by omega
      refine ⟨a.m_array[i], List.getElem?_eq_getElem hia, ?_⟩
      simp only [hdec]
      rw [List.getElem?_append_left (by rw [hxl]; exact hi), List.getElem?_take,
        if_pos hi, List.getElem?_eq_getElem hia]
    · simp only [serialize, allocate, ne_eq, h0, not_false_eq_true, if_true, hdec,
        List.length_append, hxl]
      rw [if_pos (by omega), List.take_left' hxl, hbytes]

theorem pod_array_roundtrip_witness :
    (example_array.m_size * Pod.sizeof (int8u × int8u) < 2 ^ 32) ∧
    Allocated (pod_array.init : pod_array (int8u × int8u)) ∧
    serialize example_array = some [1, 2, 3, 4] ∧
    ∃ b1, deserialize (pod_array.init : pod_array (int8u × int8u)) [1, 2, 3, 4]
        (byte_size example_array) = some b1 ∧
      b1.m_size = example_array.m_size ∧
      (∀ i, i < example_array.m_size →
        ∃ x, example_array.m_array[i]? = some x ∧ b1.m_array[i]? = some x) ∧
      serialize b1 = some [1, 2, 3, 4] ∧
      ([1, 2, 3, 4] : List int8u).length =
        example_array.m_size * Pod.sizeof (int8u × int8u) :=
  ⟨by decide, by decide, by decide,
    pod_array_roundtrip _ _ (by decide) (by decide) [1, 2, 3, 4] (by decide)⟩

/-- C6 fails as stated.  For an array of `2^31` two-byte elements `byte_size()` is `2^32`
as an `unsigned`, which is `0`: for every byte string, `deserialize(bytes, a.byte_size())`
gives the size 0, not `2^31`. -/
theorem pod_array_roundtrip_fails :
    example_huge_array.m_size = 2 ^ 31 ∧ Allocated example_huge_array ∧
    byte_size example_huge_array = 0 ∧
    ∀ bytes : List int8u,
      (deserialize (pod_array.init : pod_array (int8u × int8u)) bytes
        (byte_size example_huge_array)).map (fun b => b.m_size) = some 0 := by
  have hb : byte_size example_huge_array = 0 := by decide
  refine ⟨rfl, ?_, hb, ?_⟩
  · unfold Allocated
    show 2 ^ 31 ≤ (List.replicate (2 ^ 31) ((0, 0) : int8u × int8u)).length
    rw [List.length_replicate]
  · intro bytes
    rw [hb]
    rfl

end pod_array
end agg

namespace agg
namespace pod_allocator

/-! ## `pod_allocator`: returned spans -/

theorem heap_from_ge (live : List (Nat × Nat)) :
    ∀ m, m ≤ live.foldl (fun m b => max m (b.1 + b.2)) m ∧
      ∀ b ∈ live, b.1 + b.2 ≤ live.foldl (fun m b => max m (b.1 + b.2)) m := by
  induction live with
  | nil => intro m; exact ⟨le_refl _, fun b hb => absurd hb (by simp)⟩
  | cons c cs ih =>
    intro m
    simp only [List.foldl_cons]
    obtain ⟨h1, h2⟩ := ih (max m (c.1 + c.2))
    refine ⟨le_trans (le_max_left _ _) h1, ?_⟩
    intro b hb
    rcases List.mem_cons.1 hb with h | h
    · subst h; exact le_trans (le_max_right _ _) h1
    · exact h2 b h

theorem heap_from_fresh (start : Nat) (h : 0 < start) : Heap.Fresh (heap_from start) := by
  intro live size
  obtain ⟨h1, h2⟩ := heap_from_ge live start
  exact ⟨lt_of_lt_of_le h h1, fun b hb => Or.inl (h2 b hb)⟩

theorem mem_owned {a : pod_allocator} {k : Nat} {b : Nat × Nat} (hk : k < a.m_num_blocks)
    (hb : a.m_blocks[k]? = some (some b)) : b ∈ owned a := by
  unfold owned
  rw [List.mem_filterMap]
  refine ⟨some b, ?_, rfl⟩
  rw [List.mem_iff_getElem?]
  exact ⟨k, by rw [List.getElem?_take, if_pos hk]; exact hb⟩

theorem PoolInv_init (block_size inc : Nat) : PoolInv (init block_size inc) [] :=
  ⟨le_refl _, rfl, fun k hk => absurd hk (by simp [init]),
    fun k1 k2 b1 b2 _ h => absurd h (by simp [init]), Or.inl rfl,
    fun s hs => absurd hs (by simp), fun s hs => absurd hs (by simp), List.Pairwise.nil⟩

theorem allocate_block_inv {heap : Heap} (hf : Heap.Fresh heap) {a : pod_allocator}
    {spans : List (Nat × Nat)} (hinv : PoolInv a spans) (hinc : 1 ≤ a.m_block_ptr_inc)
    (size : Nat) :
    ∃ a1, allocate_block heap a size = some a1 ∧ PoolInv a1 spans ∧ size ≤ a1.m_rest ∧
      a1.m_block_ptr_inc = a.m_block_ptr_inc := by
  obtain ⟨h1, h2, h3, h4, h5, h6, h7, h8⟩ := hinv
  -- the table after the regrowth, when there is one
  have key : ∀ (tbl : List (Option (Nat × Nat))) (mx ptr sz : Nat),
      a.m_num_blocks < tbl.length → tbl.length = mx →
      (∀ k, k < a.m_num_blocks → tbl[k]? = a.m_blocks[k]?) →
      (∀ b ∈ owned { a with m_blocks := tbl, m_max_blocks := mx }, span_disjoint b (ptr, sz)) →
      PoolInv
        { a with
          m_blocks := tbl.set a.m_num_blocks (some (ptr, sz))
          m_max_blocks := mx
          m_buf_ptr := ptr
          m_num_blocks := a.m_num_blocks + 1
          m_rest := sz } spans := by
    intro tbl mx ptr sz hlen hmx hkeep hfresh
    have hold : ∀ k b, k < a.m_num_blocks → a.m_blocks[k]? = some (some b) →
        span_disjoint b (ptr, sz) := by
      intro k b hk hb
      exact hfresh b (mem_owned (a := { a with m_blocks := tbl, m_max_blocks := mx }) hk
        (by simp only; rw [hkeep k hk]; exact hb))
    refine ⟨by simp only; omega, by simp only [List.length_set]; exact hmx, ?_, ?_, ?_, ?_, ?_, h8⟩
    · intro k hk
      simp only at hk ⊢
      by_cases hkn : a.m_num_blocks = k
      · rw [hkn, List.getElem?_set_self (by omega)]
        exact ⟨_, rfl⟩
      · rw [List.getElem?_set_ne hkn, hkeep k (by omega)]
        exact h3 k (by omega)
    · intro k1 k2 b1 b2 hk12 hk2 e1 e2
      simp only at hk2 e1 e2
      rw [List.getElem?_set_ne (by omega), hkeep k1 (by omega)] at e1
      by_cases hkn : a.m_num_blocks = k2
      · rw [hkn, List.getElem?_set_self (by omega)] at e2
        simp only [Option.some.injEq] at e2
        rw [← e2]
        exact hold k1 b1 (by omega) e1
      · rw [List.getElem?_set_ne hkn, hkeep k2 (by omega)] at e2
        exact h4 k1 k2 b1 b2 hk12 (by omega) e1 e2
    · right
      refine ⟨(ptr, sz), by simp only; omega, ?_, ?_⟩
      · simp only [Nat.add_sub_cancel]
        rw [List.getElem?_set_self hlen]
      · exact ⟨le_refl _, le_refl _⟩
    · intro s hs
      obtain ⟨hpos, k, b, hk, hb, hin⟩ := h6 s hs
      refine ⟨hpos, k, b, by simp only; omega, ?_, hin⟩
      simp only
      rw [List.getElem?_set_ne (by omega), hkeep k hk]
      exact hb
    · intro s hs
      obtain ⟨hpos, k, b, hk, hb, hin⟩ := h6 s hs
      have := hold k b hk hb
      unfold span_disjoint span_inside at *
      simp only at *
      omega
  unfold allocate_block
  simp only
  by_cases hc : a.m_num_blocks ≥ a.m_max_blocks
  · simp only [if_pos hc, List.length_map, List.length_range]
    rw [if_pos (by omega)]
    refine ⟨_, rfl, ?_, ?_, rfl⟩
    · apply key _ _ _ _ (by simp; omega) (by simp)
      · intro k hk
        rw [List.getElem?_map, List.getElem?_range (by omega)]
        simp only [Option.map_some', if_pos hk]
        rw [List.getD_eq_getElem?_getD]
        obtain ⟨b, e⟩ := h3 k hk
        rw [e]; rfl
      · intro b hb
        exact (hf _ _).2 b hb
    · simp only; split <;> omega
  · simp only [if_neg hc]
    rw [if_pos (by omega)]
    refine ⟨_, rfl, ?_, ?_, rfl⟩
    · exact key a.m_blocks a.m_max_blocks _ _ (by omega) h2 (fun _ _ => rfl)
        (fun b hb => (hf _ _).2 b hb)
    · simp only; split <;> omega

end pod_allocator
end agg

namespace agg
namespace pod_allocator

theorem u32_of_lt {x : Nat} (h : x < 2 ^ 32) : u32 x = x := Nat.mod_eq_of_lt h

theorem u32_sub_add {x y : Nat} (h : x + y < 2 ^ 32) : u32_sub (x + y) y = x := by
  unfold u32_sub
  rw [Nat.mod_eq_of_lt (by omega : y < 2 ^ 32)]
  have : x + y + 2 ^ 32 - y = x + 2 ^ 32 := by omega
  rw [this, Nat.add_mod_right]
  exact Nat.mod_eq_of_lt (by omega)

theorem bump_inv {a : pod_allocator} {spans : List (Nat × Nat)} (hinv : PoolInv a spans)
    {size align : Nat} (hpos : 0 < size) (hfit : size + align ≤ a.m_rest) :
    PoolInv { a with m_rest := a.m_rest - (size + align), m_buf_ptr := a.m_buf_ptr + (size + align) }
      ((a.m_buf_ptr + align, size) :: spans) := by
  obtain ⟨h1, h2, h3, h4, h5, h6, h7, h8⟩ := hinv
  have hcur : ∃ b, 0 < a.m_num_blocks ∧ a.m_blocks[a.m_num_blocks - 1]? = some (some b) ∧
      span_inside (a.m_buf_ptr, a.m_rest) b := by
    rcases h5 with h | h
    · omega
    · exact h
  obtain ⟨b, hb0, hb1, hb2⟩ := hcur
  unfold span_inside at hb2
  simp only at hb2
  refine ⟨h1, h2, h3, h4, ?_, ?_, ?_, ?_⟩
  · right
    refine ⟨b, hb0, hb1, ?_⟩
    unfold span_inside
    simp only
    omega
  · intro s hs
    rcases List.mem_cons.1 hs with h | h
    · subst h
      refine ⟨hpos, a.m_num_blocks - 1, b, by simp only; omega, hb1, ?_⟩
      unfold span_inside
      simp only
      omega
    · exact h6 s h
  · intro s hs
    rcases List.mem_cons.1 hs with h | h
    · subst h
      unfold span_disjoint
      simp only
      omega
    · have := h7 s h
      unfold span_disjoint at *
      simp only at *
      omega
  · refine List.pairwise_cons.2 ⟨?_, h8⟩
    intro s hs
    have := h7 s hs
    unfold span_disjoint at *
    simp only at *
    omega

/-- With a fresh heap, an increment of at least one and no unsigned overflow, `allocate`
returns, and the invariant holds with the new span.  The number `g` says which paddings
the bytes left in the current block are known to hold: every padding below `g`. -/
theorem allocate_fuel_spec {heap : Heap} (hf : Heap.Fresh heap) {size alignment : Nat}
    (hpos : 0 < size) (hal : 1 ≤ alignment) (hno : size + alignment - 1 < 2 ^ 32) :
    ∀ fuel (a : pod_allocator) (spans : List (Nat × Nat)) (g : Nat), PoolInv a spans →
      1 ≤ a.m_block_ptr_inc → g ≤ alignment → (g = 0 ∨ size + (g - 1) ≤ a.m_rest) →
      alignment + 1 ≤ fuel + g →
      ∃ a1 ptr, allocate_fuel heap fuel a size alignment = some (a1, ptr) ∧
        PoolInv a1 ((ptr, size) :: spans) ∧ a1.m_block_ptr_inc = a.m_block_ptr_inc := by
  intro fuel
  induction fuel with
  | zero => intro a spans g _ _ h1 _ h2; omega
  | succ fuel ih =>
    intro a spans g hinv hinc hg hG hfuel
    unfold allocate_fuel
    rw [if_neg (by omega)]
    by_cases hfit : size ≤ a.m_rest
    · rw [if_pos hfit]
      by_cases hal1 : alignment > 1
      · rw [if_pos hal1]
        simp only
        have halign : (alignment - u32 a.m_buf_ptr % alignment) % alignment < alignment :=
          Nat.mod_lt _ (by omega)
        generalize (alignment - u32 a.m_buf_ptr % alignment) % alignment = align at halign
        rw [u32_of_lt (by omega : size + align < 2 ^ 32)]
        by_cases hfit2 : size + align ≤ a.m_rest
        · rw [if_pos hfit2]
          exact ⟨_, _, rfl, bump_inv hinv hpos hfit2, rfl⟩
        · rw [if_neg hfit2]
          obtain ⟨a1, e1, inv1, r1, inc1⟩ := allocate_block_inv hf hinv hinc (size + align)
          rw [e1]
          simp only
          rw [u32_sub_add (by omega)]
          obtain ⟨a2, ptr, e2, inv2, inc2⟩ := ih a1 spans (align + 1) inv1 (by omega) (by omega)
            (Or.inr (by simpa using r1)) (by omega)
          exact ⟨a2, ptr, e2, inv2, by rw [inc2, inc1]⟩
      · rw [if_neg hal1]
        have := @bump_inv a spans hinv size 0 hpos (by simpa using hfit)
        exact ⟨_, _, rfl, by simpa using this, rfl⟩
    · rw [if_neg hfit]
      rw [u32_of_lt hno]
      obtain ⟨a1, e1, inv1, r1, inc1⟩ := allocate_block_inv hf hinv hinc (size + alignment - 1)
      rw [e1]
      simp only
      obtain ⟨a2, ptr, e2, inv2, inc2⟩ := ih a1 spans alignment inv1 (by omega) (le_refl _)
        (Or.inr (by omega)) (by omega)
      exact ⟨a2, ptr, e2, inv2, by rw [inc2, inc1]⟩

theorem allocate_all_spec {heap : Heap} (hf : Heap.Fresh heap) :
    ∀ (reqs : List (Nat × Nat)) (a : pod_allocator) (spans : List (Nat × Nat)),
      (∀ r ∈ reqs, 0 < r.1 ∧ 1 ≤ r.2 ∧ r.1 + r.2 - 1 < 2 ^ 32) → PoolInv a spans →
      1 ≤ a.m_block_ptr_inc →
      ∃ a1 spans1, allocate_all heap a spans reqs = some (a1, spans1) ∧ PoolInv a1 spans1 ∧
        spans1.map Prod.snd = (reqs.map Prod.fst).reverse ++ spans.map Prod.snd := by
  intro reqs
  induction reqs with
  | nil =>
    intro a spans _ hinv _
    exact ⟨a, spans, rfl, hinv, by simp⟩
  | cons r rs ih =>
    intro a spans hreq hinv hinc
    obtain ⟨h1, h2, h3⟩ := hreq r (List.mem_cons_self _ _)
    obtain ⟨a1, ptr, e1, inv1, inc1⟩ := allocate_fuel_spec hf h1 h2 h3 (r.2 + 2) a spans 0 hinv
      hinc (Nat.zero_le _) (Or.inl rfl) (by omega)
    obtain ⟨a2, spans2, e2, inv2, hs2⟩ := ih a1 ((ptr, r.1) :: spans)
      (fun q hq => hreq q (List.mem_cons_of_mem _ hq)) inv1 (by omega)
    refine ⟨a2, spans2, ?_, inv2, ?_⟩
    · unfold allocate_all allocate
      rw [e1]
      exact e2
    · rw [hs2]; simp

theorem allocate_all_no_table {heap : Heap} (block_size : Nat) (r : Nat × Nat)
    (rs spans : List (Nat × Nat)) (hr : 0 < r.1) :
    allocate_all heap (init block_size 0) spans (r :: rs) = none := by
  have hr0 : ¬ r.1 = 0 := by omega
  have hr1 : ¬ r.1 ≤ 0 := by omega
  simp [allocate_all, allocate, allocate_fuel, init, allocate_block, hr0, hr1]

/-- C9: a sequence of calls `allocate(size, alignment)` with `size > 0`, `alignment >= 1`
and no unsigned overflow (`size + alignment - 1 < 2^32`) on a new pool, with a heap whose
blocks do not overlap: when the pointer-table increment is at least one every call returns;
the returned spans have the requested sizes, each one lies inside exactly one block that
the pool owns, and two spans of different calls are disjoint.  (With an increment of zero
the first call writes outside the pointer table and no span is returned.) -/
theorem allocate_spans (heap : Heap) (hf : Heap.Fresh heap) (block_size inc : Nat)
    (reqs : List (Nat × Nat))
    (hreq : ∀ r ∈ reqs, 0 < r.1 ∧ 1 ≤ r.2 ∧ r.1 + r.2 - 1 < 2 ^ 32) :
    (1 ≤ inc → ∃ a spans, allocate_all heap (init block_size inc) [] reqs = some (a, spans)) ∧
    ∀ a spans, allocate_all heap (init block_size inc) [] reqs = some (a, spans) →
      spans.map Prod.snd = (reqs.map Prod.fst).reverse ∧
      (∀ s ∈ spans, ∃! k, k < a.m_num_blocks ∧
        ∃ b, a.m_blocks[k]? = some (some b) ∧ span_inside s b) ∧
      spans.Pairwise span_disjoint := by
  by_cases hinc : 1 ≤ inc
  · obtain ⟨a1, spans1, e, inv, hs⟩ := allocate_all_spec hf reqs (init block_size inc) [] hreq
      (PoolInv_init _ _) hinc
    refine ⟨fun _ => ⟨a1, spans1, e⟩, ?_⟩
    intro a spans h
    rw [e] at h
    simp only [Option.some.injEq, Prod.mk.injEq] at h
    obtain ⟨ha, hsp⟩ := h
    subst ha hsp
    refine ⟨by simpa using hs, ?_, inv.spans_disjoint⟩
    intro s hs1
    obtain ⟨hpos, k, b, hk, hb, hin⟩ := inv.spans_inside s hs1
    refine ⟨k, ⟨hk, b, hb, hin⟩, ?_⟩
    rintro k2 ⟨hk2, b2, hb2, hin2⟩
    by_contra hne
    unfold span_inside at hin hin2
    rcases Nat.lt_or_gt_of_ne hne with hlt | hlt
    · have := inv.blocks_disjoint k2 k b2 b hlt hk hb2 hb
      unfold span_disjoint at this
      omega
    · have := inv.blocks_disjoint k k2 b b2 hlt hk2 hb hb2
      unfold span_disjoint at this
      omega
  · have h0 : inc = 0 := by omega
    subst h0
    refine ⟨fun h => absurd h hinc, ?_⟩
    intro a spans h
    cases reqs with
    | nil =>
      simp only [allocate_all, Option.some.injEq, Prod.mk.injEq] at h
      obtain ⟨-, hsp⟩ := h
      subst hsp
      exact ⟨rfl, fun s hs => absurd hs (by simp), List.Pairwise.nil⟩
    | cons r rs =>
      rw [allocate_all_no_table block_size r rs [] (hreq r (List.mem_cons_self _ _)).1] at h
      exact absurd h (by simp)

theorem allocate_spans_witness :
    Heap.Fresh (heap_from 16) ∧
    (∀ r ∈ [(5, 1), (3, 4), (30, 8)], 0 < r.1 ∧ 1 ≤ r.2 ∧ r.1 + r.2 - 1 < 2 ^ 32) ∧
    ((1 ≤ 2 → ∃ a spans, allocate_all (heap_from 16) (init 32 2) [] [(5, 1), (3, 4), (30, 8)]
        = some (a, spans)) ∧
    ∀ a spans, allocate_all (heap_from 16) (init 32 2) [] [(5, 1), (3, 4), (30, 8)]
        = some (a, spans) →
      spans.map Prod.snd = (([(5, 1), (3, 4), (30, 8)] : List (Nat × Nat)).map Prod.fst).reverse ∧
      (∀ s ∈ spans, ∃! k, k < a.m_num_blocks ∧
        ∃ b, a.m_blocks[k]? = some (some b) ∧ span_inside s b) ∧
      spans.Pairwise span_disjoint) :=
  ⟨heap_from_fresh 16 (by decide), by decide,
    allocate_spans (heap_from 16) (heap_from_fresh 16 (by decide)) 32 2
      [(5, 1), (3, 4), (30, 8)] (by decide)⟩

end pod_allocator
end agg

namespace agg
namespace pod_allocator

/-! ## `pod_allocator`: alignment of the returned address -/

theorem allocate_block_buf_ptr {heap : Heap} {a a1 : pod_allocator} {size : Nat}
    (h : allocate_block heap a size = some a1) : ∃ live sz, a1.m_buf_ptr = heap live sz := by
  unfold allocate_block at h
  simp only at h
  by_cases hc : a.m_num_blocks ≥ a.m_max_blocks
  · simp only [if_pos hc] at h
    split at h
    · simp only [Option.some.injEq] at h
      rw [← h]
      exact ⟨_, _, rfl⟩
    · exact absurd h (by simp)
  · simp only [if_neg hc] at h
    split at h
    · simp only [Option.some.injEq] at h
      rw [← h]
      exact ⟨_, _, rfl⟩
    · exact absurd h (by simp)

end pod_allocator
end agg

namespace agg
namespace pod_allocator

/-! ## `pod_allocator`: a request larger than the block size -/

end pod_allocator
end agg

namespace agg
namespace pod_array
variable {T : Type}

/-! ## `pod_array`: `capacity`, `allocate`, `resize` -/

theorem capacity_fields [Inhabited T] (a : pod_array T) (n extra_tail : Nat)
    (h : n + extra_tail < 2 ^ 32) :
    (capacity a n extra_tail).m_size = 0 ∧
    (a.m_capacity < n → (capacity a n extra_tail).m_capacity = n + extra_tail) ∧
    (n ≤ a.m_capacity → (capacity a n extra_tail).m_capacity = a.m_capacity) := by
  unfold capacity
  by_cases hc : n > a.m_capacity
  · rw [if_pos hc]
    refine ⟨rfl, fun _ => ?_, fun h2 => by omega⟩
    simp only
    unfold u32
    exact Nat.mod_eq_of_lt h
  · rw [if_neg hc]
    exact ⟨rfl, fun h2 => by omega, fun _ => rfl⟩

/-- C12: for `n + extraTail < 2^32` and every `pod_array` state, after
`allocate(n, extraTail)` the size is `n` and the capacity is at least `n`. -/
theorem allocate_size_capacity [Inhabited T] (a : pod_array T) (n extraTail : Nat)
    (h : n + extraTail < 2 ^ 32) :
    (allocate a n extraTail).m_size = n ∧ n ≤ (allocate a n extraTail).m_capacity := by
  obtain ⟨-, h2, h3⟩ := capacity_fields a n extraTail h
  refine ⟨rfl, ?_⟩
  show n ≤ (capacity a n extraTail).m_capacity
  by_cases hc : a.m_capacity < n
  · rw [h2 hc]; omega
  · rw [h3 (by omega)]; omega

theorem allocate_size_capacity_witness :
    4 + 2 < 2 ^ 32 ∧
    (allocate example_array 4 2).m_size = 4 ∧ 4 ≤ (allocate example_array 4 2).m_capacity :=
  ⟨by decide, allocate_size_capacity example_array 4 2 (by decide)⟩

/-- C13, amended: for `n + extraTail < 2^32` and every `pod_array` state, after
`capacity(n, extraTail)` the size is 0 and the capacity is at least `n`: it is
`n + extraTail` when `n` exceeds the previous capacity, and the previous capacity
otherwise. -/
theorem capacity_spec [Inhabited T] (a : pod_array T) (n extraTail : Nat)
    (h : n + extraTail < 2 ^ 32) :
    (capacity a n extraTail).m_size = 0 ∧ n ≤ (capacity a n extraTail).m_capacity ∧
    (a.m_capacity < n → (capacity a n extraTail).m_capacity = n + extraTail) ∧
    (n ≤ a.m_capacity → (capacity a n extraTail).m_capacity = a.m_capacity) := by
  obtain ⟨h1, h2, h3⟩ := capacity_fields a n extraTail h
  refine ⟨h1, ?_, h2, h3⟩
  by_cases hc : a.m_capacity < n
  · rw [h2 hc]; omega
  · rw [h3 (by omega)]; omega

theorem capacity_spec_witness :
    4 + 2 < 2 ^ 32 ∧
    (capacity example_array 4 2).m_size = 0 ∧ 4 ≤ (capacity example_array 4 2).m_capacity ∧
    (example_array.m_capacity < 4 → (capacity example_array 4 2).m_capacity = 4 + 2) ∧
    (4 ≤ example_array.m_capacity →
      (capacity example_array 4 2).m_capacity = example_array.m_capacity) :=
  ⟨by decide, capacity_spec example_array 4 2 (by decide)⟩

/-- C13 fails as stated: the array `example_array` has the capacity 3, and after
`capacity(3, 2)` the capacity is still 3, below `3 + 2`, because the reallocation is
guarded by `cap > m_capacity` alone. -/
theorem capacity_ignores_extra_tail :
    3 + 2 < 2 ^ 32 ∧ example_array.m_capacity = 3 ∧
    (capacity example_array 3 2).m_capacity = 3 ∧
    ¬ (3 + 2 ≤ (capacity example_array 3 2).m_capacity) :=
  ⟨by decide, by decide, by decide, by decide⟩

/-- C14: for `newSize <= size()`, `resize(newSize)` sets the size to `newSize` and leaves
the capacity and the backing storage as they are (no reallocation), so that every
element, in particular each one below `newSize`, keeps its value. -/
theorem resize_smaller [Inhabited T] (a : pod_array T) (newSize : Nat)
    (h : newSize ≤ a.m_size) :
    ∃ a1, resize a newSize = some a1 ∧ a1.m_size = newSize ∧ a1.m_capacity = a.m_capacity ∧
      a1.m_array = a.m_array ∧ ∀ i, i < newSize → a1.m_array[i]? = a.m_array[i]? := by
  unfold resize
  rw [if_neg (by omega)]
  exact ⟨_, rfl, rfl, rfl, rfl, fun _ _ => rfl⟩

theorem resize_smaller_witness :
    1 ≤ example_array.m_size ∧
    ∃ a1, resize example_array 1 = some a1 ∧ a1.m_size = 1 ∧
      a1.m_capacity = example_array.m_capacity ∧ a1.m_array = example_array.m_array ∧
      ∀ i, i < 1 → a1.m_array[i]? = example_array.m_array[i]? :=
  ⟨by decide, resize_smaller example_array 1 (by decide)⟩

/-- C15 fails on the code: `example_full` has size 2 and capacity 2; `resize(5)` allocates
five elements and copies the two old ones, but leaves `m_capacity` (and `m_size`) as they
were, so that `capacity()` is 2 and not 5. -/
theorem resize_keeps_capacity :
    example_full.m_size < 5 ∧ example_full.m_capacity < 5 ∧
    (resize example_full 5).map (fun a1 => (a1.m_size, a1.m_capacity, a1.m_array))
      = some (2, 2, [1, 2, 0, 0, 0]) :=
  ⟨by decide, by decide, by decide⟩

end pod_array
end agg

namespace agg

/-! ## `deserialize` of `pod_array` and `pod_deque` -/

theorem pod_array.allocate_array_length {T : Type} [Inhabited T] (a : pod_array T)
    (ha : pod_array.Allocated a) (n : Nat) (hn : n < 2 ^ 32) :
    n ≤ (pod_array.allocate a n 0).m_array.length := by
  unfold pod_array.allocate pod_array.capacity
  by_cases hc : n > a.m_capacity
  · have hu : u32 (n + 0) = n := by
      unfold u32; simp only [Nat.add_zero]; exact Nat.mod_eq_of_lt hn
    simp only [if_pos hc, hu]
    by_cases h0 : n = 0
    · omega
    · simp [h0]
  · simp only [if_neg hc]
    unfold pod_array.Allocated at ha
    omega

end agg

namespace agg
namespace pod_deque
variable {T : Type}

/-! ## `pod_deque`: index mapping, `next`, `prev`, `free_tail`, `free_all` -/

theorem set_at_spec {S : Nat} {d : pod_deque T} (hd : Inv S d) {i : Nat}
    (hi : i < d.m_num_blocks * block_size S) (v : T) :
    ∃ d1, set_at S d i v = some d1 ∧ d1.m_size = d.m_size ∧
      d1.m_num_blocks = d.m_num_blocks ∧ value_at S d1 i = some v ∧
      ∀ j, j ≠ i → value_at S d1 j = value_at S d j := by
  have hB := block_size_pos S
  obtain ⟨blk, eb, hl⟩ := hd.blocks _ (div_lt_of_lt_mul hi)
  have hoff : i % block_size S < blk.length := by
    rw [hl]; exact Nat.mod_lt _ hB
  have hnbl : i / block_size S < d.m_blocks.length := by
    have := div_lt_of_lt_mul hi
    have := hd.num_le_max
    have := hd.table_len
    omega
  unfold set_at
  rw [shift_eq_div, and_block_mask]
  simp only [store, eb, if_pos hoff]
  refine ⟨_, rfl, rfl, rfl, ?_, ?_⟩
  · rw [value_at_eq]
    simp only
    rw [List.getElem?_set_self hnbl]
    simp only [block_elem]
    rw [List.getElem?_set_self hoff]
  · intro j hne
    rw [value_at_eq, value_at_eq]
    simp only
    by_cases hkn : i / block_size S = j / block_size S
    · rw [← hkn, List.getElem?_set_self hnbl, eb]
      simp only [block_elem]
      have hoffne : i % block_size S ≠ j % block_size S := by
        intro hmod
        apply hne
        rw [← Nat.div_add_mod j (block_size S), ← Nat.div_add_mod i (block_size S),
          hkn, hmod]
      rw [List.getElem?_set_ne hoffne]
    · rw [List.getElem?_set_ne hkn]

/-- C17: an index `k` resolves to the block `k >> S` and the offset `k & block_mask`, which
are `k div 2^S` and `k mod 2^S`; the offset is below `2^S`, `block * 2^S + offset = k`,
and two indices with the same block and offset are equal.  In a sequence that satisfies
the representation invariant, the assignment `(*this)[i] = v` for `i < size` makes the
element `i` equal to `v` and leaves every element `j ≠ i` as it is. -/
theorem index_mapping (S : Nat) (d : pod_deque T) (hd : Inv S d) (i : Nat)
    (hi : i < d.m_size) (v : T) :
    (∀ k, k >>> S = k / 2 ^ S ∧ k &&& block_mask S = k % 2 ^ S ∧ k &&& block_mask S < 2 ^ S ∧
      (k >>> S) * 2 ^ S + (k &&& block_mask S) = k ∧
      value_at S d k = block_elem d.m_blocks[k >>> S]? (k &&& block_mask S) ∧
      ∀ j, j >>> S = k >>> S → j &&& block_mask S = k &&& block_mask S → j = k) ∧
    block_mask S = 2 ^ S - 1 ∧
    ∃ d1, set_at S d i v = some d1 ∧ d1.m_size = d.m_size ∧ value_at S d1 i = some v ∧
      ∀ j, j ≠ i → value_at S d1 j = value_at S d j := by
  have hpos : 0 < 2 ^ S := Nat.two_pow_pos S
  refine ⟨?_, by unfold block_mask; rw [block_size_eq], ?_⟩
  · intro k
    have h1 : k >>> S = k / 2 ^ S := Nat.shiftRight_eq_div_pow k S
    have h2 : ∀ m, m &&& block_mask S = m % 2 ^ S := by
      intro m; rw [and_block_mask, block_size_eq]
    refine ⟨h1, h2 k, ?_, ?_, rfl, ?_⟩
    · rw [h2]; exact Nat.mod_lt _ hpos
    · rw [h1, h2, Nat.mul_comm]; exact Nat.div_add_mod k (2 ^ S)
    · intro j e1 e2
      rw [Nat.shiftRight_eq_div_pow, h1] at e1
      rw [h2, h2] at e2
      rw [← Nat.div_add_mod j (2 ^ S), ← Nat.div_add_mod k (2 ^ S), e1, e2]
  · obtain ⟨d1, e, s1, -, v1, k1⟩ := set_at_spec hd (lt_of_lt_of_le hi hd.size_le) v
    exact ⟨d1, e, s1, v1, k1⟩

theorem Inv_example_deque : Inv 1 example_deque :=
  ⟨by decide, by decide, by decide,
    fun k hk => by
      have hk2 : k < 2 := hk
      rcases Nat.lt_or_ge k 1 with h | h
      · have : k = 0 := by omega
        subst this; exact ⟨[1, 2], rfl, rfl⟩
      · have : k = 1 := by omega
        subst this; exact ⟨[3, 0], rfl, rfl⟩,
    by decide⟩

theorem index_mapping_witness :
    Inv 1 example_deque ∧ 2 < example_deque.m_size ∧
    ((∀ k, k >>> 1 = k / 2 ^ 1 ∧ k &&& block_mask 1 = k % 2 ^ 1 ∧ k &&& block_mask 1 < 2 ^ 1 ∧
      (k >>> 1) * 2 ^ 1 + (k &&& block_mask 1) = k ∧
      value_at 1 example_deque k
        = block_elem example_deque.m_blocks[k >>> 1]? (k &&& block_mask 1) ∧
      ∀ j, j >>> 1 = k >>> 1 → j &&& block_mask 1 = k &&& block_mask 1 → j = k) ∧
    block_mask 1 = 2 ^ 1 - 1 ∧
    ∃ d1, set_at 1 example_deque 2 9 = some d1 ∧ d1.m_size = example_deque.m_size ∧
      value_at 1 d1 2 = some 9 ∧
      ∀ j, j ≠ 2 → value_at 1 d1 j = value_at 1 example_deque j) :=
  ⟨Inv_example_deque, by decide, index_mapping 1 example_deque Inv_example_deque 2 (by decide) 9⟩

theorem next_index_eq {n idx : Nat} (h : idx < n) :
    (idx + 1) % n = if idx + 1 = n then 0 else idx + 1 := by
  by_cases hc : idx + 1 = n
  · rw [if_pos hc, hc, Nat.mod_self]
  · rw [if_neg hc, Nat.mod_eq_of_lt (by omega)]

theorem prev_index_eq {n idx : Nat} (h : idx < n) :
    (idx + n - 1) % n = if idx = 0 then n - 1 else idx - 1 := by
  by_cases hc : idx = 0
  · rw [if_pos hc, hc, Nat.zero_add, Nat.mod_eq_of_lt (by omega)]
  · rw [if_neg hc]
    have : idx + n - 1 = idx - 1 + n := by omega
    rw [this, Nat.add_mod_right, Nat.mod_eq_of_lt (by omega)]

theorem value_at_example_huge (i : Nat) (hi : i < 2 ^ 32) :
    value_at 30 example_huge i = some (i % 2 ^ 30) := by
  have hq : i / 2 ^ 30 < 4 := (Nat.div_lt_iff_lt_mul (by decide)).2 (by omega)
  have hr : i % 2 ^ 30 < 2 ^ 30 := Nat.mod_lt _ (by decide)
  have hb : example_huge.m_blocks[i / 2 ^ 30]? = some (some (List.range (2 ^ 30))) := by
    generalize i / 2 ^ 30 = q at hq
    interval_cases q <;> rfl
  rw [value_at_eq, block_size_eq, hb]
  show (List.range (2 ^ 30))[i % 2 ^ 30]? = some (i % 2 ^ 30)
  exact List.getElem?_range hr

/-- C18, amended: in a sequence of size `n` with `1 <= n <= 2^31` and for `idx < n`,
`next(idx)` is the element at the index `(idx + 1) mod n` and `prev(idx)` the element at
`(idx + n - 1) mod n`; `next(n - 1)` is the element 0 and `prev(0)` the element `n - 1`;
the index that `prev` reads after `next`, and `next` after `prev`, is `idx` again.  With
size 5, `next(4)` is the element 0 and `prev(0)` the element 4. -/
theorem next_prev_wrap (S : Nat) (d : pod_deque T) (idx : Nat) (hidx : idx < d.m_size)
    (hsmall : d.m_size ≤ 2 ^ 31) :
    next S d idx = value_at S d ((idx + 1) % d.m_size) ∧
    prev S d idx = value_at S d ((idx + d.m_size - 1) % d.m_size) ∧
    next S d (d.m_size - 1) = value_at S d 0 ∧
    prev S d 0 = value_at S d (d.m_size - 1) ∧
    next_index d idx < d.m_size ∧ prev_index d idx < d.m_size ∧
    prev_index d (next_index d idx) = idx ∧ next_index d (prev_index d idx) = idx ∧
    (add_array 2 (init 2 : pod_deque Nat) [10, 11, 12, 13, 14]).map
      (fun d5 => (d5.m_size, next 2 d5 4, value_at 2 d5 0, prev 2 d5 0, value_at 2 d5 4))
      = some (5, some 10, some 10, some 14, some 14) := by
  have h0 : d.m_size ≠ 0 := by omega
  have hN : ∀ j, j < d.m_size → next_index d j = (j + 1) % d.m_size := by
    intro j hj
    unfold next_index u32
    rw [Nat.mod_eq_of_lt (by omega : j + 1 < 2 ^ 32)]
  have hP : ∀ j, j < d.m_size → prev_index d j = (j + d.m_size - 1) % d.m_size := by
    intro j hj
    unfold prev_index u32
    rw [Nat.mod_eq_of_lt (by omega : j + d.m_size - 1 < 2 ^ 32)]
  have hn : (idx + 1) % d.m_size = if idx + 1 = d.m_size then 0 else idx + 1 :=
    next_index_eq hidx
  have hp : (idx + d.m_size - 1) % d.m_size = if idx = 0 then d.m_size - 1 else idx - 1 :=
    prev_index_eq hidx
  refine ⟨by simp only [next, if_neg h0, hN idx hidx],
    by simp only [prev, if_neg h0, hP idx hidx], ?_, ?_, ?_, ?_, ?_, ?_, by decide⟩
  · simp only [next, if_neg h0, hN (d.m_size - 1) (by omega)]
    rw [next_index_eq (by omega), if_pos (by omega)]
  · simp only [prev, if_neg h0, hP 0 (by omega)]
    rw [prev_index_eq (by omega), if_pos rfl]
  · rw [hN idx hidx]; exact Nat.mod_lt _ (by omega)
  · rw [hP idx hidx]; exact Nat.mod_lt _ (by omega)
  · rw [hN idx hidx, hn]
    by_cases hc : idx + 1 = d.m_size
    · rw [if_pos hc, hP 0 (by omega), prev_index_eq (by omega), if_pos rfl]; omega
    · rw [if_neg hc, hP (idx + 1) (by omega), prev_index_eq (by omega), if_neg (by omega)]
      omega
  · rw [hP idx hidx, hp]
    by_cases hc : idx = 0
    · rw [if_pos hc, hN (d.m_size - 1) (by omega), next_index_eq (by omega), if_pos (by omega)]
      omega
    · rw [if_neg hc, hN (idx - 1) (by omega), next_index_eq (by omega), if_neg (by omega)]
      omega

theorem next_prev_wrap_witness :
    2 < example_deque.m_size ∧ example_deque.m_size ≤ 2 ^ 31 ∧
    (next 1 example_deque 2 = value_at 1 example_deque ((2 + 1) % example_deque.m_size) ∧
    prev 1 example_deque 2
      = value_at 1 example_deque ((2 + example_deque.m_size - 1) % example_deque.m_size) ∧
    next 1 example_deque (example_deque.m_size - 1) = value_at 1 example_deque 0 ∧
    prev 1 example_deque 0 = value_at 1 example_deque (example_deque.m_size - 1) ∧
    next_index example_deque 2 < example_deque.m_size ∧
    prev_index example_deque 2 < example_deque.m_size ∧
    prev_index example_deque (next_index example_deque 2) = 2 ∧
    next_index example_deque (prev_index example_deque 2) = 2 ∧
    (add_array 2 (init 2 : pod_deque Nat) [10, 11, 12, 13, 14]).map
      (fun d5 => (d5.m_size, next 2 d5 4, value_at 2 d5 0, prev 2 d5 0, value_at 2 d5 4))
      = some (5, some 10, some 10, some 14, some 14)) :=
  ⟨by decide, by decide, next_prev_wrap 1 example_deque 2 (by decide) (by decide)⟩

/-- C18 fails as stated.  In the sequence of `n = 2^32 - 1` elements in four blocks of
`2^30`, which satisfies the representation invariant and whose element `i` is
`i mod 2^30`, the sum `idx + n - 1` for `idx = 2^31` is `2^31 - 2` as an `unsigned`, so
that `prev(2^31)` reads the element `2^31 - 2`, while `(idx + n - 1) mod n` is
`2^31 - 1`; the two elements differ. -/
theorem prev_wraps :
    Inv 30 example_huge ∧ 2 ^ 31 < example_huge.m_size ∧
    prev_index example_huge (2 ^ 31) = 2 ^ 31 - 2 ∧
    (2 ^ 31 + example_huge.m_size - 1) % example_huge.m_size = 2 ^ 31 - 1 ∧
    prev 30 example_huge (2 ^ 31) = some (2 ^ 30 - 2) ∧
    value_at 30 example_huge ((2 ^ 31 + example_huge.m_size - 1) % example_huge.m_size)
      = some (2 ^ 30 - 1) := by
  have h1 : prev_index example_huge (2 ^ 31) = 2 ^ 31 - 2 := by decide
  have h2 : (2 ^ 31 + example_huge.m_size - 1) % example_huge.m_size = 2 ^ 31 - 1 := by decide
  refine ⟨Inv_example_huge, by decide, h1, h2, ?_, ?_⟩
  · unfold prev
    rw [if_neg (by decide), h1, value_at_example_huge _ (by decide)]
    rfl
  · rw [h2, value_at_example_huge _ (by decide)]
    rfl

theorem free_blocks_spec (nb : Nat) :
    ∀ fuel (d : pod_deque T),
      (∀ k, k < d.m_num_blocks → ∃ blk, d.m_blocks[k]? = some (some blk)) →
      d.m_num_blocks ≤ fuel + nb →
      ∃ d1, free_blocks nb fuel d = some d1 ∧ d1.m_num_blocks = min d.m_num_blocks nb ∧
        d1.m_size = d.m_size ∧ d1.m_max_blocks = d.m_max_blocks ∧
        d1.m_block_ptr_inc = d.m_block_ptr_inc ∧ d1.m_blocks.length = d.m_blocks.length ∧
        (∀ k, k < min d.m_num_blocks nb → d1.m_blocks[k]? = d.m_blocks[k]?) ∧
        (∀ k, min d.m_num_blocks nb ≤ k → k < d.m_num_blocks → d1.m_blocks[k]? = some none) ∧
        (∀ k, d.m_num_blocks ≤ k → d1.m_blocks[k]? = d.m_blocks[k]?) := by
  intro fuel
  induction fuel with
  | zero =>
    intro d _ hf
    unfold free_blocks
    rw [if_neg (by omega)]
    exact ⟨d, rfl, by omega, rfl, rfl, rfl, rfl, fun _ _ => rfl, fun k h1 h2 => by omega,
      fun _ _ => rfl⟩
  | succ fuel ih =>
    intro d hblk hf
    unfold free_blocks
    by_cases hc : d.m_num_blocks > nb
    · rw [if_pos hc]
      obtain ⟨blk, e⟩ := hblk (d.m_num_blocks - 1) (by omega)
      rw [e]
      simp only
      have hlen : d.m_num_blocks - 1 < d.m_blocks.length := by
        by_contra hcon
        rw [List.getElem?_eq_none (by omega)] at e
        exact absurd e (by simp)
      obtain ⟨d1, e1, n1, s1, m1, i1, l1, k1, r1, o1⟩ := ih
        { d with
          m_num_blocks := d.m_num_blocks - 1
          m_blocks := d.m_blocks.set (d.m_num_blocks - 1) none }
        (by
          intro k hk
          simp only at hk ⊢
          rw [List.getElem?_set_ne (by omega)]
          exact hblk k (by omega))
        (by simp only; omega)
      simp only at n1 s1 m1 i1 l1 k1 r1 o1
      refine ⟨d1, e1, by omega, s1, m1, i1, by rw [l1]; simp, ?_, ?_, ?_⟩
      · intro k hk
        rw [k1 k (by omega), List.getElem?_set_ne (by omega)]
      · intro k hk1 hk2
        by_cases hk : k = d.m_num_blocks - 1
        · rw [o1 k (by omega), hk, List.getElem?_set_self hlen]
        · exact r1 k (by omega) (by omega)
      · intro k hk
        rw [o1 k (by omega), List.getElem?_set_ne (by omega)]
    · rw [if_neg hc]
      exact ⟨d, rfl, by omega, rfl, rfl, rfl, rfl, fun _ _ => rfl, fun k h1 h2 => by omega,
        fun _ _ => rfl⟩

theorem ceil_div_facts {n B : Nat} (hB : 0 < B) :
    n ≤ (n + B - 1) / B * B ∧ ∀ i, i < n → i / B < (n + B - 1) / B := by
  have h1 := Nat.div_add_mod (n + B - 1) B
  have h2 := Nat.mod_lt (n + B - 1) hB
  rw [Nat.mul_comm] at h1
  refine ⟨by omega, ?_⟩
  intro i hi
  have h3 := Nat.div_add_mod i B
  rw [Nat.mul_comm] at h3
  have h4 : (i / B + 1) * B ≤ n + B - 1 := by
    rw [Nat.succ_mul]; omega
  exact (Nat.le_div_iff_mul_le hB).2 h4

theorem free_tail_count {S n : Nat} (h : n + block_mask S < 2 ^ 32) :
    u32 (n + block_mask S) >>> S = (n + block_size S - 1) / block_size S := by
  have hB := block_size_pos S
  unfold u32
  rw [Nat.mod_eq_of_lt h, shift_eq_div]
  unfold block_mask
  congr 1
  omega

/-- C19, amended: in a sequence that satisfies the representation invariant,
`free_tail(n)` with `n < size` and `n + block_size - 1 < 2^32` sets the size to `n` and the
number of allocated blocks to the minimum of the old number and `ceil(n / block_size)`,
releases the blocks from that number on (their table entries do not point to blocks any
more) and no other block, keeps the elements below `n`, and keeps the invariant;
`free_tail(n)` with `n >= size` changes nothing. -/
theorem free_tail_spec (S : Nat) (d : pod_deque T) (hd : Inv S d) (n : Nat) :
    (n < d.m_size → n + block_mask S < 2 ^ 32 →
      ∃ d1, free_tail S d n = some d1 ∧ d1.m_size = n ∧
        d1.m_num_blocks = min d.m_num_blocks ((n + block_size S - 1) / block_size S) ∧
        (∀ k, d1.m_num_blocks ≤ k → k < d.m_num_blocks → d1.m_blocks[k]? = some none) ∧
        (∀ k, k < d1.m_num_blocks → d1.m_blocks[k]? = d.m_blocks[k]?) ∧
        (∀ i, i < n → ∃ x, value_at S d i = some x ∧ value_at S d1 i = some x) ∧
        Inv S d1) ∧
    (d.m_size ≤ n → free_tail S d n = some d) ∧ block_size S = 2 ^ S ∧
    block_mask S = block_size S - 1 := by
  have hB := block_size_pos S
  refine ⟨?_, ?_, block_size_eq S, rfl⟩
  · intro hn hn32
    have hnb := free_tail_count hn32
    obtain ⟨hc1, hc2⟩ := ceil_div_facts (n := n) hB
    obtain ⟨d1, e1, n1, s1, m1, i1, l1, k1, r1, -⟩ := free_blocks_spec
      ((n + block_size S - 1) / block_size S) d.m_num_blocks d
      (fun k hk => by obtain ⟨blk, e, -⟩ := hd.blocks k hk; exact ⟨blk, e⟩)
      (Nat.le_add_right _ _)
    have hsz := hd.size_le
    have hkeep : ∀ i, i < n → d1.m_blocks[i / block_size S]? = d.m_blocks[i / block_size S]? := by
      intro i hi
      apply k1
      have := hc2 i hi
      have := div_lt_of_lt_mul (lt_of_lt_of_le (by omega : i < d.m_size) hsz)
      omega
    unfold free_tail
    rw [if_pos hn, hnb, e1]
    simp only
    refine ⟨_, rfl, rfl, n1, ?_, ?_, ?_, ?_⟩
    · intro k hk1 hk2
      simp only at hk1 ⊢
      rw [n1] at hk1
      exact r1 k hk1 hk2
    · intro k hk
      simp only at hk ⊢
      rw [n1] at hk
      exact k1 k hk
    · intro i hi
      obtain ⟨x, hx⟩ := value_at_isSome hd (lt_of_lt_of_le (by omega : i < d.m_size) hsz)
      refine ⟨x, hx, ?_⟩
      rw [← hx]
      exact value_at_congr (hkeep i hi)
    · refine ⟨by simp only; rw [i1]; exact hd.inc_pos, ?_, ?_, ?_, ?_⟩
      · simp only
        rw [n1, m1]
        have := hd.num_le_max
        omega
      · simp only
        rw [l1, m1]; exact hd.table_len
      · intro k hk
        simp only at hk ⊢
        rw [n1] at hk
        rw [k1 k hk]
        exact hd.blocks k (by omega)
      · simp only
        rw [n1]
        rcases Nat.le_total d.m_num_blocks ((n + block_size S - 1) / block_size S) with h | h
        · rw [Nat.min_eq_left h]; omega
        · rw [Nat.min_eq_right h]; exact hc1
  · intro hn
    unfold free_tail
    rw [if_neg (by omega)]

theorem free_tail_spec_witness :
    Inv 1 example_deque ∧ 1 < example_deque.m_size ∧ 1 + block_mask 1 < 2 ^ 32 ∧
    (free_tail 1 example_deque 1).map (fun d => (d.m_size, d.m_num_blocks, d.m_blocks))
      = some (1, 1, [some [1, 2], none]) ∧
    ((1 < example_deque.m_size → 1 + block_mask 1 < 2 ^ 32 →
      ∃ d1, free_tail 1 example_deque 1 = some d1 ∧ d1.m_size = 1 ∧
        d1.m_num_blocks = min example_deque.m_num_blocks
          ((1 + block_size 1 - 1) / block_size 1) ∧
        (∀ k, d1.m_num_blocks ≤ k → k < example_deque.m_num_blocks →
          d1.m_blocks[k]? = some none) ∧
        (∀ k, k < d1.m_num_blocks → d1.m_blocks[k]? = example_deque.m_blocks[k]?) ∧
        (∀ i, i < 1 → ∃ x, value_at 1 example_deque i = some x ∧ value_at 1 d1 i = some x) ∧
        Inv 1 d1) ∧
    (example_deque.m_size ≤ 1 → free_tail 1 example_deque 1 = some example_deque) ∧
    block_size 1 = 2 ^ 1 ∧ block_mask 1 = block_size 1 - 1) :=
  ⟨Inv_example_deque, by decide, by decide, by decide,
    free_tail_spec 1 example_deque Inv_example_deque 1⟩

/-- C19 fails as stated.  In the sequence of `2^32 - 1` elements in four blocks of `2^30`,
which satisfies the representation invariant, `free_tail(n)` with `n = 3 * 2^30 + 1` needs
all four blocks (`ceil(n / 2^30) = 4`), but the sum `n + block_mask` is `2^32`, which is
`0` as an `unsigned`: the call releases the four blocks and sets the size to `n`, so that
the element 0 is no longer there. -/
theorem free_tail_wraps :
    Inv 30 example_huge ∧ 3 * 2 ^ 30 + 1 < example_huge.m_size ∧
    min example_huge.m_num_blocks ((3 * 2 ^ 30 + 1 + block_size 30 - 1) / block_size 30) = 4 ∧
    u32 (3 * 2 ^ 30 + 1 + block_mask 30) = 0 ∧
    (free_tail 30 example_huge (3 * 2 ^ 30 + 1)).map
      (fun d => (d.m_size, d.m_num_blocks, d.m_blocks))
      = some (3 * 2 ^ 30 + 1, 0, [none, none, none, none]) ∧
    value_at 30 example_huge 0 = some 0 ∧
    (free_tail 30 example_huge (3 * 2 ^ 30 + 1)).bind (fun d => value_at 30 d 0) = none :=
  ⟨Inv_example_huge, by decide, by decide, by decide, by decide,
    value_at_example_huge 0 (by decide), by decide⟩

/-- C20 fails on the code: after `add(7)` and `remove_all()` the sequence has the size 0
and owns one block; `free_all()` is `free_tail(0)`, whose test `size < m_size` is false
for `m_size = 0`, so that the block is still allocated afterwards.  From a sequence of size
1 the same call releases the block. -/
theorem free_all_keeps_blocks :
    ((add 2 (init 2 : pod_deque Nat) 7).bind (fun d => free_all 2 (remove_all d))).map
      (fun d => (d.m_size, d.m_num_blocks)) = some (0, 1) ∧
    ((add 2 (init 2 : pod_deque Nat) 7).bind (fun d => free_all 2 d)).map
      (fun d => (d.m_size, d.m_num_blocks)) = some (0, 0) :=
  ⟨by decide, by decide⟩

end pod_deque
end agg

namespace agg
namespace pod_array
variable {T : Type}

/-! ## `pod_array`: the invariant `m_size ≤ m_capacity`, and `resize` beyond the size -/

theorem allocate_size_le [Inhabited T] (a : pod_array T) (n extra_tail : Nat)
    (h : n + extra_tail < 2 ^ 32) :
    (allocate a n extra_tail).m_size ≤ (allocate a n extra_tail).m_capacity := by
  obtain ⟨_, h2, h3⟩ := capacity_fields a n extra_tail h
  show n ≤ (capacity a n extra_tail).m_capacity
  by_cases hc : a.m_capacity < n
  · rw [h2 hc]; omega
  · rw [h3 (by omega)]; omega

/-- C26: the element count of a `pod_array` never exceeds its capacity.  It holds for a
default-constructed and for a capacity-constructed array, and an array with
`m_size ≤ m_capacity`, whose allocation holds `m_capacity` elements, keeps it under
`capacity`, `allocate` (when `n + extra_tail` does not overflow), `resize`, `remove_all`,
`cut_at`, `deserialize` (of `L` readable bytes), the assignment of such an array, `add` when
`m_size < m_capacity`, and `inc_size(k)` when `m_size + k ≤ m_capacity`; the operations
that access the allocation return. -/
theorem size_le_capacity [Pod T] [Inhabited T] (a v : pod_array T) (val : T)
    (h : a.m_size ≤ a.m_capacity) (ha : Allocated a)
    (hv : v.m_size ≤ v.m_capacity) (hva : Allocated v) (hv32 : v.m_size < 2 ^ 32) :
    (init : pod_array T).m_size ≤ (init : pod_array T).m_capacity ∧
    (∀ cap extra_tail,
      (init_cap cap extra_tail : pod_array T).m_size ≤
        (init_cap cap extra_tail : pod_array T).m_capacity) ∧
    (∀ cap extra_tail, (capacity a cap extra_tail).m_size ≤ (capacity a cap extra_tail).m_capacity) ∧
    (∀ n extra_tail, n + extra_tail < 2 ^ 32 →
      (allocate a n extra_tail).m_size ≤ (allocate a n extra_tail).m_capacity) ∧
    (∀ n, ∃ a1, resize a n = some a1 ∧ a1.m_size ≤ a1.m_capacity) ∧
    (remove_all a).m_size ≤ (remove_all a).m_capacity ∧
    (∀ num, (cut_at a num).m_size ≤ (cut_at a num).m_capacity) ∧
    (∀ (data : List int8u) (L : Nat), L < 2 ^ 32 → L ≤ data.length →
      ∃ a1, deserialize a data L = some a1 ∧ a1.m_size ≤ a1.m_capacity) ∧
    (∃ a1, assign a v = some a1 ∧ a1.m_size ≤ a1.m_capacity) ∧
    (a.m_size < a.m_capacity → ∃ a1, add a val = some a1 ∧ a1.m_size ≤ a1.m_capacity) ∧
    (∀ k, a.m_size + k ≤ a.m_capacity → (inc_size a k).m_size ≤ (inc_size a k).m_capacity) := by
  unfold Allocated at ha hva
  refine ⟨Nat.le_refl _, fun _ _ => Nat.zero_le _, ?_, fun n e hn => allocate_size_le a n e hn,
    ?_, Nat.zero_le _, ?_, ?_, ?_, ?_, ?_⟩
  · intro cap extra_tail
    unfold capacity
    split
    · exact Nat.zero_le _
    · exact Nat.zero_le _
  · intro n
    unfold resize
    by_cases h1 : n > a.m_size
    · rw [if_pos h1]
      by_cases h2 : n > a.m_capacity
      · rw [if_pos h2, if_pos (by omega)]
        exact ⟨_, rfl, h⟩
      · rw [if_neg h2]
        exact ⟨_, rfl, h⟩
    · rw [if_neg h1]
      refine ⟨_, rfl, ?_⟩
      show n ≤ a.m_capacity
      omega
  · intro num
    unfold cut_at
    split
    · show num ≤ a.m_capacity
      omega
    · exact h
  · intro data L hL hdata
    have hw : 0 < Pod.sizeof T := Pod.sizeof_pos
    have hn : L / Pod.sizeof T < 2 ^ 32 := lt_of_le_of_lt (Nat.div_le_self _ _) hL
    have hlen := allocate_array_length a ha (L / Pod.sizeof T) hn
    have hsz := allocate_size_le a (L / Pod.sizeof T) 0 (by omega)
    have hnw : L / Pod.sizeof T * Pod.sizeof T ≤ data.length :=
      le_trans (Nat.div_mul_le_self _ _) hdata
    unfold deserialize
    by_cases h0 : L / Pod.sizeof T = 0
    · simp only [ne_eq, h0, not_true_eq_false, if_false]
      refine ⟨_, rfl, ?_⟩
      rw [h0] at hsz
      exact hsz
    · simp only [ne_eq, h0, not_false_eq_true, if_true]
      rw [if_pos ⟨hlen, hnw⟩]
      exact ⟨_, rfl, hsz⟩
  · have hlen := allocate_array_length a ha v.m_size hv32
    have hsz := allocate_size_le a v.m_size 0 (by omega)
    unfold assign
    by_cases h0 : v.m_size = 0
    · simp only [ne_eq, h0, not_true_eq_false, if_false]
      refine ⟨_, rfl, ?_⟩
      rw [h0] at hsz
      exact hsz
    · simp only [ne_eq, h0, not_false_eq_true, if_true]
      rw [if_pos ⟨hlen, by omega⟩]
      exact ⟨_, rfl, hsz⟩
  · intro hlt
    unfold add
    rw [if_pos (by omega)]
    refine ⟨_, rfl, ?_⟩
    show a.m_size + 1 ≤ a.m_capacity
    omega
  · intro k hk
    exact hk

theorem size_le_capacity_witness :
    (example_array.m_size ≤ example_array.m_capacity ∧ Allocated example_array) ∧
    (∃ a1, resize example_array 1 = some a1 ∧ a1.m_size ≤ a1.m_capacity) ∧
    (∃ a1, assign example_array example_array = some a1 ∧ a1.m_size ≤ a1.m_capacity) :=
  have h := size_le_capacity example_array example_array (0, 0) (by decide) (by decide)
    (by decide) (by decide) (by decide)
  ⟨⟨by decide, by decide⟩, h.2.2.2.2.1 1, h.2.2.2.2.2.2.2.2.1⟩

/-- C27: `resize(new_size)` with `new_size > size()` leaves `size()` and `capacity()` as
they were, whether it reallocates (`new_size > capacity()`, the allocation then holds
`new_size` elements) or not (the array is not touched); the call returns when the
allocation holds the `size()` elements that are copied. -/
theorem resize_larger [Inhabited T] (a : pod_array T) (new_size : Nat)
    (h : a.m_size < new_size) (hal : a.m_size ≤ a.m_array.length) :
    ∃ a1, resize a new_size = some a1 ∧ a1.m_size = a.m_size ∧
      a1.m_capacity = a.m_capacity ∧
      (a.m_capacity < new_size → a1.m_array.length = new_size ∧
        a1.m_array.take a.m_size = a.m_array.take a.m_size) ∧
      (new_size ≤ a.m_capacity → a1 = a) := by
  unfold resize
  rw [if_pos h]
  by_cases h2 : new_size > a.m_capacity
  · rw [if_pos h2, if_pos hal]
    refine ⟨_, rfl, rfl, rfl, fun _ => ⟨?_, ?_⟩, fun h3 => by omega⟩
    · simp only [List.length_append, List.length_take, List.length_replicate]
      omega
    · simp only
      rw [List.take_append_of_le_length (by simp only [List.length_take]; omega)]
      rw [List.take_take, Nat.min_self]
  · rw [if_neg h2]
    exact ⟨_, rfl, rfl, rfl, fun h3 => by omega, fun _ => rfl⟩

theorem resize_larger_witness :
    (resize example_full 5).map (fun a => (a.m_size, a.m_capacity, a.m_array.length)) =
      some (2, 2, 5) ∧
    ∃ a1, resize example_full 5 = some a1 ∧ a1.m_size = example_full.m_size ∧
      a1.m_capacity = example_full.m_capacity ∧
      (example_full.m_capacity < 5 → a1.m_array.length = 5 ∧
        a1.m_array.take example_full.m_size = example_full.m_array.take example_full.m_size) ∧
      (5 ≤ example_full.m_capacity → a1 = example_full) :=
  ⟨by decide, resize_larger example_full 5 (by decide) (by decide)⟩

end pod_array
end agg

namespace agg
namespace pod_allocator

/-! ## `pod_allocator::remove_all` -/

theorem delete_blocks_some (blocks : List (Option (Nat × Nat))) (n : Nat)
    (h : ∀ k, k < n → ∃ b, blocks[k]? = some (some b)) : delete_blocks blocks n = some () := by
  induction n with
  | zero => rfl
  | succ n ih =>
    obtain ⟨b, hb⟩ := h n (Nat.lt_succ_self n)
    unfold delete_blocks
    rw [hb]
    exact ih (fun k hk => h k (Nat.lt_succ_of_lt hk))

/-- C22: `remove_all()` on a pool whose first `m_num_blocks` table entries point to blocks
returns, and the state is the one of the pool `pod_allocator(block_size, block_ptr_inc)`
just constructed: no blocks, no pointer table, no bytes left.  Hence each sequence of
`allocate` calls that follows gives, on the same heap, what it gives on the new pool: the
same state, blocks and spans. -/
theorem remove_all_fresh (a : pod_allocator)
    (h : ∀ k, k < a.m_num_blocks → ∃ b, a.m_blocks[k]? = some (some b)) :
    remove_all a = some (init a.m_block_size a.m_block_ptr_inc) ∧
    ∀ (heap : Heap) (reqs : List (Nat × Nat)),
      (remove_all a).bind (fun a0 => allocate_all heap a0 [] reqs) =
        allocate_all heap (init a.m_block_size a.m_block_ptr_inc) [] reqs := by
  have hr : remove_all a = some (init a.m_block_size a.m_block_ptr_inc) := by
    unfold remove_all
    by_cases h0 : a.m_num_blocks = 0
    · simp only [ne_eq, h0, not_true_eq_false, if_false]
      rfl
    · simp only [ne_eq, h0, not_false_eq_true, if_true]
      rw [delete_blocks_some a.m_blocks a.m_num_blocks h]
      rfl
  refine ⟨hr, fun heap reqs => ?_⟩
  rw [hr]
  rfl

theorem remove_all_fresh_witness :
    allocate (heap_from 16) (init 32 2) 5 1 = some (example_pool, 16) ∧
    (∀ k, k < example_pool.m_num_blocks → ∃ b, example_pool.m_blocks[k]? = some (some b)) ∧
    remove_all example_pool = some (init 32 2) ∧
    ∀ (heap : Heap) (reqs : List (Nat × Nat)),
      (remove_all example_pool).bind (fun a0 => allocate_all heap a0 [] reqs) =
        allocate_all heap (init 32 2) [] reqs :=
  have hb : ∀ k, k < example_pool.m_num_blocks →
      ∃ b, example_pool.m_blocks[k]? = some (some b) := by
    intro k hk
    have hk0 : k = 0 := by
      have : example_pool.m_num_blocks = 1 := rfl
      omega
    subst hk0
    exact ⟨(16, 32), rfl⟩
  ⟨by decide, hb, remove_all_fresh example_pool hb⟩

end pod_allocator
end agg

namespace agg

variable {α : Type}

/-! ## `quick_sort` on an array of at most nine elements -/

theorem sink_length (less : α → α → Bool) :
    ∀ (p : Nat) (arr : List α), (sink less p arr).length = arr.length := by
  intro p
  induction p with
  | zero => intro arr; rfl
  | succ p ih =>
    intro arr
    unfold sink
    split
    · split
      · rw [ih]; simp
      · rfl
    · rfl

theorem insertion_inner_eq_sink (less : α → α → Bool) :
    ∀ fuel (arr : List α) (j : Nat), j < fuel → j + 1 < arr.length →
      insertion_inner less 0 fuel arr j = some (sink less (j + 1) arr) := by
  intro fuel
  induction fuel with
  | zero => intro arr j h; omega
  | succ fuel ih =>
    intro arr j hf hlen
    have h0 : j < arr.length := by omega
    unfold insertion_inner sink
    rw [List.getElem?_eq_getElem hlen, List.getElem?_eq_getElem h0]
    simp only
    by_cases hc : less arr[j + 1] arr[j] = true
    · rw [if_pos hc, if_pos hc]
      have es : swap_elements arr (j + 1) j = some ((arr.set (j + 1) arr[j]).set j arr[j + 1]) := by
        unfold swap_elements
        rw [List.getElem?_eq_getElem hlen, List.getElem?_eq_getElem h0]
      rw [es]
      simp only
      by_cases hj : j = 0
      · subst hj
        rw [if_pos rfl]
        rfl
      · rw [if_neg hj, if_neg hj]
        have hj1 : j - 1 + 1 = j := by omega
        have := ih ((arr.set (j + 1) arr[j]).set j arr[j + 1]) (j - 1) (by omega)
          (by simp only [List.length_set]; omega)
        rw [hj1] at this
        exact this
    · rw [if_neg hc, if_neg hc]

theorem insertion_outer_eq_sink (less : α → α → Bool) (n : Nat) :
    ∀ fuel (arr : List α) (i : Nat), n - i < fuel → 1 ≤ i → arr.length = n →
      insertion_outer less 0 n fuel arr i (i - 1) =
        some ((List.range' i (n - i)).foldl (fun acc p => sink less p acc) arr) := by
  intro fuel
  induction fuel with
  | zero => intro arr i h; omega
  | succ fuel ih =>
    intro arr i hf hi hlen
    unfold insertion_outer
    by_cases hc : i < n
    · rw [if_pos hc]
      have hi1 : i - 1 + 1 = i := by omega
      have e1 := insertion_inner_eq_sink less (i - 1 + 1) arr (i - 1) (by omega) (by omega)
      rw [hi1] at e1
      rw [hi1, e1]
      simp only
      have e2 := ih (sink less i arr) (i + 1) (by omega) (by omega)
        (by rw [sink_length]; exact hlen)
      rw [Nat.add_sub_cancel] at e2
      rw [e2]
      have hr : n - i = (n - (i + 1)) + 1 := by omega
      rw [hr, List.range'_succ, List.foldl_cons]
    · rw [if_neg hc]
      have hr : n - i = 0 := by omega
      rw [hr]
      rfl

theorem insertion_sort_eq_whole (less : α → α → Bool) (arr : List α) :
    insertion_sort less arr 0 arr.length = some (insertion_sort_whole less arr) := by
  unfold insertion_sort insertion_sort_whole
  have e := insertion_outer_eq_sink less arr.length (arr.length - 0 + 1) arr (0 + 1)
    (by omega) (by omega) rfl
  rw [Nat.add_sub_cancel] at e
  rw [e, List.range_eq_range']
  by_cases h0 : arr.length = 0
  · rw [h0]
    rfl
  · have hr : arr.length = (arr.length - (0 + 1)) + 1 := by omega
    conv_rhs => rw [hr, List.range'_succ, List.foldl_cons]
    rfl

/-- C25: for an array of at most nine elements and every predicate `less`, `quick_sort`
returns the result of a single in-place insertion sort of the whole array; it does so
with a stack of no pairs, so that it never pushes, and its record of partition steps is
empty; an array of fewer than two elements is returned as it is. -/
theorem quick_sort_small (less : α → α → Bool) (arr : List α) (hn : arr.length ≤ 9) :
    quick_sort less arr = some (insertion_sort_whole less arr) ∧
    quick_sort_trace less 0 arr = some (insertion_sort_whole less arr, []) ∧
    (arr.length < 2 → quick_sort less arr = some arr) := by
  have hins := insertion_sort_eq_whole less arr
  by_cases h2 : arr.length < 2
  · have hw : insertion_sort_whole less arr = arr := by
      unfold insertion_sort_whole
      match arr, h2 with
      | [], _ => rfl
      | [a], _ => rfl
      | _ :: _ :: _, h => exact absurd h (by simp)
    have hq : quick_sort less arr = some arr := by
      unfold quick_sort
      rw [if_pos h2]
    refine ⟨by rw [hw]; exact hq, ?_, fun _ => hq⟩
    unfold quick_sort_trace
    rw [if_pos h2, hw]
  · have hc : ¬ ((arr.length : Int) - ((0 : Nat) : Int) > ((9 : Nat) : Int)) := by omega
    refine ⟨?_, ?_, fun h => absurd h h2⟩
    · unfold quick_sort
      rw [if_neg h2, if_neg (by omega)]
      unfold quick_sort_loop
      simp only [quick_sort_threshold]
      rw [if_neg hc, hins]
    · unfold quick_sort_trace
      rw [if_neg h2, if_neg (by omega)]
      unfold quick_sort_loop_trace
      simp only [quick_sort_threshold]
      rw [if_neg hc, hins]

theorem quick_sort_small_witness :
    ([5, 3, 3, 1, 4, 9, 0, 2, 2] : List Nat).length ≤ 9 ∧
    insertion_sort_whole (fun a b : Nat => decide (a ≤ b)) [5, 3, 3, 1, 4, 9, 0, 2, 2] =
      [0, 1, 2, 2, 3, 3, 4, 5, 9] ∧
    quick_sort (fun a b : Nat => decide (a ≤ b)) [5, 3, 3, 1, 4, 9, 0, 2, 2] =
      some (insertion_sort_whole (fun a b : Nat => decide (a ≤ b)) [5, 3, 3, 1, 4, 9, 0, 2, 2]) :=
  ⟨by decide, by decide,
    (quick_sort_small (fun a b : Nat => decide (a ≤ b)) [5, 3, 3, 1, 4, 9, 0, 2, 2]
      (by decide)).1⟩

end agg

namespace agg

variable {α : Type}

/-! ## `quick_sort`: the depth of the stack and the bounds of the scans -/

theorem quick_sort_loop_cap_mono (less : α → α → Bool) {c1 c2 : Nat} (hc : c1 ≤ c2) :
    ∀ fuel (arr : List α) (base limit : Nat) (stack : List (Nat × Nat)) (out : List α),
      quick_sort_loop less c1 fuel arr base limit stack = some out →
      quick_sort_loop less c2 fuel arr base limit stack = some out := by
  intro fuel
  induction fuel with
  | zero =>
    intro arr base limit stack out h
    unfold quick_sort_loop at h
    exact absurd h (by simp)
  | succ fuel ih =>
    intro arr base limit stack out h
    unfold quick_sort_loop at h ⊢
    by_cases ht : (limit : Int) - (base : Int) > (quick_sort_threshold : Int)
    · rw [if_pos ht] at h ⊢
      cases hp : partition_step less arr base limit with
      | none => rw [hp] at h; exact absurd h (by simp)
      | some r =>
        obtain ⟨arr1, i, j⟩ := r
        rw [hp] at h
        simp only at h ⊢
        by_cases hk : c1 ≤ stack.length
        · rw [if_pos hk] at h; exact absurd h (by simp)
        · rw [if_neg hk] at h
          by_cases hk2 : c2 ≤ stack.length
          · omega
          · rw [if_neg hk2]
            by_cases hpush : (j : Int) - (base : Int) > (limit : Int) - (i : Int)
            · rw [if_pos hpush] at h ⊢
              exact ih _ _ _ _ _ h
            · rw [if_neg hpush] at h ⊢
              exact ih _ _ _ _ _ h
    · rw [if_neg ht] at h ⊢
      cases hp : insertion_sort less arr base limit with
      | none => rw [hp] at h; exact absurd h (by simp)
      | some arr1 =>
        rw [hp] at h
        simp only at h ⊢
        cases stack with
        | nil => exact h
        | cons r rest =>
          obtain ⟨b, l⟩ := r
          simp only at h ⊢
          exact ih _ _ _ _ _ h

theorem quick_sort_loop_trace_fst (less : α → α → Bool) (cap : Nat) :
    ∀ fuel (arr : List α) (base limit : Nat) (stack : List (Nat × Nat))
      (log : List (Nat × Nat × Nat × Nat)),
      (quick_sort_loop_trace less cap fuel arr base limit stack log).map Prod.fst =
        quick_sort_loop less cap fuel arr base limit stack := by
  intro fuel
  induction fuel with
  | zero =>
    intro arr base limit stack log
    rfl
  | succ fuel ih =>
    intro arr base limit stack log
    unfold quick_sort_loop_trace quick_sort_loop
    by_cases ht : (limit : Int) - (base : Int) > (quick_sort_threshold : Int)
    · rw [if_pos ht, if_pos ht]
      cases hp : partition_step less arr base limit with
      | none => rfl
      | some r =>
        obtain ⟨arr1, i, j⟩ := r
        simp only
        by_cases hk : cap ≤ stack.length
        · rw [if_pos hk, if_pos hk]; rfl
        · rw [if_neg hk, if_neg hk]
          by_cases hpush : (j : Int) - (base : Int) > (limit : Int) - (i : Int)
          · rw [if_pos hpush, if_pos hpush]
            exact ih _ _ _ _ _
          · rw [if_neg hpush, if_neg hpush]
            exact ih _ _ _ _ _
    · rw [if_neg ht, if_neg ht]
      cases hp : insertion_sort less arr base limit with
      | none => rfl
      | some arr1 =>
        simp only
        cases stack with
        | nil => rfl
        | cons r rest =>
          obtain ⟨b, l⟩ := r
          simp only
          exact ih _ _ _ _ _

theorem quick_sort_loop_trace_bounds {less : α → α → Bool} (hswo : StrictWeakOrder less)
    (cap n : Nat) :
    ∀ fuel (arr : List α) (base limit : Nat) (stack : List (Nat × Nat))
      (log : List (Nat × Nat × Nat × Nat)) (out : List α) (tr : List (Nat × Nat × Nat × Nat)),
      arr.length = n → RangesOK n ((base, limit) :: stack) →
      quick_sort_loop_trace less cap fuel arr base limit stack log = some (out, tr) →
      (∀ b l i j, (b, l, i, j) ∈ log → b < j ∧ j < i ∧ i ≤ l - 1 ∧ l ≤ n) →
      ∀ b l i j, (b, l, i, j) ∈ tr → b < j ∧ j < i ∧ i ≤ l - 1 ∧ l ≤ n := by
  intro fuel
  induction fuel with
  | zero =>
    intro arr base limit stack log out tr hn hok h
    unfold quick_sort_loop_trace at h
    exact absurd h (by simp)
  | succ fuel ih =>
    intro arr base limit stack log out tr hn hok h hlog
    have hbl : base ≤ limit ∧ limit ≤ n := hok (base, limit) (List.mem_cons_self _ _)
    have hokS : RangesOK n stack := fun r hr => hok r (List.mem_cons_of_mem _ hr)
    unfold quick_sort_loop_trace at h
    simp only [quick_sort_threshold] at h
    by_cases hc : (limit : Int) - (base : Int) > ((9 : Nat) : Int)
    · rw [if_pos hc] at h
      have hbig : base + 9 < limit := by omega
      obtain ⟨arr1, i, j, pv, e1, sh1, pm1, hbj, hji, hil, hL, hR⟩ :=
        partition_step_spec hswo arr base limit (by omega) hbig
      rw [e1] at h
      simp only at h
      have l1 : arr1.length = n := by rw [sh1.1]; exact hn
      have hlog1 : ∀ b l i1 j1, (b, l, i1, j1) ∈ (base, limit, i, j) :: log →
          b < j1 ∧ j1 < i1 ∧ i1 ≤ l - 1 ∧ l ≤ n := by
        intro b l i1 j1 hm
        rcases List.mem_cons.1 hm with h1 | h1
        · cases h1
          exact ⟨hbj, hji, by omega, hbl.2⟩
        · exact hlog b l i1 j1 h1
      by_cases hk : cap ≤ stack.length
      · rw [if_pos hk] at h; exact absurd h (by simp)
      · rw [if_neg hk] at h
        by_cases hpush : (j : Int) - (base : Int) > (limit : Int) - (i : Int)
        · rw [if_pos hpush] at h
          exact ih arr1 i limit ((base, j) :: stack) _ out tr l1
            (by
              intro r hr
              rcases List.mem_cons.1 hr with h1 | h1
              · subst h1; exact ⟨Nat.le_of_lt hil, hbl.2⟩
              · rcases List.mem_cons.1 h1 with h1 | h1
                · subst h1; exact ⟨by omega, by omega⟩
                · exact hokS r h1)
            h hlog1
        · rw [if_neg hpush] at h
          exact ih arr1 base j ((i, limit) :: stack) _ out tr l1
            (by
              intro r hr
              rcases List.mem_cons.1 hr with h1 | h1
              · subst h1; exact ⟨by omega, by omega⟩
              · rcases List.mem_cons.1 h1 with h1 | h1
                · subst h1; exact ⟨Nat.le_of_lt hil, hbl.2⟩
                · exact hokS r h1)
            h hlog1
    · rw [if_neg hc] at h
      obtain ⟨arr1, e1, sh1, -, -⟩ := insertion_sort_spec hswo arr base limit (by omega)
      rw [e1] at h
      simp only at h
      have l1 : arr1.length = n := by rw [sh1.1]; exact hn
      cases stack with
      | nil =>
        simp only [Option.some.injEq, Prod.mk.injEq] at h
        rw [← h.2]
        exact hlog
      | cons r rest =>
        obtain ⟨b, l⟩ := r
        simp only at h
        exact ih arr1 b l rest log out tr l1 hokS h hlog

theorem quick_sort_loop_returns {less : α → α → Bool} (hswo : StrictWeakOrder less)
    (cap : Nat) (arr : List α) (hcap : arr.length < 10 * 2 ^ cap) :
    ∃ out, quick_sort_loop less cap (2 * arr.length + 1) arr 0 arr.length [] = some out := by
  obtain ⟨out, e, -, -⟩ := quick_sort_loop_spec hswo cap arr.length hcap
    (2 * arr.length + 1) arr 0 arr.length [] rfl
    (by intro r hr; simp at hr; subst hr; simp)
    (by simp [RangesDisjoint])
    (by
      intro p q hpq hq hr
      exact absurd ⟨Nat.zero_le _, hq⟩ (hr (0, arr.length) (List.mem_cons_self _ _)))
    (by simp [DepthOK])
    (by simp [pending_work])
  exact ⟨out, e⟩

/-- C24: for an array of `n < 2^31` elements and a strict weak ordering, the explicit
stack of `quick_sort` never holds more than `floor(log2 n)` pending ranges: the loop run
with a stack of only `floor(log2 n)` pairs, in which a push onto the full stack is
undefined, returns what `quick_sort` returns with its stack of 40 pairs; and
`floor(log2 n)` is at most 40. -/
theorem quick_sort_stack_depth (less : α → α → Bool) (hswo : StrictWeakOrder less)
    (arr : List α) (hn : arr.length < 2 ^ 31) :
    Nat.log2 arr.length ≤ quick_sort_stack_pairs ∧
    ∃ out, quick_sort less arr = some out ∧
      (2 ≤ arr.length →
        quick_sort_loop less (Nat.log2 arr.length) (2 * arr.length + 1) arr 0 arr.length [] =
          some out) := by
  have hlog : Nat.log2 arr.length ≤ quick_sort_stack_pairs := by
    simp only [quick_sort_stack_pairs]
    by_cases h0 : arr.length = 0
    · rw [h0]; simp [Nat.log2]
    · have := (Nat.log2_lt h0).2 hn
      omega
  refine ⟨hlog, ?_⟩
  unfold quick_sort
  by_cases h2 : arr.length < 2
  · rw [if_pos h2]
    exact ⟨arr, rfl, fun h => by omega⟩
  · rw [if_neg h2, if_neg (by omega)]
    have hlt : arr.length < 2 ^ (Nat.log2 arr.length + 1) := Nat.lt_log2_self
    have hcap : arr.length < 10 * 2 ^ Nat.log2 arr.length := by
      rw [Nat.pow_succ] at hlt
      omega
    obtain ⟨out, e⟩ := quick_sort_loop_returns hswo (Nat.log2 arr.length) arr hcap
    exact ⟨out, quick_sort_loop_cap_mono less hlog _ _ _ _ _ _ e, fun _ => e⟩

theorem quick_sort_stack_depth_witness :
    ((List.range 12).reverse.length < 2 ^ 31) ∧
    quick_sort_loop (fun a b : Nat => decide (a < b)) 1 25 (List.range 12).reverse 0 12 [] =
      some (List.range 12) ∧
    Nat.log2 (List.range 12).reverse.length ≤ quick_sort_stack_pairs ∧
    ∃ out, quick_sort (fun a b : Nat => decide (a < b)) (List.range 12).reverse = some out ∧
      (2 ≤ (List.range 12).reverse.length →
        quick_sort_loop (fun a b : Nat => decide (a < b))
          (Nat.log2 (List.range 12).reverse.length) (2 * (List.range 12).reverse.length + 1)
          (List.range 12).reverse 0 (List.range 12).reverse.length [] = some out) :=
  ⟨by decide, by decide,
    quick_sort_stack_depth _ strictWeakOrder_nat_lt (List.range 12).reverse (by decide)⟩

/-- C23: for every array and every strict weak ordering, `quick_sort` returns, so that
each index it reads or writes is inside the array, an array of equal elements included; and
in each partition step, on a range `[base, limit)` of the array, the final and largest
value of the left scan index `i` is at most `limit - 1` and the final and smallest value of
the right scan index `j` is above `base`. -/
theorem quick_sort_in_bounds (less : α → α → Bool) (hswo : StrictWeakOrder less)
    (arr : List α) :
    ∃ out tr, quick_sort_trace less quick_sort_stack_pairs arr = some (out, tr) ∧
      quick_sort less arr = some out ∧
      ∀ base limit i j, (base, limit, i, j) ∈ tr →
        base < j ∧ j < i ∧ i ≤ limit - 1 ∧ limit ≤ arr.length := by
  unfold quick_sort_trace quick_sort
  by_cases h2 : arr.length < 2
  · rw [if_pos h2, if_pos h2]
    exact ⟨arr, [], rfl, rfl, fun _ _ _ _ h => absurd h (List.not_mem_nil _)⟩
  · rw [if_neg h2, if_neg h2]
    by_cases h31 : 2 ^ 31 ≤ arr.length
    · rw [if_pos h31, if_pos h31]
      exact ⟨arr, [], rfl, rfl, fun _ _ _ _ h => absurd h (List.not_mem_nil _)⟩
    · rw [if_neg h31, if_neg h31]
      obtain ⟨out, e⟩ := quick_sort_loop_returns hswo quick_sort_stack_pairs arr
        (by simp only [quick_sort_stack_pairs]; omega)
      have hf := quick_sort_loop_trace_fst less quick_sort_stack_pairs (2 * arr.length + 1)
        arr 0 arr.length [] []
      rw [e] at hf
      cases ht : quick_sort_loop_trace less quick_sort_stack_pairs (2 * arr.length + 1)
          arr 0 arr.length [] [] with
      | none => rw [ht] at hf; exact absurd hf (by simp)
      | some r =>
        obtain ⟨out1, tr⟩ := r
        rw [ht] at hf
        simp only [Option.map_some', Option.some.injEq] at hf
        subst hf
        refine ⟨out1, tr, rfl, e, ?_⟩
        exact quick_sort_loop_trace_bounds hswo quick_sort_stack_pairs arr.length
          (2 * arr.length + 1) arr 0 arr.length [] [] out1 tr rfl
          (by intro r hr; simp at hr; subst hr; simp) ht
          (fun _ _ _ _ h => absurd h (List.not_mem_nil _))

theorem quick_sort_in_bounds_witness :
    quick_sort_trace (fun a b : Nat => decide (a < b)) quick_sort_stack_pairs
        (List.replicate 12 1) = some (List.replicate 12 1, [(0, 12, 7, 5)]) ∧
    ∃ out tr, quick_sort_trace (fun a b : Nat => decide (a < b)) quick_sort_stack_pairs
        (List.replicate 12 1) = some (out, tr) ∧
      quick_sort (fun a b : Nat => decide (a < b)) (List.replicate 12 1) = some out ∧
      ∀ base limit i j, (base, limit, i, j) ∈ tr →
        base < j ∧ j < i ∧ i ≤ limit - 1 ∧ limit ≤ (List.replicate 12 1).length :=
  ⟨by decide, quick_sort_in_bounds _ strictWeakOrder_nat_lt (List.replicate 12 1)⟩

end agg

namespace agg
namespace pod_deque
variable {T : Type}

/-! ## `pod_deque`: `deserialize(start, empty_val, data, byte_size)` -/

end pod_deque
end agg

namespace agg
namespace pod_deque
variable {T : Type}

/-! ## `pod_deque`: the representation invariant under the mutating operations -/

end pod_deque
end agg

namespace agg

variable {α : Type}

/-! ## `remove_duplicates` on a sorted array -/

theorem filterMap_getElem?_total {β γ : Type} (f : β → Option γ) :
    ∀ (l : List β), (∀ k ∈ l, ∃ y, f k = some y) →
      ∀ (m : Nat), (l.filterMap f)[m]? = (l[m]?).bind f := by
  intro l
  induction l with
  | nil => intro _ m; simp
  | cons k l ih =>
    intro h m
    obtain ⟨y, hy⟩ := h k (List.mem_cons_self _ _)
    rw [List.filterMap_cons_some hy]
    cases m with
    | zero => simp [hy]
    | succ m =>
      simp only [List.getElem?_cons_succ]
      exact ih (fun k hk => h k (List.mem_cons_of_mem _ hk)) m

theorem mem_run_starts (equal : α → α → Bool) (a : List α) (n k : Nat) :
    k ∈ run_starts equal a n ↔ k < n ∧ starts_run equal a k = true := by
  unfold run_starts
  rw [List.mem_filter, List.mem_range]

theorem run_starts_increasing (equal : α → α → Bool) (a : List α) (n : Nat) (p q s t : Nat)
    (hpq : p < q) (hp : (run_starts equal a n)[p]? = some s)
    (hq : (run_starts equal a n)[q]? = some t) : s < t := by
  have hpw : (run_starts equal a n).Pairwise (fun x y => x < y) :=
    List.Pairwise.filter _ (List.pairwise_lt_range n)
  obtain ⟨h1, e1⟩ := List.getElem?_eq_some.1 hp
  obtain ⟨h2, e2⟩ := List.getElem?_eq_some.1 hq
  rw [← e1, ← e2]
  exact List.pairwise_iff_getElem.1 hpw p q h1 h2 hpq

theorem remove_duplicates_prefix (equal : α → α → Bool) (a : List α) :
    ∃ out, remove_duplicates equal a = some (out, (run_starts equal a a.length).length) ∧
      out.length = a.length ∧
      out.take (run_starts equal a a.length).length =
        (run_starts equal a a.length).filterMap (fun k => a[k]?) := by
  unfold remove_duplicates
  by_cases h2 : a.length < 2
  · rw [if_pos h2]
    match a, h2 with
    | [], _ => exact ⟨[], by simp [run_starts], rfl, by simp [run_starts]⟩
    | [x], _ =>
      exact ⟨[x], by simp [run_starts, starts_run, List.range_succ], rfl,
        by simp [run_starts, starts_run, List.range_succ]⟩
    | _ :: _ :: _, h => exact absurd h (by simp)
  · rw [if_neg h2]
    exact remove_duplicates_loop_spec equal a a.length a 1 1 (by omega) rfl
      (le_refl _) (le_refl _) (by omega) (fun _ _ => rfl) rfl
      (by simp [run_starts, starts_run, List.range_succ])
      (by
        have h0 : 0 < a.length := by omega
        simp [run_starts, starts_run, List.range_succ, List.getElem?_eq_getElem h0,
          List.take_one]
        cases a with
        | nil => simp at h0
        | cons x xs => simp)

theorem prefix_getElem? (equal : α → α → Bool) (a out : List α)
    (ht : out.take (run_starts equal a a.length).length =
      (run_starts equal a a.length).filterMap (fun k => a[k]?)) (m : Nat)
    (hm : m < (run_starts equal a a.length).length) :
    ∃ s x, (run_starts equal a a.length)[m]? = some s ∧ s < a.length ∧
      starts_run equal a s = true ∧ a[s]? = some x ∧ out[m]? = some x := by
  have hs : (run_starts equal a a.length)[m]? = some (run_starts equal a a.length)[m] :=
    List.getElem?_eq_getElem hm
  obtain ⟨hlt, hrun⟩ := (mem_run_starts equal a a.length _).1 (List.getElem?_mem hs)
  refine ⟨_, a[(run_starts equal a a.length)[m]], hs, hlt, hrun, List.getElem?_eq_getElem hlt, ?_⟩
  rw [← List.getElem?_take_of_lt hm, ht, filterMap_getElem?_total _ _ _ m, hs]
  · exact List.getElem?_eq_getElem hlt
  · intro k hk
    exact ⟨_, List.getElem?_eq_getElem (run_starts_lt equal a a.length k hk)⟩

theorem equal_iff {less equal : α → α → Bool}
    (heq : ∀ x y, equal x y = (!less x y && !less y x)) (x y : α) :
    equal x y = true ↔ less x y = false ∧ less y x = false := by
  rw [heq]
  cases less x y <;> cases less y x <;> simp

theorem sorted_le {less : α → α → Bool} (hswo : StrictWeakOrder less) (a : List α)
    (hsorted : ∀ i (h : i + 1 < a.length), less a[i + 1] a[i] = false) :
    ∀ (q p : Nat) (x y : α), p ≤ q → a[p]? = some x → a[q]? = some y → less y x = false := by
  intro q
  induction q with
  | zero =>
    intro p x y hpq hx hy
    have : p = 0 := by omega
    subst this
    rw [hx] at hy
    cases hy
    exact hswo.irrefl _
  | succ q ih =>
    intro p x y hpq hx hy
    by_cases hp : p = q + 1
    · subst hp
      rw [hx] at hy
      cases hy
      exact hswo.irrefl _
    · obtain ⟨hq1, ey⟩ := List.getElem?_eq_some.1 hy
      have hmid := ih p x a[q] (by omega) hx (List.getElem?_eq_getElem (by omega))
      have hadj := hsorted q hq1
      rw [ey] at hadj
      exact StrictWeakOrder_le_trans hswo x a[q] y hmid hadj

theorem run_start_above {less equal : α → α → Bool} (hswo : StrictWeakOrder less)
    (heq : ∀ x y, equal x y = (!less x y && !less y x)) (a : List α)
    (hsorted : ∀ i (h : i + 1 < a.length), less a[i + 1] a[i] = false)
    (s t : Nat) (x y : α) (hst : s < t) (hrun : starts_run equal a t = true)
    (hx : a[s]? = some x) (hy : a[t]? = some y) : less x y = true := by
  obtain ⟨ht, ey⟩ := List.getElem?_eq_some.1 hy
  have ht1 : t - 1 < a.length := by omega
  have ht0 : (t == 0) = false := by
    simp only [beq_eq_false_iff_ne, ne_eq]
    omega
  unfold starts_run at hrun
  rw [ht0, Bool.false_or, hy, List.getElem?_eq_getElem ht1] at hrun
  simp only [Bool.not_eq_true', Bool.not_eq_eq_eq_not, Bool.not_true] at hrun
  -- the predecessor of `a[t]` is not after it and not equal to it
  have hadj : less y a[t - 1] = false :=
    sorted_le hswo a hsorted t (t - 1) a[t - 1] y (by omega)
      (List.getElem?_eq_getElem ht1) hy
  have hlt : less a[t - 1] y = true := by
    cases h : less a[t - 1] y with
    | true => rfl
    | false =>
      have := (equal_iff heq y a[t - 1]).2 ⟨hadj, h⟩
      rw [hrun] at this
      exact absurd this (by simp)
  have hle : less a[t - 1] x = false :=
    sorted_le hswo a hsorted (t - 1) s x a[t - 1] (by omega) hx
      (List.getElem?_eq_getElem ht1)
  cases h : less x y with
  | true => rfl
  | false =>
    have := StrictWeakOrder_le_trans hswo y x a[t - 1] h hle
    rw [hlt] at this
    exact absurd this (by simp)

theorem run_start_below {less equal : α → α → Bool} (hswo : StrictWeakOrder less)
    (heq : ∀ x y, equal x y = (!less x y && !less y x)) (a : List α) :
    ∀ (i : Nat) (x : α), a[i]? = some x →
      ∃ s y, s ≤ i ∧ starts_run equal a s = true ∧ a[s]? = some y ∧ equal x y = true := by
  intro i
  induction i with
  | zero =>
    intro x hx
    exact ⟨0, x, le_refl _, rfl, hx, (equal_iff heq x x).2 ⟨hswo.irrefl _, hswo.irrefl _⟩⟩
  | succ i ih =>
    intro x hx
    by_cases hrun : starts_run equal a (i + 1) = true
    · exact ⟨i + 1, x, le_refl _, hrun, hx,
        (equal_iff heq x x).2 ⟨hswo.irrefl _, hswo.irrefl _⟩⟩
    · obtain ⟨hi1, ex⟩ := List.getElem?_eq_some.1 hx
      have hi : i < a.length := by omega
      obtain ⟨s, y, hsi, hs, hy, hiy⟩ := ih a[i] (List.getElem?_eq_getElem hi)
      have hxi : equal x a[i] = true := by
        unfold starts_run at hrun
        have h0 : (i + 1 == 0) = false := by simp
        rw [h0, Bool.false_or, hx] at hrun
        simp only [Nat.add_sub_cancel, List.getElem?_eq_getElem hi] at hrun
        cases h : equal x a[i] with
        | true => rfl
        | false => rw [h] at hrun; exact absurd rfl hrun
      obtain ⟨h1, h2⟩ := (equal_iff heq _ _).1 hxi
      obtain ⟨h3, h4⟩ := (equal_iff heq _ _).1 hiy
      exact ⟨s, y, by omega, hs, hy,
        (equal_iff heq x y).2 (hswo.incomp_trans x a[i] y h1 h2 h3 h4)⟩

/-- C29: for an array that is sorted under a strict weak ordering `less`, with `equal(a, b)`
true exactly when neither `less(a, b)` nor `less(b, a)`, `remove_duplicates` returns a
count `r` and an array whose first `r` elements are strictly increasing under `less`, so
that no two of them are equal; each element of the original array is equal to exactly one of them; and `remove_duplicates` on
that prefix returns `r` again and leaves it as it is. -/
theorem remove_duplicates_sorted (less equal : α → α → Bool) (hswo : StrictWeakOrder less)
    (heq : ∀ x y, equal x y = (!less x y && !less y x)) (a : List α)
    (hsorted : ∀ i (h : i + 1 < a.length), less a[i + 1] a[i] = false) :
    ∃ out r, remove_duplicates equal a = some (out, r) ∧ r ≤ a.length ∧
      (∀ (p q : Nat) (x y : α), p < q → q < r → out[p]? = some x → out[q]? = some y →
        less x y = true ∧ equal x y = false) ∧
      (∀ (i : Nat) (x : α), a[i]? = some x → ∃! m, m < r ∧ ∃ y, out[m]? = some y ∧ equal x y = true) ∧
      remove_duplicates equal (out.take r) = some (out.take r, r) := by
  obtain ⟨out, e, hl, ht⟩ := remove_duplicates_prefix equal a
  have hr : (run_starts equal a a.length).length ≤ a.length := by
    unfold run_starts
    exact le_trans (List.length_filter_le _ _) (by rw [List.length_range])
  have hinc : ∀ (p q : Nat) (x y : α), p < q → q < (run_starts equal a a.length).length →
      out[p]? = some x → out[q]? = some y → less x y = true := by
    intro p q x y hpq hq hx hy
    obtain ⟨s, x1, es, hs, -, ax, ox⟩ := prefix_getElem? equal a out ht p (by omega)
    obtain ⟨t, y1, et, ht1, hrun, ay, oy⟩ := prefix_getElem? equal a out ht q hq
    rw [hx] at ox
    rw [hy] at oy
    cases ox
    cases oy
    exact run_start_above hswo heq a hsorted s t x y
      (run_starts_increasing equal a a.length p q s t hpq es et) hrun ax ay
  refine ⟨out, _, e, hr, ?_, ?_, ?_⟩
  · intro p q x y hpq hq hx hy
    have hlt := hinc p q x y hpq hq hx hy
    refine ⟨hlt, ?_⟩
    rw [heq, hlt]
    rfl
  · intro i x hx
    obtain ⟨hi, -⟩ := List.getElem?_eq_some.1 hx
    obtain ⟨s, y, hsi, hs, hy, hxy⟩ := run_start_below hswo heq a i x hx
    have hmem : s ∈ run_starts equal a a.length :=
      (mem_run_starts equal a a.length s).2 ⟨by omega, hs⟩
    obtain ⟨m, hm, em⟩ := List.mem_iff_getElem.1 hmem
    obtain ⟨s1, y1, es, -, -, ay, oy⟩ := prefix_getElem? equal a out ht m hm
    rw [List.getElem?_eq_getElem hm, em] at es
    cases es
    rw [hy] at ay
    cases ay
    refine ⟨m, ⟨hm, y, oy, hxy⟩, ?_⟩
    rintro m2 ⟨hm2, y2, oy2, hxy2⟩
    obtain ⟨h1, h2⟩ := (equal_iff heq _ _).1 hxy
    obtain ⟨h3, h4⟩ := (equal_iff heq _ _).1 hxy2
    have hyy := hswo.incomp_trans y x y2 h2 h1 h3 h4
    rcases Nat.lt_trichotomy m2 m with h | h | h
    · have := hinc m2 m y2 y h hm oy2 oy
      rw [hyy.2] at this
      exact absurd this (by simp)
    · exact h
    · have := hinc m m2 y y2 h hm2 oy oy2
      rw [hyy.1] at this
      exact absurd this (by simp)
  · generalize hrdef : (run_starts equal a a.length).length = r at hr hinc ⊢
    have hpl : (out.take r).length = r := by
      rw [List.length_take]
      omega
    obtain ⟨out2, e2, hl2, ht2⟩ := remove_duplicates_prefix equal (out.take r)
    have hall : run_starts equal (out.take r) (out.take r).length = List.range r := by
      rw [hpl]
      unfold run_starts
      apply List.filter_eq_self.2
      intro k hk
      have hkr : k < r := List.mem_range.1 hk
      by_cases hk0 : k = 0
      · subst hk0; rfl
      · have hk1 : k - 1 < (out.take r).length := by omega
        have hk2 : k < (out.take r).length := by omega
        have hlt := hinc (k - 1) k (out.take r)[k - 1] (out.take r)[k] (by omega) hkr
          (by rw [← List.getElem?_take_of_lt (by omega : k - 1 < r)]
              exact List.getElem?_eq_getElem hk1)
          (by rw [← List.getElem?_take_of_lt hkr]
              exact List.getElem?_eq_getElem hk2)
        unfold starts_run
        rw [List.getElem?_eq_getElem hk2, List.getElem?_eq_getElem hk1]
        have hne : equal (out.take r)[k] (out.take r)[k - 1] = false := by
          rw [heq, hlt]
          simp
        simp only [hne, Bool.not_false, Bool.or_true]
    rw [hall, List.length_range] at e2 ht2
    rw [e2]
    have hout2 : out2 = out.take r := by
      have h1 : out2.take r = out2 := List.take_of_length_le (by omega)
      rw [← h1, ht2]
      apply List.ext_getElem?
      intro m
      rw [filterMap_getElem?_total _ _ _ m]
      · by_cases hm : m < r
        · rw [List.getElem?_range hm]
          rfl
        · rw [List.getElem?_eq_none (by rw [List.length_range]; omega),
            List.getElem?_eq_none (by omega)]
          rfl
      · intro k hk
        have hkr : k < r := List.mem_range.1 hk
        exact ⟨_, List.getElem?_eq_getElem (by omega : k < (out.take r).length)⟩
    rw [hout2]

theorem remove_duplicates_sorted_witness :
    (∀ x y : Nat, (x == y) = (!decide (x < y) && !decide (y < x))) ∧
    (remove_duplicates (fun x y : Nat => x == y) [1, 1, 2, 3, 3, 3, 5]).map
      (fun r => (r.1.take r.2, r.2)) = some ([1, 2, 3, 5], 4) ∧
    remove_duplicates (fun x y : Nat => x == y) [1, 2, 3, 5] = some ([1, 2, 3, 5], 4) ∧
    ∃ out r, remove_duplicates (fun x y : Nat => x == y) [1, 1, 2, 3, 3, 3, 5] = some (out, r) ∧
      r ≤ ([1, 1, 2, 3, 3, 3, 5] : List Nat).length ∧
      (∀ (p q : Nat) (x y : Nat), p < q → q < r → out[p]? = some x → out[q]? = some y →
        decide (x < y) = true ∧ (x == y) = false) ∧
      (∀ (i : Nat) (x : Nat), ([1, 1, 2, 3, 3, 3, 5] : List Nat)[i]? = some x →
        ∃! m, m < r ∧ ∃ y, out[m]? = some y ∧ (x == y) = true) ∧
      remove_duplicates (fun x y : Nat => x == y) (out.take r) = some (out.take r, r) :=
  have heq : ∀ x y : Nat, (x == y) = (!decide (x < y) && !decide (y < x)) := by
    intro x y
    by_cases h : x = y
    · subst h; simp
    · have : x < y ∨ y < x := by omega
      rcases this with h1 | h1
      · simp [h, h1]
      · simp [h, h1]
  ⟨heq, by decide, by decide,
    remove_duplicates_sorted (fun a b : Nat => decide (a < b)) (fun x y : Nat => x == y)
      strictWeakOrder_nat_lt heq [1, 1, 2, 3, 3, 3, 5]
      (by
        intro i h
        have hi : i < 6 := by
          simp only [List.length_cons, List.length_nil] at h
          omega
        interval_cases i <;> rfl)⟩

end agg
